import Mathlib

/-!
# EV analytics dashboard: filtering, sorting, paging and aggregations

A shallow embedding of the pure computations of `src/components/Dashboard.jsx`
(`filteredData`, `sortedData`, the page slice of the table,
`getMakeDistribution`, `getCountyDistribution`, `getRangeByMake`,
`getStatistics`, the growth and range series of `getAdvancedStatistics` and the
handlers of the filter session) together with the properties proved about them.

Conventions of the embedding.

* A JavaScript string is a Lean `String`; where JavaScript looks at UTF-16 code
  units (the relational operators) the string is first encoded by `utf16`.
* A property read `vehicle[k]` is an `Option String`: `none` is `undefined`
  (the row has no cell under that header).
* A JavaScript number that is known to be integral is an `Int`; `NaN` is `none`
  in an `Option Int`. The totals of the aggregations are a `Num`: an exact
  integer, `NaN` or an infinity. Quotients are rounded to double precision as
  exact fractions before `Math.round` or `toFixed` reads them.
* An object filled by a grouping reducer is the list of its properties in the
  order of `Object.entries`; a `Set` is the list of its elements without
  repetition.
-/

namespace Dashboard

/-! ## Records -/

/-- The result of reading a property of a parsed row: `none` is `undefined`. -/
abbrev Value := Option String

/-- One row as produced by `Papa.parse(csv, { header: true })`: the cells of the
row keyed by the header names, in column order. A row shorter than the header
has no entry for the trailing columns. -/
abbrev Record := List (String × String)

/-- Property read `vehicle[k]`. -/
def Record.get (r : Record) (k : String) : Value :=
  match r with
  | [] => none
  | (k', v) :: rest => if k' = k then some v else Record.get rest k

/-- The value list `Object.values(vehicle)`. -/
def objectValues (r : Record) : List String :=
  r.map Prod.snd

/-! ## Strings -/

/-- The lower case of one character below U+0100 (Basic Latin and Latin-1
Supplement): the letters `A` to `Z` and `À` to `Þ`, the sign `×` (U+00D7)
apart, move up by 32, every other character of that range stays. -/
def lowerChar (c : Char) : Char :=
  if (65 ≤ c.val.toNat ∧ c.val.toNat ≤ 90) ∨
      (192 ≤ c.val.toNat ∧ c.val.toNat ≤ 222 ∧ c.val.toNat ≠ 215) then
    Char.ofNat (c.val.toNat + 32)
  else c

/-- The method `String.prototype.toLowerCase` on a string of characters below
U+0100, where the mapping goes character by character. The case tables of the
characters from U+0100 on belong to the engine and are outside the embedding. -/
def toLowerCase (s : String) : String :=
  ⟨s.data.map lowerChar⟩

/-- Does `t` start the character list `s`? -/
def startsWithChars : List Char → List Char → Bool
  | _, [] => true
  | [], _ :: _ => false
  | c :: s, d :: t => c == d && startsWithChars s t

/-- Does `t` occur in `s` as a block of consecutive characters? -/
def includesChars : List Char → List Char → Bool
  | [], t => startsWithChars [] t
  | c :: s, t => startsWithChars (c :: s) t || includesChars s t

/-- The method `String.prototype.includes`: `s.includes(t)`. -/
def includes (s t : String) : Bool :=
  includesChars s.data t.data

/-- The UTF-16 code units of one character. -/
def utf16Char (c : Char) : List Nat :=
  if c.val.toNat < 0x10000 then [c.val.toNat]
  else [0xD800 + (c.val.toNat - 0x10000) / 0x400, 0xDC00 + (c.val.toNat - 0x10000) % 0x400]

/-- The UTF-16 code units of a list of characters. -/
def utf16Chars : List Char → List Nat
  | [] => []
  | c :: cs => utf16Char c ++ utf16Chars cs

/-- The UTF-16 code units of a string, the sequence JavaScript compares. -/
def utf16 (s : String) : List Nat :=
  utf16Chars s.data

/-- Lexicographic `<` on code unit sequences. -/
def unitsLt : List Nat → List Nat → Bool
  | _, [] => false
  | [], _ :: _ => true
  | a :: as, b :: bs => decide (a < b) || (a == b && unitsLt as bs)

/-- The operator `a < b` on property values: code unit order on two strings;
`false` as soon as one side is `undefined` (it converts to `NaN`). -/
def jsLt : Value → Value → Bool
  | some a, some b => unitsLt (utf16 a) (utf16 b)
  | _, _ => false

/-- The operator `a > b` on property values. -/
def jsGt (a b : Value) : Bool :=
  jsLt b a

/-! ## Rounding to double precision

A non-negative double is kept as an exact fraction `(numerator, denominator)`;
rounding to a double is rounding to 53 significant bits, which is what the
format does in its normal range.
-/

/-- The number of binary digits of `n`; `fuel` at least `n` is enough. -/
def bitLength : Nat → Nat → Nat
  | 0, _ => 0
  | fuel + 1, n => if n = 0 then 0 else bitLength fuel (n / 2) + 1

/-- The exponent `e` of a positive fraction: `2^e <= num / den < 2^(e + 1)`
(`floorLog2_le`, `floorLog2_lt`). -/
def floorLog2 (num den : Nat) : Int :=
  let a : Int := (bitLength num num : Int) - (bitLength den den : Int)
  if den * 2 ^ a.toNat ≤ num * 2 ^ (-a).toNat then a else a - 1

/-- The integer nearest to `num / den`, the even one of two nearest. -/
def roundHalfEven (num den : Nat) : Nat :=
  let q := num / den
  let r := num % den
  if 2 * r < den then q
  else if den < 2 * r then q + 1
  else if q % 2 = 0 then q
  else q + 1

/-- The double nearest to `num / den` (round to nearest, ties to even), as a
fraction. -/
def roundToDouble (num den : Nat) : Nat × Nat :=
  if num = 0 then (0, 1)
  else
    let s : Int := 52 - floorLog2 num den
    let m := roundHalfEven (num * 2 ^ s.toNat) (den * 2 ^ (-s).toNat)
    (m * 2 ^ (-s).toNat, 2 ^ s.toNat)

/-- The integer-valued double nearest to the integer `n`, the even one of two
nearest: `n` itself below `2^53`. -/
def nearestDouble (n : Nat) : Nat :=
  if n < 2 ^ 53 then n else (roundToDouble n 1).1

/-! ## `parseInt` -/

/-- The white space that `parseInt` skips (WhiteSpace and LineTerminator). -/
def isWhiteSpace (c : Char) : Bool :=
  let n := c.val.toNat
  n == 0x9 || n == 0xA || n == 0xB || n == 0xC || n == 0xD || n == 0x20 || n == 0xA0 ||
  n == 0x1680 || (0x2000 ≤ n && n ≤ 0x200A) || n == 0x2028 || n == 0x2029 ||
  n == 0x202F || n == 0x205F || n == 0x3000 || n == 0xFEFF

/-- The value of a character as a digit, letters counting from ten. -/
def digitValue (c : Char) : Option Nat :=
  let n := c.val.toNat
  if 48 ≤ n ∧ n ≤ 57 then some (n - 48)
  else if 97 ≤ n ∧ n ≤ 122 then some (n - 97 + 10)
  else if 65 ≤ n ∧ n ≤ 90 then some (n - 65 + 10)
  else none

/-- The values of the longest prefix of digits of the given radix. -/
def takeDigits (radix : Nat) : List Char → List Nat
  | [] => []
  | c :: cs =>
    match digitValue c with
    | some d => if d < radix then d :: takeDigits radix cs else []
    | none => []

/-- The number written by a digit list. -/
def digitsValue (radix : Nat) (ds : List Nat) : Nat :=
  ds.foldl (fun acc d => acc * radix + d) 0

/-- The function `parseInt(x)` with no radix argument, applied to a property value:
skip white space, read a sign, read a `0x` prefix, read digits. `none` is `NaN`.
The result is the integer value of the double nearest to the number written,
which is that number below `2^53`; a result of `2^1024` stands for the
`Infinity` that numerals of more than 308 digits give. -/
def parseInt (v : Value) : Option Int :=
  let s := (match v with | none => "undefined" | some s => s).data.dropWhile isWhiteSpace
  let signed : Bool × List Char :=
    match s with
    | '-' :: t => (true, t)
    | '+' :: t => (false, t)
    | _ => (false, s)
  let prefixed : Nat × List Char :=
    match signed.2 with
    | '0' :: 'x' :: t => (16, t)
    | '0' :: 'X' :: t => (16, t)
    | t => (10, t)
  let ds := takeDigits prefixed.1 prefixed.2
  if ds = [] then none
  else if signed.1 then some (-(nearestDouble (digitsValue prefixed.1 ds) : Int))
  else some (nearestDouble (digitsValue prefixed.1 ds) : Int)

/-- The expression `parseInt(x) || 0`: `NaN` and `0` both give `0`. -/
def parseIntOrZero (v : Value) : Int :=
  (parseInt v).getD 0

/-! ## Filtering -/

/-- The range part of `activeFilters`: the text of the two number inputs, `''`
when the input is empty. -/
structure RangeFilter where
  min : String
  max : String
deriving DecidableEq, Repr

/-- The state `activeFilters`. -/
structure ActiveFilters where
  makes : List Value
  years : List Value
  types : List Value
  range : RangeFilter
deriving DecidableEq, Repr

/-- The initial and the cleared value of `activeFilters`. -/
def emptyFilters : ActiveFilters :=
  { makes := [], years := [], types := [], range := { min := "", max := "" } }

/-- The method `Array.prototype.includes` on a list of property values. -/
def arrayIncludes (xs : List Value) (v : Value) : Bool :=
  xs.any (fun x => x == v)

/-- Truthiness of a string: every string but `''`. -/
def truthy (s : String) : Bool :=
  s != ""

/-- The comparison `range >= bound` with a bound that may be `NaN`. -/
def geNumber (range : Int) (bound : Option Int) : Bool :=
  match bound with
  | some b => decide (b ≤ range)
  | none => false

/-- The comparison `range <= bound` with a bound that may be `NaN`. -/
def leNumber (range : Int) (bound : Option Int) : Bool :=
  match bound with
  | some b => decide (range ≤ b)
  | none => false

/-- The local `matchesSearch` of the filter callback. -/
def matchesSearch (vehicle : Record) (searchTerm : String) : Bool :=
  (objectValues vehicle).any (fun value => includes (toLowerCase value) (toLowerCase searchTerm))

/-- The local `matchesMake` of the filter callback. -/
def matchesMake (vehicle : Record) (activeFilters : ActiveFilters) : Bool :=
  activeFilters.makes.length == 0 || arrayIncludes activeFilters.makes (vehicle.get "Make")

/-- The local `matchesYear` of the filter callback. -/
def matchesYear (vehicle : Record) (activeFilters : ActiveFilters) : Bool :=
  activeFilters.years.length == 0 || arrayIncludes activeFilters.years (vehicle.get "Model Year")

/-- The local `matchesType` of the filter callback. -/
def matchesType (vehicle : Record) (activeFilters : ActiveFilters) : Bool :=
  activeFilters.types.length == 0 ||
    arrayIncludes activeFilters.types (vehicle.get "Electric Vehicle Type")

/-- The local `matchesRange` of the filter callback. -/
def matchesRange (vehicle : Record) (activeFilters : ActiveFilters) : Bool :=
  let range := parseIntOrZero (vehicle.get "Electric Range")
  (!truthy activeFilters.range.min || geNumber range (parseInt (some activeFilters.range.min))) &&
  (!truthy activeFilters.range.max || leNumber range (parseInt (some activeFilters.range.max)))

/-- The callback of `evData.filter(...)`. -/
def matchesVehicle (searchTerm : String) (activeFilters : ActiveFilters) (vehicle : Record) : Bool :=
  matchesSearch vehicle searchTerm && matchesMake vehicle activeFilters &&
    matchesYear vehicle activeFilters && matchesType vehicle activeFilters &&
    matchesRange vehicle activeFilters

/-- The memo `filteredData`. -/
def filteredData (evData : List Record) (searchTerm : String) (activeFilters : ActiveFilters) :
    List Record :=
  evData.filter (matchesVehicle searchTerm activeFilters)

/-! ## Sorting

`Array.prototype.sort` is given by the engine, not by the repository. Its result
for a comparator that never returns `0` (such as the one of `sortedData`) is left
to the engine by the language standard, so the embedding follows V8 (Chrome,
Node.js): `CountAndMakeRun` finds the run at the start of the array, reversing
it when it is descending, and `BinaryInsertionSort` inserts the remaining
elements one by one. These two phases are all V8 does for an array of fewer than
64 elements, for which the embedding is exact; a longer array is cut into
several such runs that are then merged, with comparisons that ask the same
question (is the later element less than the earlier one?). Both ways of
sorting are stable, so they give the same result at every length for a
comparator that is a consistent order (such as `(a, b) => b.value - a.value`
on numbers); for a comparator that is not, the embedding is V8 below 64
elements only.
-/

/-- The loop of `CountAndMakeRun`: how many elements after `previous` continue
the run. -/
def countRun {α : Type} (comparefn : α → α → Int) (isDescending : Bool) : α → List α → Nat
  | _, [] => 0
  | previous, current :: rest =>
    let order := comparefn current previous
    if isDescending then
      if order ≥ 0 then 0 else countRun comparefn isDescending current rest + 1
    else
      if order < 0 then 0 else countRun comparefn isDescending current rest + 1

/-- V8 `CountAndMakeRun` on the whole array: the length of the initial run and
whether it is descending. -/
def countAndMakeRun {α : Type} (comparefn : α → α → Int) : List α → Nat × Bool
  | [] => (0, false)
  | [_] => (1, false)
  | low :: next :: rest =>
    let isDescending := decide (comparefn next low < 0)
    (countRun comparefn isDescending next rest + 2, isDescending)

/-- The binary search of V8 `BinaryInsertionSort`: the insertion point of `pivot`
in `work[left, right)`. The interval shrinks at every step, so `fuel` equal to
its length is enough. -/
def binarySearch {α : Type} (comparefn : α → α → Int) (pivot : α) (work : List α) :
    Nat → Nat → Nat → Nat
  | 0, left, _ => left
  | fuel + 1, left, right =>
    if left < right then
      let mid := left + (right - left) / 2
      if comparefn pivot (work.getD mid pivot) < 0 then
        binarySearch comparefn pivot work fuel left mid
      else
        binarySearch comparefn pivot work fuel (mid + 1) right
    else left

/-- V8 `BinaryInsertionSort`: `sorted` is the part of the array already in order,
the elements of the second list are inserted into it from left to right. -/
def binaryInsertionSort {α : Type} (comparefn : α → α → Int) : List α → List α → List α
  | sorted, [] => sorted
  | sorted, pivot :: rest =>
    let left := binarySearch comparefn pivot sorted sorted.length 0 sorted.length
    binaryInsertionSort comparefn (sorted.take left ++ pivot :: sorted.drop left) rest

/-- The method `Array.prototype.sort(comparefn)` as V8 runs it: the initial run,
reversed when descending, then the binary insertion of the remaining elements. -/
def arraySort {α : Type} (comparefn : α → α → Int) (xs : List α) : List α :=
  if xs.length < 2 then xs
  else
    let run := countAndMakeRun comparefn xs
    let first := if run.2 then (xs.take run.1).reverse else xs.take run.1
    binaryInsertionSort comparefn first (xs.drop run.1)

/-- The comparator passed to `sort` in `sortedData`. -/
def compareVehicles (sortField sortOrder : String) (a b : Record) : Int :=
  let aValue := a.get sortField
  let bValue := b.get sortField
  if sortOrder = "asc" then
    if jsGt aValue bValue then 1 else -1
  else
    if jsLt aValue bValue then 1 else -1

/-- The memo `sortedData`: a sorted copy of the filtered view. -/
def sortedData (filteredData : List Record) (sortField sortOrder : String) : List Record :=
  arraySort (compareVehicles sortField sortOrder) filteredData

/-- The click handler of a table header: the same header again flips the
direction, another header becomes the sort field with ascending order. The
result is the pair `(sortField, sortOrder)`. -/
def headerClick (header : String) (sortField sortOrder : String) : String × String :=
  if sortField = header then (sortField, if sortOrder = "asc" then "desc" else "asc")
  else (header, "asc")

/-- The labels of the table header row. -/
def tableHeaders : List String :=
  ["Make", "Model", "Year", "County", "City", "Electric Range", "Type"]

/-- The record field shown in the column under each header (the row cells). -/
def columnField (header : String) : String :=
  if header = "Year" then "Model Year"
  else if header = "Type" then "Electric Vehicle Type"
  else header

/-! ## Paging -/

/-- The method `Array.prototype.slice(start, end)` for non-negative integer
arguments. -/
def slice {α : Type} (xs : List α) (start stop : Nat) : List α :=
  (xs.take stop).drop start

/-- The rows of the table body: `sortedData.slice(page * rowsPerPage,
page * rowsPerPage + rowsPerPage)`. -/
def displayedPage (sortedData : List Record) (page rowsPerPage : Nat) : List Record :=
  slice sortedData (page * rowsPerPage) (page * rowsPerPage + rowsPerPage)

/-! ## Numbers

The percentage of a distribution entry is computed in double precision and
printed by `toFixed(1)`. A non-negative double is kept as an exact fraction
`(numerator, denominator)`; every value met here is in the normal range of the
format, so rounding to a double is rounding to 53 significant bits.
-/

/-- The quotient `a / b` of two integer-valued doubles. -/
def numberDiv (a b : Nat) : Nat × Nat :=
  roundToDouble a b

/-- The product `x * k` of a double and an integer-valued double. -/
def numberMul (x : Nat × Nat) (k : Nat) : Nat × Nat :=
  roundToDouble (x.1 * k) x.2

/-- The numeral of `n / 10` with one digit after the point. -/
def decimal1 (n : Nat) : String :=
  Nat.repr (n / 10) ++ "." ++ Nat.repr (n % 10)

/-- The integer `n` that `toFixed(1)` prints: `n / 10` is nearest to `x`, the
larger `n` of two nearest. -/
def toFixedDigits (x : Nat × Nat) : Nat :=
  (20 * x.1 + x.2) / (2 * x.2)

/-- The method `Number.prototype.toFixed(1)` on a non-negative double. -/
def toFixed1 (x : Nat × Nat) : String :=
  decimal1 (toFixedDigits x)

/-! ## Objects used as maps

An object literal `{}` filled by assignments `acc[key] = value` is the list of
its own properties in the order `Object.entries` lists them: the array indices
in ascending order first, then the other keys in the order of their first
assignment. A read `acc[key]` of a key that names a property of
`Object.prototype` (`prototypeKeys`) finds the inherited function or object
where the list has no entry: the embedding is the code on the keys outside
`prototypeKeys`, which the statements about the reducers assume of the data.
-/

/-- The names of the properties that every object inherits from
`Object.prototype`. -/
def prototypeKeys : List String :=
  ["constructor", "__defineGetter__", "__defineSetter__", "hasOwnProperty",
    "__lookupGetter__", "__lookupSetter__", "isPrototypeOf", "propertyIsEnumerable",
    "toString", "valueOf", "__proto__", "toLocaleString"]

/-- Is every character a decimal digit? -/
def allDigits (cs : List Char) : Bool :=
  cs.all (fun c => decide (48 ≤ c.val.toNat ∧ c.val.toNat ≤ 57))

/-- The array index a property key stands for: a canonical decimal numeral
below `2^32 - 1`. -/
def arrayIndex (key : String) : Option Nat :=
  let cs := key.data
  if cs = [] then none
  else if !allDigits cs then none
  else if cs.head? = some '0' ∧ cs.length ≠ 1 then none
  else
    let n := cs.foldl (fun acc c => acc * 10 + (c.val.toNat - 48)) 0
    if n < 2 ^ 32 - 1 then some n else none

/-- Does a new key of index `idx` go before an existing key of index `other`? -/
def keyBefore (idx other : Option Nat) : Bool :=
  match idx, other with
  | some n, some n' => decide (n < n')
  | some _, none => true
  | none, _ => false

/-- Property read `obj[key]` of an own property; of a key outside
`prototypeKeys` this is the whole read. -/
def objectGet {β : Type} (obj : List (String × β)) (key : String) : Option β :=
  match obj with
  | [] => none
  | (k, v) :: rest => if k = key then some v else objectGet rest key

/-- The place of a new own property in the key order. -/
def objectInsert {β : Type} (key : String) (value : β) :
    List (String × β) → List (String × β)
  | [] => [(key, value)]
  | (k, v) :: rest =>
    if keyBefore (arrayIndex key) (arrayIndex k) then (key, value) :: (k, v) :: rest
    else (k, v) :: objectInsert key value rest

/-- Assignment `obj[key] = value`. -/
def objectSet {β : Type} (obj : List (String × β)) (key : String) (value : β) :
    List (String × β) :=
  if (objectGet obj key).isSome then obj.map (fun e => if e.1 = key then (key, value) else e)
  else objectInsert key value obj

/-- The conversion of a property value to a property key. -/
def propertyKey (v : Value) : String :=
  match v with
  | none => "undefined"
  | some s => s

/-! ## The manufacturer distribution -/

/-- One entry of the manufacturer distribution. -/
structure MakeEntry where
  name : String
  value : Nat
  percentage : String
deriving DecidableEq, Repr

/-- The reducer of `getMakeDistribution`,
`acc[curr.Make] = (acc[curr.Make] || 0) + 1`, for a Make outside
`prototypeKeys`. -/
def countMake (acc : List (String × Nat)) (curr : Record) : List (String × Nat) :=
  objectSet acc (propertyKey (curr.get "Make"))
    ((objectGet acc (propertyKey (curr.get "Make"))).getD 0 + 1)

/-- The expression `((value / evData.length) * 100).toFixed(1)`. -/
def percentageOf (value total : Nat) : String :=
  toFixed1 (numberMul (numberDiv value total) 100)

/-- The function `getMakeDistribution`. -/
def getMakeDistribution (evData : List Record) : List MakeEntry :=
  let distribution := evData.foldl countMake []
  let entries := distribution.map (fun e =>
    ({ name := e.1, value := e.2, percentage := percentageOf e.2 evData.length } : MakeEntry))
  slice (arraySort (fun a b => (b.value : Int) - (a.value : Int)) entries) 0 10

/-- Ten rows: six Teslas and four Nissans, a Nissan first. -/
def teslaNissan : List Record :=
  [[("Make", "Nissan")], [("Make", "Tesla")], [("Make", "Tesla")], [("Make", "Nissan")],
    [("Make", "Tesla")], [("Make", "Tesla")], [("Make", "Nissan")], [("Make", "Tesla")],
    [("Make", "Nissan")], [("Make", "Tesla")]]

/-- The number of records of the list whose Make, read as a property key, is
`name`. -/
def makeCount (name : String) (rows : List Record) : Nat :=
  rows.countP (fun r => propertyKey (r.get "Make") == name)

/-- What the accumulator of the count holds after the rows `seen`. -/
def CountsOf (acc : List (String × Nat)) (seen : List Record) : Prop :=
  (acc.map Prod.fst).Nodup ∧
    ∀ name, objectGet acc name = if makeCount name seen = 0 then none
      else some (makeCount name seen)

/-! ## Statements about the text search -/

/-- The characters `upper` and `lower` are the capital and the small form of one
letter below U+0100. -/
def CasePair (upper lower : Char) : Prop :=
  ((65 ≤ upper.val.toNat ∧ upper.val.toNat ≤ 90) ∨
    (192 ≤ upper.val.toNat ∧ upper.val.toNat ≤ 222 ∧ upper.val.toNat ≠ 215)) ∧
  lower.val.toNat = upper.val.toNat + 32

/-- Two characters are the same up to the case of a letter. -/
def SameLetter (c d : Char) : Prop :=
  c = d ∨ CasePair c d ∨ CasePair d c

/-- The string `value` has a block of consecutive characters that is `term` up
to the case of letters. -/
def ContainsUpToCase (value term : String) : Prop :=
  ∃ block : List Char, block <:+: value.data ∧ List.Forall₂ SameLetter block term.data

/-- Is every character of the string below U+0100? -/
def isLatin1 (s : String) : Bool :=
  s.data.all (fun c => decide (c.val.toNat < 256))

/-- The number `2^1024` (`doubleLimit_eq`): an integer that is a double is
finite exactly when it is below this in size. -/
def doubleLimit : Nat := 2 ^ 256 * 2 ^ 256 * 2 ^ 256 * 2 ^ 256

/-- Is the number that `parseInt` reads in the value, if it reads one, finite? -/
def finiteParse (v : Value) : Bool :=
  match parseInt v with
  | some n => decide (n.natAbs < doubleLimit)
  | none => true

/-- Two rows, the first of a Make with a letter outside ASCII. -/
def citroenRows : List Record :=
  [[("Make", "CITROËN"), ("Electric Range", "50")],
    [("Make", "TESLA"), ("Electric Range", "300")]]

/-! ## Statements about a sorted view -/

/-- In `view` a record comes before every record with a strictly greater value
of `sortField` (generic `<` on the raw values). -/
def AscendingView (view : List Record) (sortField : String) : Prop :=
  ∀ (i j : Nat) (a b : Record), view[i]? = some a → view[j]? = some b →
    jsLt (a.get sortField) (b.get sortField) = true → i < j

/-- In `view` a record comes before every record with a strictly smaller value
of `sortField` (generic `>` on the raw values). -/
def DescendingView (view : List Record) (sortField : String) : Prop :=
  ∀ (i j : Nat) (a b : Record), view[i]? = some a → view[j]? = some b →
    jsGt (a.get sortField) (b.get sortField) = true → i < j

/-- Two rows whose Electric Range values order differently as strings and as
numbers. -/
def rangeRows : List Record :=
  [[("Make", "KIA"), ("Electric Range", "20")], [("Make", "BMW"), ("Electric Range", "100")]]

/-- The rows of a CSV text with header `VIN,Make` whose second line has one cell
only: that row has no Make. -/
def shortRowData : List Record :=
  [[("VIN", "1"), ("Make", "b")], [("VIN", "2")], [("VIN", "3"), ("Make", "a")],
    [("VIN", "4"), ("Make", "c")]]

/-- Two rows with the same Make that differ in their Model. -/
def tiedRows : List Record :=
  [[("Make", "TESLA"), ("Model", "MODEL 3")], [("Make", "TESLA"), ("Model", "MODEL Y")]]

/-- One table row with the seven displayed columns. -/
def vehicleRow (make model year county city range type : String) : Record :=
  [("Make", make), ("Model", model), ("Model Year", year), ("County", county), ("City", city),
    ("Electric Range", range), ("Electric Vehicle Type", type)]

/-- Three complete rows whose model years are 2020, 2019, 2021. -/
def threeRows : List Record :=
  [vehicleRow "TESLA" "MODEL 3" "2020" "King" "Seattle" "266"
      "Plug-in Hybrid Electric Vehicle (PHEV)",
    vehicleRow "NISSAN" "LEAF" "2019" "King" "Kent" "150" "Battery Electric Vehicle (BEV)",
    vehicleRow "TESLA" "MODEL Y" "2021" "Kitsap" "Poulsbo" "291"
      "Plug-in Hybrid Electric Vehicle (PHEV)"]

/-! ## Numbers of the aggregations

The totals, averages and extremes of the aggregations are integers, `NaN` or an
infinity. A finite value is kept as the exact integer (a double holds it
exactly below `2^53`); a quotient is rounded to a double before `Math.round`
reads it.
-/

/-- An integer-valued JavaScript number, `NaN`, `Infinity` or `-Infinity`. -/
inductive Num where
  | nan
  | posInf
  | negInf
  | int (n : Int)
deriving DecidableEq, Repr

/-- The number that `parseInt` returned. -/
def Num.ofParse (v : Option Int) : Num :=
  match v with
  | none => Num.nan
  | some n => Num.int n

/-- The sum `a + b`. -/
def Num.add (a b : Num) : Num :=
  match a, b with
  | Num.nan, _ => Num.nan
  | _, Num.nan => Num.nan
  | Num.posInf, Num.negInf => Num.nan
  | Num.negInf, Num.posInf => Num.nan
  | Num.posInf, _ => Num.posInf
  | _, Num.posInf => Num.posInf
  | Num.negInf, _ => Num.negInf
  | _, Num.negInf => Num.negInf
  | Num.int x, Num.int y => Num.int (x + y)

/-- The difference `a - b`. -/
def Num.sub (a b : Num) : Num :=
  match a, b with
  | Num.nan, _ => Num.nan
  | _, Num.nan => Num.nan
  | Num.posInf, Num.posInf => Num.nan
  | Num.negInf, Num.negInf => Num.nan
  | Num.posInf, _ => Num.posInf
  | _, Num.negInf => Num.posInf
  | Num.negInf, _ => Num.negInf
  | _, Num.posInf => Num.negInf
  | Num.int x, Num.int y => Num.int (x - y)

/-- The value the sort reads from the result of a comparator: its sign matters
only, and `NaN` counts as `0`. -/
def compareOrder (d : Num) : Int :=
  match d with
  | Num.nan => 0
  | Num.posInf => 1
  | Num.negInf => -1
  | Num.int n => n

/-- The function `Math.min` of two arguments. -/
def Num.min (a b : Num) : Num :=
  match a, b with
  | Num.nan, _ => Num.nan
  | _, Num.nan => Num.nan
  | Num.negInf, _ => Num.negInf
  | _, Num.negInf => Num.negInf
  | Num.posInf, y => y
  | x, Num.posInf => x
  | Num.int x, Num.int y => Num.int (if x ≤ y then x else y)

/-- The function `Math.max` of two arguments. -/
def Num.max (a b : Num) : Num :=
  match a, b with
  | Num.nan, _ => Num.nan
  | _, Num.nan => Num.nan
  | Num.posInf, _ => Num.posInf
  | _, Num.posInf => Num.posInf
  | Num.negInf, y => y
  | x, Num.negInf => x
  | Num.int x, Num.int y => Num.int (if x ≤ y then y else x)

/-- The call `Math.min(...xs)`: `Infinity` for no argument. -/
def mathMin (xs : List Num) : Num :=
  xs.foldl Num.min Num.posInf

/-- The call `Math.max(...xs)`: `-Infinity` for no argument. -/
def mathMax (xs : List Num) : Num :=
  xs.foldl Num.max Num.negInf

/-- The double `t / c` for an integer `t` and a positive integer `c`, as a signed
fraction. -/
def signedDiv (t : Int) (c : Nat) : Int × Nat :=
  if t < 0 then (-((roundToDouble t.natAbs c).1 : Int), (roundToDouble t.natAbs c).2)
  else (((roundToDouble t.natAbs c).1 : Int), (roundToDouble t.natAbs c).2)

/-- The product `x * k` of a finite double and a positive integer. -/
def signedMul (x : Int × Nat) (k : Nat) : Int × Nat :=
  if x.1 < 0 then (-((roundToDouble (x.1.natAbs * k) x.2).1 : Int),
    (roundToDouble (x.1.natAbs * k) x.2).2)
  else (((roundToDouble (x.1.natAbs * k) x.2).1 : Int), (roundToDouble (x.1.natAbs * k) x.2).2)

/-- The function `Math.round` on a finite double: the nearest integer, the upper
one of two nearest. -/
def mathRound (x : Int × Nat) : Int :=
  (2 * x.1 + x.2) / (2 * x.2)

/-- The expression `Math.round(total / count)` for a count of rows. -/
def divRound (total : Num) (count : Nat) : Num :=
  match total with
  | Num.nan => Num.nan
  | Num.posInf => Num.posInf
  | Num.negInf => Num.negInf
  | Num.int t =>
    if count = 0 then
      if t = 0 then Num.nan else if 0 < t then Num.posInf else Num.negInf
    else Num.int (mathRound (signedDiv t count))

/-- The method `toFixed(1)` on a finite double of either sign. -/
def toFixed1Signed (x : Int × Nat) : String :=
  if x.1 < 0 then "-" ++ toFixed1 (x.1.natAbs, x.2) else toFixed1 (x.1.natAbs, x.2)

/-- Is the character a decimal digit? -/
def isDigit (c : Char) : Bool :=
  decide (48 ≤ c.val.toNat ∧ c.val.toNat ≤ 57)

/-- The number written by a list of decimal digits. -/
def parseDigits (cs : List Char) : Nat :=
  cs.foldl (fun acc c => acc * 10 + (c.val.toNat - 48)) 0

/-- The sign of a numeral and the characters after it. -/
def splitSign (cs : List Char) : Bool × List Char :=
  match cs with
  | [] => (false, [])
  | c :: t => if c = '-' then (true, t) else if c = '+' then (false, t) else (false, c :: t)

/-- The digits after the decimal point of what follows the integer part. -/
def fractionDigits (rest : List Char) : List Char :=
  match rest with
  | [] => []
  | c :: t => if c = '.' then t.takeWhile isDigit else []

/-- The exact value `(numerator, denominator)` of the decimal numeral at the
start of a string: a sign, digits, a point and digits. `none` when there is no
digit. -/
def decimalValue (s : String) : Option (Int × Nat) :=
  let signed := splitSign s.data
  let intPart := signed.2.takeWhile isDigit
  let fracPart := fractionDigits (signed.2.dropWhile isDigit)
  if intPart = [] ∧ fracPart = [] then none
  else if signed.1 then
    some (-(parseDigits (intPart ++ fracPart) : Int), 10 ^ fracPart.length)
  else some ((parseDigits (intPart ++ fracPart) : Int), 10 ^ fracPart.length)

/-- The function `parseFloat` on a numeral without exponent, such as `toFixed`
prints: the double nearest to the decimal value. `none` is `NaN`. -/
def parseFloat (s : String) : Option (Int × Nat) :=
  match decimalValue s with
  | none => none
  | some v =>
    if v.1 < 0 then
      some (-((roundToDouble v.1.natAbs v.2).1 : Int), (roundToDouble v.1.natAbs v.2).2)
    else some (((roundToDouble v.1.natAbs v.2).1 : Int), (roundToDouble v.1.natAbs v.2).2)

/-- The conversion of an integer-valued number to a string, as in a property
key. -/
def numberKey (n : Int) : String :=
  if n < 0 then "-" ++ Nat.repr n.natAbs else Nat.repr n.natAbs

/-- The conversion of a property key of `yearlyData`, an integer numeral, to a
number. -/
def keyNumber (key : String) : Num :=
  match decimalValue key with
  | none => Num.nan
  | some v => if v.2 = 1 then Num.int v.1 else Num.nan

/-- The default order of `Array.prototype.sort()` on strings: by code units. -/
def defaultCompare (a b : String) : Int :=
  if unitsLt (utf16 a) (utf16 b) then -1
  else if unitsLt (utf16 b) (utf16 a) then 1
  else 0

/-! ## Sets and groups -/

/-- The method `Set.prototype.add` on a set kept as the list of its elements in
insertion order. -/
def setAdd {α : Type} [DecidableEq α] (s : List α) (x : α) : List α :=
  if x ∈ s then s else s ++ [x]

/-- The statements `if (!acc[key]) { acc[key] = init }` followed by updates of
the fields of `acc[key]`, for a key outside `prototypeKeys`. The stored values
are objects, so `!acc[key]` holds exactly when the key is absent. (On a key of
`prototypeKeys` the read finds an inherited function, the initialisation is
skipped and the update of a field that the function lacks throws.) -/
def groupUpdate {β : Type} (acc : List (String × β)) (key : String) (init : β)
    (update : β → β) : List (String × β) :=
  objectSet acc key (update ((objectGet acc key).getD init))

/-- The sum `a + b` of the values of two string properties, as `curr.Make +
curr.Model`: the concatenation, an absent side reading `undefined`; two absent
sides give the number `NaN`, here `none`. -/
def concatValues (a b : Value) : Option String :=
  match a, b with
  | none, none => none
  | _, _ => some (propertyKey a ++ propertyKey b)

/-! ## The county distribution -/

/-- The object kept per county by the reducer of `getCountyDistribution`. -/
structure CountyGroup where
  name : Value
  value : Nat
  avgRange : Num
  totalRange : Num
  uniqueMakes : List Value
deriving DecidableEq, Repr

/-- One entry of the county distribution. -/
structure CountyEntry where
  name : Value
  value : Nat
  avgRange : Num
  totalRange : Num
  uniqueMakes : Nat
  percentage : String
deriving DecidableEq, Repr

/-- The updates of `acc[county]` for one record. -/
def countyUpdate (curr : Record) (g : CountyGroup) : CountyGroup :=
  { name := g.name
    value := g.value + 1
    avgRange := divRound (g.totalRange.add (Num.ofParse (parseInt (curr.get "Electric Range"))))
      (g.value + 1)
    totalRange := g.totalRange.add (Num.ofParse (parseInt (curr.get "Electric Range")))
    uniqueMakes := setAdd g.uniqueMakes (curr.get "Make") }

/-- The reducer of `getCountyDistribution`. -/
def countyStep (acc : List (String × CountyGroup)) (curr : Record) :
    List (String × CountyGroup) :=
  groupUpdate acc (propertyKey (curr.get "County"))
    { name := curr.get "County", value := 0, avgRange := Num.int 0, totalRange := Num.int 0,
      uniqueMakes := [] }
    (countyUpdate curr)

/-- The function `getCountyDistribution`. -/
def getCountyDistribution (evData : List Record) : List CountyEntry :=
  arraySort (fun a b => (b.value : Int) - (a.value : Int))
    ((evData.foldl countyStep []).map (fun e =>
      ({ name := e.2.name, value := e.2.value, avgRange := e.2.avgRange,
         totalRange := e.2.totalRange, uniqueMakes := e.2.uniqueMakes.length,
         percentage := percentageOf e.2.value evData.length } : CountyEntry)))

/-! ## The range ranking of the manufacturers -/

/-- The object kept per manufacturer by the reducer of `getRangeByMake`. -/
structure MakeRangeGroup where
  make : Value
  count : Nat
  totalRange : Num
  models : List Value
  years : List Value
deriving DecidableEq, Repr

/-- One entry of the range ranking. -/
structure MakeRangeEntry where
  make : Value
  averageRange : Num
  modelCount : Nat
  yearSpan : Nat
  totalVehicles : Nat
  marketShare : String
deriving DecidableEq, Repr

/-- The updates of `acc[make]` for one record. -/
def makeRangeUpdate (curr : Record) (g : MakeRangeGroup) : MakeRangeGroup :=
  { make := g.make
    count := g.count + 1
    totalRange := g.totalRange.add (Num.ofParse (parseInt (curr.get "Electric Range")))
    models := setAdd g.models (curr.get "Model")
    years := setAdd g.years (curr.get "Model Year") }

/-- The reducer of `getRangeByMake`. -/
def makeRangeStep (acc : List (String × MakeRangeGroup)) (curr : Record) :
    List (String × MakeRangeGroup) :=
  groupUpdate acc (propertyKey (curr.get "Make"))
    { make := curr.get "Make", count := 0, totalRange := Num.int 0, models := [], years := [] }
    (makeRangeUpdate curr)

/-- The function `getRangeByMake`. -/
def getRangeByMake (evData : List Record) : List MakeRangeEntry :=
  arraySort (fun a b => compareOrder (b.averageRange.sub a.averageRange))
    ((evData.foldl makeRangeStep []).map (fun e =>
      ({ make := e.2.make, averageRange := divRound e.2.totalRange e.2.count,
         modelCount := e.2.models.length, yearSpan := e.2.years.length,
         totalVehicles := e.2.count,
         marketShare := percentageOf e.2.count evData.length } : MakeRangeEntry)))

/-! ## The summary statistics -/

/-- The accumulator of the reducer of `getStatistics`. -/
structure StatsAcc where
  totalRange : Num
  ranges : List Num
  makes : List Value
  models : List (Option String)
  counties : List Value
  cities : List Value
  years : List Value
deriving DecidableEq, Repr

/-- The reducer of `getStatistics`. -/
def statsStep (acc : StatsAcc) (curr : Record) : StatsAcc :=
  { totalRange := acc.totalRange.add (Num.ofParse (parseInt (curr.get "Electric Range")))
    ranges := acc.ranges ++ [Num.ofParse (parseInt (curr.get "Electric Range"))]
    makes := setAdd acc.makes (curr.get "Make")
    models := setAdd acc.models (concatValues (curr.get "Make") (curr.get "Model"))
    counties := setAdd acc.counties (curr.get "County")
    cities := setAdd acc.cities (curr.get "City")
    years := setAdd acc.years (curr.get "Model Year") }

/-- The element `xs[i]` for an integer index: `none` is `undefined`. -/
def elementAt {α : Type} (xs : List α) (i : Int) : Option α :=
  if i < 0 then none else xs[i.toNat]?

/-- The sum `a + b` of two array elements, an absent element converting to
`NaN`. -/
def addElements (a b : Option Num) : Num :=
  match a, b with
  | some x, some y => x.add y
  | _, _ => Num.nan

/-- The expression for `medianRange` in `getStatistics`, on the sorted ranges. -/
def medianOfSorted (ranges : List Num) : Num :=
  if ranges.length % 2 = 0 then
    divRound (addElements (elementAt ranges ((ranges.length : Int) / 2 - 1))
      (elementAt ranges ((ranges.length : Int) / 2))) 2
  else (elementAt ranges ((ranges.length : Int) / 2)).getD Num.nan

/-- The result of `getStatistics`, the year range apart. -/
structure Statistics where
  totalVehicles : Nat
  averageRange : Num
  medianRange : Num
  minRange : Num
  maxRange : Num
  uniqueMakes : Nat
  uniqueModels : Nat
  uniqueCounties : Nat
  uniqueCities : Nat
deriving DecidableEq, Repr

/-- The accumulator that `getStatistics` builds and then sorts:
`stats.ranges.sort((a, b) => a - b)`. -/
def statsOf (evData : List Record) : StatsAcc :=
  let stats := evData.foldl statsStep
    { totalRange := Num.int 0, ranges := [], makes := [], models := [], counties := [],
      cities := [], years := [] }
  { stats with ranges := arraySort (fun a b => compareOrder (a.sub b)) stats.ranges }

/-- The function `getStatistics`. -/
def getStatistics (evData : List Record) : Statistics :=
  let stats := statsOf evData
  { totalVehicles := stats.ranges.length
    averageRange := divRound stats.totalRange stats.ranges.length
    medianRange := medianOfSorted stats.ranges
    minRange := mathMin stats.ranges
    maxRange := mathMax stats.ranges
    uniqueMakes := stats.makes.length
    uniqueModels := stats.models.length
    uniqueCounties := stats.counties.length
    uniqueCities := stats.cities.length }

/-! ## The time series of `getAdvancedStatistics` -/

/-- The object kept per model year in `stats.yearlyData`. -/
structure YearGroup where
  total : Nat
  growth : Int
  totalRange : Int
  models : List (Option String)
  ranges : List Int
deriving DecidableEq, Repr

/-- The updates of `acc.yearlyData[year]` for one record. -/
def yearUpdate (curr : Record) (g : YearGroup) : YearGroup :=
  { total := g.total + 1
    growth := g.growth
    totalRange := g.totalRange + parseIntOrZero (curr.get "Electric Range")
    models := setAdd g.models (concatValues (curr.get "Make") (curr.get "Model"))
    ranges := g.ranges ++ [parseIntOrZero (curr.get "Electric Range")] }

/-- The reducer of `getAdvancedStatistics`, on `acc.yearlyData`. -/
def yearStep (acc : List (String × YearGroup)) (curr : Record) : List (String × YearGroup) :=
  groupUpdate acc (numberKey (parseIntOrZero (curr.get "Model Year")))
    { total := 0, growth := 0, totalRange := 0, models := [], ranges := [] }
    (yearUpdate curr)

/-- The object `stats.yearlyData`. -/
def yearlyData (evData : List Record) : List (String × YearGroup) :=
  evData.foldl yearStep []

/-- The read `stats.yearlyData[year].total`, for a year that is a key of the
object. -/
def yearTotal (data : List (String × YearGroup)) (year : String) : Nat :=
  match objectGet data year with
  | some g => g.total
  | none => 0

/-- One point of the growth series. -/
structure GrowthPoint where
  year : String
  growth : Option (Int × Nat)
  total : Nat
deriving DecidableEq, Repr

/-- The text of `growth` before `parseFloat`: the number `0` for the first year,
else `((currentTotal - prevTotal) / prevTotal * 100).toFixed(1)`. -/
def growthText (data : List (String × YearGroup)) (years : List String) (index : Nat)
    (year : String) : String :=
  if 0 < index then
    toFixed1Signed (signedMul
      (signedDiv ((yearTotal data year : Int) - (yearTotal data (years.getD (index - 1) "") : Int))
        (yearTotal data (years.getD (index - 1) ""))) 100)
  else "0"

/-- The keys `Object.keys(stats.yearlyData).sort()`. -/
def sortedYears (data : List (String × YearGroup)) : List String :=
  arraySort defaultCompare (data.map Prod.fst)

/-- The series `growthRates` of `getAdvancedStatistics`. -/
def growthRates (evData : List Record) : List GrowthPoint :=
  let data := yearlyData evData
  let years := sortedYears data
  years.enum.map (fun p =>
    ({ year := p.2, growth := parseFloat (growthText data years p.1 p.2),
       total := yearTotal data p.2 } : GrowthPoint))

/-- One point of the range evolution. -/
structure RangePoint where
  year : String
  averageRange : Num
  modelCount : Nat
  medianRange : Option Int
  totalVehicles : Nat
deriving DecidableEq, Repr

/-- The median of `rangeEvolution`:
`data.ranges.sort((a, b) => a - b)[Math.floor(data.ranges.length / 2)]`. -/
def middleRange (ranges : List Int) : Option Int :=
  (arraySort (fun a b => a - b) ranges)[ranges.length / 2]?

/-- The series `rangeEvolution` of `getAdvancedStatistics`. -/
def rangeEvolution (evData : List Record) : List RangePoint :=
  arraySort (fun a b => compareOrder ((keyNumber a.year).sub (keyNumber b.year)))
    ((yearlyData evData).map (fun e =>
      ({ year := e.1, averageRange := divRound (Num.int e.2.totalRange) e.2.total,
         modelCount := e.2.models.length, medianRange := middleRange e.2.ranges,
         totalVehicles := e.2.total } : RangePoint)))

/-! ## Statements about groups -/

/-- The object that a grouping reducer holds for the rows of one key: `init` of
the first row, updated with every row in turn. `none` for no row. -/
def groupOf {β : Type} (init : Record → β) (update : Record → β → β) (rows : List Record) :
    Option β :=
  match rows with
  | [] => none
  | r :: rest => some ((r :: rest).foldl (fun g x => update x g) (init r))

/-- What the accumulator of a grouping reducer holds after the rows `seen`: one
key per group, with the object of the rows of that key. -/
def GroupsOf {β : Type} (key : Record → String) (init : Record → β)
    (update : Record → β → β) (acc : List (String × β)) (seen : List Record) : Prop :=
  (acc.map Prod.fst).Nodup ∧
    ∀ k, objectGet acc k = groupOf init update (seen.filter (fun r => key r == k))

/-- The rows of a data set whose County, read as a property key, is `key`. -/
def countyRows (key : String) (evData : List Record) : List Record :=
  evData.filter (fun r => propertyKey (r.get "County") == key)

/-- The rows of a data set whose Make, read as a property key, is `key`. -/
def makeRows (key : String) (evData : List Record) : List Record :=
  evData.filter (fun r => propertyKey (r.get "Make") == key)

/-- The rows of a data set whose parsed model year has the key `key`. -/
def yearRows (key : String) (evData : List Record) : List Record :=
  evData.filter (fun r => numberKey (parseIntOrZero (r.get "Model Year")) == key)

/-- The sum of the Electric Range values of the rows, `NaN` as soon as one does
not parse. -/
def sumRanges (rows : List Record) : Num :=
  rows.foldl (fun t r => t.add (Num.ofParse (parseInt (r.get "Electric Range")))) (Num.int 0)

/-- The exact sum of the Electric Range values of the rows, an unparsable one
counting as 0. -/
def totalOfRanges (rows : List Record) : Int :=
  (rows.map (fun r => parseIntOrZero (r.get "Electric Range"))).sum

/-- The sum of the absolute Electric Range values of the rows: while it is
below `2^52`, every sum of ranges is exact in double precision. -/
def rangeMass (rows : List Record) : Nat :=
  (rows.map (fun r => (parseIntOrZero (r.get "Electric Range")).natAbs)).sum

/-- The quotient `t / c` rounded to the nearest integer, halves upwards. -/
def roundHalfUp (t : Int) (c : Nat) : Int :=
  (2 * t + c) / (2 * c)

/-- The number that a percentage text denotes, `0` for a text that is no
numeral. -/
def percentageValue (s : String) : ℚ :=
  match decimalValue s with
  | some v => (v.1 : ℚ) / (v.2 : ℚ)
  | none => 0

/-- Two rows of one county with the ranges 10 and 21. -/
def kingRows : List Record :=
  [[("County", "King"), ("Make", "KIA"), ("Electric Range", "10")],
    [("County", "King"), ("Make", "KIA"), ("Electric Range", "21")]]

/-- Six rows with six Makes and six Counties. -/
def sixRows : List Record :=
  [[("County", "King"), ("Make", "KIA")], [("County", "Pierce"), ("Make", "BMW")],
    [("County", "Clark"), ("Make", "FORD")], [("County", "Kitsap"), ("Make", "AUDI")],
    [("County", "Skagit"), ("Make", "TESLA")], [("County", "Yakima"), ("Make", "NISSAN")]]

/-- The quotient `t / c` rounded to the nearest integer, halves away from zero. -/
def roundHalfAway (t : Int) (c : Nat) : Int :=
  if t < 0 then -(((2 * t.natAbs + c) / (2 * c) : Nat) : Int) else (2 * t + c) / (2 * c)

/-- Two rows of one Make with the ranges -2 and -3. -/
def negativeRows : List Record :=
  [[("Make", "KIA"), ("Electric Range", "-2")], [("Make", "KIA"), ("Electric Range", "-3")]]

/-- Two rows of one County and Make, the second with an empty Electric Range. -/
def blankRangeRows : List Record :=
  [[("County", "King"), ("Make", "KIA"), ("Electric Range", "100")],
    [("County", "King"), ("Make", "KIA"), ("Electric Range", "")]]

/-- The rows of `blankRangeRows` with the empty range replaced by 0. -/
def zeroRangeRows : List Record :=
  [[("County", "King"), ("Make", "KIA"), ("Electric Range", "100")],
    [("County", "King"), ("Make", "KIA"), ("Electric Range", "0")]]

/-- Two rows with the model years 999 and 2018. -/
def mixedYearRows : List Record :=
  [[("Model Year", "999")], [("Model Year", "2018")]]

/-- A data set with 100 records of 2018, 150 of 2019 and 120 of 2020. -/
def growthRows : List Record :=
  List.replicate 100 [("Model Year", "2018")] ++ List.replicate 150 [("Model Year", "2019")] ++
    List.replicate 120 [("Model Year", "2020")]

/-- Rows with the given Electric Range values. -/
def rowsOfRanges (ranges : List String) : List Record :=
  ranges.map (fun s => [("Electric Range", s)])

/-- The Make+Model identity of a record: the text of the Make followed by the
text of the Model, an absent one of the two reading `undefined`; when both are
absent there is no text (the sum is the number `NaN`). -/
def modelIdentity (r : Record) : Option String :=
  match r.get "Make", r.get "Model" with
  | none, none => none
  | some make, none => some (make ++ "undefined")
  | none, some model => some ("undefined" ++ model)
  | some make, some model => some (make ++ model)

/-- Four rows of two model years. -/
def evolutionRows : List Record :=
  [[("Model Year", "2020"), ("Make", "TESLA"), ("Model", "MODEL 3"), ("Electric Range", "200")],
    [("Model Year", "2019"), ("Make", "KIA"), ("Model", "NIRO"), ("Electric Range", "30")],
    [("Model Year", "2020"), ("Make", "TESLA"), ("Model", "MODEL 3"), ("Electric Range", "101")],
    [("Model Year", "2020"), ("Make", "KIA"), ("Model", "NIRO"), ("Electric Range", "")]]

/-! ## Statements about the groups of a field -/

/-- Do two field values name one group of records? They do when they are the
same value, and when one is absent and the other is the string `"undefined"`,
the name that the records without the field are grouped under. -/
def sameGroup (v w : Value) : Bool :=
  match v, w with
  | some a, some b => a == b
  | none, none => true
  | none, some b => b == "undefined"
  | some a, none => a == "undefined"

/-- The records of the data set whose `field` names the group of `value`. -/
def recordsOf (field : String) (value : Value) (evData : List Record) : List Record :=
  evData.filter (fun r => sameGroup (r.get field) value)

/-- One value of `field` for every group of records of the data set. -/
def distinctValues (field : String) (evData : List Record) : List Value :=
  (evData.map (fun r => r.get field)).pwFilter (fun v w => sameGroup v w = false)

/-- Is the value the name of a property that every object inherits? -/
def inheritedName (v : Value) : Bool :=
  match v with
  | some s => decide (s ∈ prototypeKeys)
  | none => false

/-- Three rows: one without County and Make, one whose County and Make are the
string `"undefined"`, one of King County. -/
def unnamedRows : List Record :=
  [[("Electric Range", "10")],
    [("County", "undefined"), ("Make", "undefined"), ("Electric Range", "20")],
    [("County", "King"), ("Make", "KIA"), ("Electric Range", "30")]]

/-- Twelve rows of eleven Makes, the Make K twice. -/
def elevenMakes : List Record :=
  [[("Make", "A")], [("Make", "B")], [("Make", "C")], [("Make", "D")], [("Make", "E")],
    [("Make", "F")], [("Make", "G")], [("Make", "H")], [("Make", "I")], [("Make", "J")],
    [("Make", "K")], [("Make", "K")]]

/-- Five rows of one model year whose Makes and Models are partly absent. -/
def unnamedModels : List Record :=
  [[("Model Year", "2021"), ("Make", "KIA")],
    [("Model Year", "2021"), ("Make", "KIA"), ("Model", "undefined")],
    [("Model Year", "2021")],
    [("Model Year", "2021")],
    [("Model Year", "2021"), ("Model", "NIRO")]]

/-! ## The state of the component and its handlers

The handlers of `Dashboard` are functions on the state variables they read and
write. A handler reads the variables of the render it was created in; the call
of `fetchData` made by a handler therefore keeps the `filterHistory` of that
render until its promise settles, whatever `setFilterHistory` has stored in
the meantime. The anchor element of the filter menu is left out.
-/

/-- The state `filterHistory`; `filters` is `none` for `null`. -/
structure FilterHistory where
  active : Bool
  filters : Option ActiveFilters
deriving DecidableEq, Repr

/-- The value `{ active: false, filters: null }`. -/
def idleHistory : FilterHistory :=
  { active := false, filters := none }

/-- The state variables of `Dashboard`. -/
structure DashboardState where
  evData : List Record
  loading : Bool
  page : Nat
  rowsPerPage : Nat
  searchTerm : String
  refreshing : Bool
  sortField : String
  sortOrder : String
  activeFilters : ActiveFilters
  filterHistory : FilterHistory
deriving DecidableEq, Repr

/-- The arguments of the `useState` calls. -/
def initialState : DashboardState :=
  { evData := []
    loading := true
    page := 0
    rowsPerPage := 10
    searchTerm := ""
    refreshing := false
    sortField := "Make"
    sortOrder := "asc"
    activeFilters := emptyFilters
    filterHistory := idleHistory }

/-- The arguments `(type, value)` of a call of `handleFilterChange`: the type is
one of the four keys of `activeFilters`, the value a list for the first three
and a pair of bounds for `'range'`. -/
inductive FilterChange where
  | makes (value : List Value)
  | years (value : List Value)
  | types (value : List Value)
  | range (value : RangeFilter)
deriving DecidableEq, Repr

/-- The object `{ ...activeFilters, [type]: value }`. -/
def FilterChange.newFilters (change : FilterChange) (activeFilters : ActiveFilters) :
    ActiveFilters :=
  match change with
  | FilterChange.makes value => { activeFilters with makes := value }
  | FilterChange.years value => { activeFilters with years := value }
  | FilterChange.types value => { activeFilters with types := value }
  | FilterChange.range value => { activeFilters with range := value }

/-- The handler `handleFilterChange`. -/
def handleFilterChange (change : FilterChange) (s : DashboardState) : DashboardState :=
  { s with
    activeFilters := change.newFilters s.activeFilters
    filterHistory := { active := true, filters := some (change.newFilters s.activeFilters) }
    page := 0 }

/-- The handler `handleClearFilters`. -/
def handleClearFilters (s : DashboardState) : DashboardState :=
  { s with
    activeFilters := emptyFilters
    filterHistory := idleHistory
    page := 0 }

/-- The test of `handleRefresh` (and of the Clear All button):
`Object.values(activeFilters).some(f => Array.isArray(f) ? f.length > 0 :
Object.values(f).some(v => v !== ''))`. -/
def hasActiveFilters (activeFilters : ActiveFilters) : Bool :=
  decide (0 < activeFilters.makes.length) || decide (0 < activeFilters.years.length) ||
    decide (0 < activeFilters.types.length) ||
    [activeFilters.range.min, activeFilters.range.max].any (fun v => v != "")

/-- The statements of `fetchData` before its first `await`. -/
def fetchStart (s : DashboardState) : DashboardState :=
  { s with refreshing := true }

/-- The handler `handleRefresh`, up to the first `await` of the `fetchData` it
calls. -/
def handleRefresh (s : DashboardState) : DashboardState :=
  fetchStart
    { s with
      filterHistory :=
        if hasActiveFilters s.activeFilters then
          { active := true, filters := some s.activeFilters }
        else s.filterHistory
      searchTerm := ""
      page := 0 }

/-- The rest of the `try` block of `fetchData` once the file is read and parsed:
`filterHistory` is the one of the render that called `fetchData`, `s` the state
the setters act on. -/
def fetchSuccess (filterHistory : FilterHistory) (parsedData : List Record)
    (s : DashboardState) : DashboardState :=
  { s with
    evData := parsedData
    activeFilters :=
      match filterHistory.active, filterHistory.filters with
      | true, some filters => filters
      | _, _ => s.activeFilters
    loading := false
    refreshing := false
    filterHistory := idleHistory }

/-- The `catch` block of `fetchData`. -/
def fetchFailure (s : DashboardState) : DashboardState :=
  { s with
    loading := false
    refreshing := false
    filterHistory := idleHistory }

/-- The component between two events: its state and, while a call of
`fetchData` has not settled, the `filterHistory` which that call holds. -/
structure App where
  state : DashboardState
  pending : Option FilterHistory
deriving DecidableEq, Repr

/-- What can happen to the component: a call of a handler, or the settling of the
call of `fetchData` in flight. -/
inductive Event where
  | filterChange (change : FilterChange)
  | clearFilters
  | refresh
  | reloadSuccess (parsedData : List Record)
  | reloadFailure
deriving DecidableEq, Repr

/-- The effect of one event. The refresh button is disabled while `refreshing`
is set, and nothing settles while no call is in flight. The filter menu is not
shown while `loading` is set; its events are admitted in every state all the
same, which only adds states. -/
def step (a : App) (e : Event) : App :=
  match e with
  | Event.filterChange change => { a with state := handleFilterChange change a.state }
  | Event.clearFilters => { a with state := handleClearFilters a.state }
  | Event.refresh =>
    if a.state.refreshing then a
    else { state := handleRefresh a.state, pending := some a.state.filterHistory }
  | Event.reloadSuccess parsedData =>
    match a.pending with
    | some filterHistory =>
      { state := fetchSuccess filterHistory parsedData a.state, pending := none }
    | none => a
  | Event.reloadFailure =>
    match a.pending with
    | some _ => { state := fetchFailure a.state, pending := none }
    | none => a

/-- The component after a sequence of events. -/
def run (a : App) (events : List Event) : App :=
  events.foldl step a

/-- The component once mounted: the effect has called `fetchData`. -/
def mounted : App :=
  { state := fetchStart initialState, pending := some initialState.filterHistory }

/-- The criteria with the one year 2020. -/
def year2020 : ActiveFilters :=
  { emptyFilters with years := [some "2020"] }

/-- An active session holds the current criteria. -/
def SessionAgrees (a : App) : Prop :=
  a.state.filterHistory.active = true →
    a.state.filterHistory.filters = some a.state.activeFilters

/-! ## The views of the time series -/

/-- The expression `xs[xs.length - 1]`: `none` is `undefined`. -/
def lastElement {α : Type} (xs : List α) : Option α :=
  elementAt xs ((xs.length : Int) - 1)

/-- The view Latest Growth, `growthRates[growthRates.length - 1].growth`: `none`
is the TypeError of reading a property of `undefined`. -/
def latestGrowth (evData : List Record) : Option (Option (Int × Nat)) :=
  (lastElement (growthRates evData)).map (fun p => p.growth)

/-- The view Latest Average Range,
`rangeEvolution[rangeEvolution.length - 1].averageRange`. -/
def latestAverageRange (evData : List Record) : Option Num :=
  (lastElement (rangeEvolution evData)).map (fun p => p.averageRange)

/-- The view Total Models, `rangeEvolution[rangeEvolution.length - 1].modelCount`. -/
def totalModels (evData : List Record) : Option Nat :=
  (lastElement (rangeEvolution evData)).map (fun p => p.modelCount)

/-- The constants `firstRange` and `lastRange` of the view Range Improvement,
`data[0].averageRange` and `data[data.length - 1].averageRange`; the arithmetic
and `toFixed(1)` that follow are defined on all numbers. -/
def rangeImprovementOperands (evData : List Record) : Option (Num × Num) :=
  match elementAt (rangeEvolution evData) 0, lastElement (rangeEvolution evData) with
  | some first, some last => some (first.averageRange, last.averageRange)
  | _, _ => none

/-- The field `yearRange` of the result of `getStatistics`,
`Math.min(...stats.years)` and `Math.max(...stats.years)`, for the conversion
`toNumber` that the two functions apply to the distinct Model Year values. -/
def yearRange (toNumber : Value → Num) (evData : List Record) : Num × Num :=
  (mathMin ((statsOf evData).years.map toNumber), mathMax ((statsOf evData).years.map toNumber))

/-- A data set of two records. -/
def twoRows : List Record :=
  [[("Make", "TESLA"), ("Model Year", "2020"), ("Electric Range", "200")],
    [("Make", "KIA"), ("Model Year", "2019"), ("Electric Range", "30")]]

/-- The component after the first load of the two records of `twoRows`. -/
def loadedApp : App :=
  run mounted [Event.reloadSuccess twoRows]

/-- The component after the first load, the choice of the year 2020 and a click
on the refresh button: a reload is running. -/
def reloadingApp : App :=
  run loadedApp [Event.filterChange (FilterChange.years [some "2020"]), Event.refresh]

/-! ## Facts about the string and number primitives -/

theorem startsWithChars_iff (s t : List Char) : startsWithChars s t = true ↔ t <+: s := by
  induction s generalizing t with
  | nil =>
    cases t with
    | nil => simp [startsWithChars]
    | cons d t => simp [startsWithChars]
  | cons c s ih =>
    cases t with
    | nil => simp [startsWithChars]
    | cons d t =>
      simp only [startsWithChars, Bool.and_eq_true, beq_iff_eq, ih, List.cons_prefix_cons]
      constructor
      · rintro ⟨h1, h2⟩
        exact ⟨h1.symm, h2⟩
      · rintro ⟨h1, h2⟩
        exact ⟨h1.symm, h2⟩

theorem includesChars_iff (s t : List Char) : includesChars s t = true ↔ t <:+: s := by
  induction s with
  | nil =>
    simp only [includesChars, startsWithChars_iff]
    constructor
    · intro h
      exact h.isInfix
    · intro h
      have : t = [] := List.eq_nil_of_infix_nil h
      subst this
      exact List.prefix_refl _
  | cons c s ih =>
    simp only [includesChars, Bool.or_eq_true, startsWithChars_iff, ih, List.infix_cons_iff]

theorem includes_iff (s t : String) : includes s t = true ↔ t.data <:+: s.data :=
  includesChars_iff s.data t.data

theorem arrayIncludes_iff (xs : List Value) (v : Value) : arrayIncludes xs v = true ↔ v ∈ xs := by
  simp only [arrayIncludes, List.any_eq_true, beq_iff_eq]
  constructor
  · rintro ⟨x, hx, rfl⟩
    exact hx
  · intro h
    exact ⟨v, h, rfl⟩

theorem truthy_eq_false_iff (s : String) : (!truthy s) = true ↔ s = "" := by
  simp [truthy]

theorem geNumber_iff (range : Int) (bound : Option Int) :
    geNumber range bound = true ↔ ∃ b, bound = some b ∧ b ≤ range := by
  cases bound <;> simp [geNumber]

theorem leNumber_iff (range : Int) (bound : Option Int) :
    leNumber range bound = true ↔ ∃ b, bound = some b ∧ range ≤ b := by
  cases bound <;> simp [leNumber]

theorem matchesSearch_iff (vehicle : Record) (searchTerm : String) :
    matchesSearch vehicle searchTerm = true ↔
      ∃ value ∈ objectValues vehicle,
        (toLowerCase searchTerm).data <:+: (toLowerCase value).data := by
  simp only [matchesSearch, List.any_eq_true, includes_iff]

theorem matchesRange_iff (vehicle : Record) (activeFilters : ActiveFilters) :
    matchesRange vehicle activeFilters = true ↔
      (activeFilters.range.min = "" ∨
        ∃ lo, parseInt (some activeFilters.range.min) = some lo ∧
          lo ≤ parseIntOrZero (vehicle.get "Electric Range")) ∧
      (activeFilters.range.max = "" ∨
        ∃ hi, parseInt (some activeFilters.range.max) = some hi ∧
          parseIntOrZero (vehicle.get "Electric Range") ≤ hi) := by
  simp only [matchesRange, Bool.and_eq_true, Bool.or_eq_true, truthy_eq_false_iff,
    geNumber_iff, leNumber_iff]

theorem matchesCategory_iff (xs : List Value) (v : Value) :
    (xs.length == 0 || arrayIncludes xs v) = true ↔ (xs = [] ∨ v ∈ xs) := by
  simp only [Bool.or_eq_true, beq_iff_eq, List.length_eq_zero, arrayIncludes_iff]

/-! ## The filtered view -/

/-- C2: for every data set, search term and criteria the filtered view is a
subsequence of the data set: its records are records of the data set, in the
same relative order, none added and none repeated. The function is total. -/
theorem filteredData_sublist (evData : List Record) (searchTerm : String)
    (activeFilters : ActiveFilters) :
    (filteredData evData searchTerm activeFilters).Sublist evData ∧
      (filteredData evData "" activeFilters).Sublist evData :=
  ⟨List.filter_sublist evData, List.filter_sublist evData⟩

/-- C3: with the empty search term and the empty criteria (makes, years and types
empty, both range bounds unset) the filter predicate accepts every record that
has at least one cell, as every parsed row has: the empty search term is
contained in any cell, whatever the fields of the record are. -/
theorem matchesVehicle_empty (vehicle : Record) (hcell : objectValues vehicle ≠ []) :
    matchesVehicle "" emptyFilters vehicle = true := by
  have hsearch : matchesSearch vehicle "" = true := by
    rw [matchesSearch_iff]
    cases hv : objectValues vehicle with
    | nil => exact absurd hv hcell
    | cons value rest =>
      refine ⟨value, List.mem_cons_self _ _, ?_⟩
      have : (toLowerCase "").data = [] := rfl
      rw [this]
      exact List.nil_infix
  simp [matchesVehicle, hsearch, matchesMake, matchesYear, matchesType, matchesRange,
    emptyFilters, truthy]

theorem matchesVehicle_empty_witness :
    objectValues [("Make", "TESLA"), ("Electric Range", "")] ≠ [] ∧
      matchesVehicle "" emptyFilters [("Make", "TESLA"), ("Electric Range", "")] = true :=
  ⟨by decide, matchesVehicle_empty _ (by decide)⟩

/-! ## The order of the relational operators -/

theorem unitsLt_irrefl (a : List Nat) : unitsLt a a = false := by
  induction a with
  | nil => rfl
  | cons x xs ih => simp [unitsLt, ih]

theorem unitsLt_trans (a b c : List Nat) (hab : unitsLt a b = true) (hbc : unitsLt b c = true) :
    unitsLt a c = true := by
  induction a generalizing b c with
  | nil =>
    cases b with
    | nil => simp [unitsLt] at hab
    | cons y ys =>
      cases c with
      | nil => simp [unitsLt] at hbc
      | cons z zs => simp [unitsLt]
  | cons x xs ih =>
    cases b with
    | nil => simp [unitsLt] at hab
    | cons y ys =>
      cases c with
      | nil => simp [unitsLt] at hbc
      | cons z zs =>
        simp only [unitsLt, Bool.or_eq_true, decide_eq_true_eq, Bool.and_eq_true, beq_iff_eq]
          at hab hbc ⊢
        rcases hab with hab | ⟨hxy, hab⟩
        · rcases hbc with hbc | ⟨hyz, _⟩
          · exact Or.inl (by omega)
          · exact Or.inl (by omega)
        · rcases hbc with hbc | ⟨hyz, hbc⟩
          · exact Or.inl (by omega)
          · exact Or.inr ⟨by omega, ih ys zs hab hbc⟩

theorem unitsLt_total (a b : List Nat) (hne : a ≠ b) :
    unitsLt a b = true ∨ unitsLt b a = true := by
  induction a generalizing b with
  | nil =>
    cases b with
    | nil => exact absurd rfl hne
    | cons y ys => simp [unitsLt]
  | cons x xs ih =>
    cases b with
    | nil => simp [unitsLt]
    | cons y ys =>
      simp only [unitsLt, Bool.or_eq_true, decide_eq_true_eq, Bool.and_eq_true, beq_iff_eq]
      rcases Nat.lt_trichotomy x y with h | h | h
      · exact Or.inl (Or.inl h)
      · subst h
        have hne' : xs ≠ ys := fun h => hne (by rw [h])
        rcases ih ys hne' with h | h
        · exact Or.inl (Or.inr ⟨rfl, h⟩)
        · exact Or.inr (Or.inr ⟨rfl, h⟩)
      · exact Or.inr (Or.inl h)

theorem utf16Char_ne_nil (c : Char) : utf16Char c ≠ [] := by
  unfold utf16Char
  split <;> simp

theorem utf16Chars_injective (s t : List Char) (h : utf16Chars s = utf16Chars t) : s = t := by
  induction s generalizing t with
  | nil =>
    cases t with
    | nil => rfl
    | cons d ds =>
      simp only [utf16Chars] at h
      have := utf16Char_ne_nil d
      cases hd : utf16Char d with
      | nil => exact absurd hd this
      | cons u us => rw [hd] at h; simp at h
  | cons c cs ih =>
    cases t with
    | nil =>
      simp only [utf16Chars] at h
      have := utf16Char_ne_nil c
      cases hc : utf16Char c with
      | nil => exact absurd hc this
      | cons u us => rw [hc] at h; simp at h
    | cons d ds =>
      have hcv := c.valid
      have hdv := d.valid
      simp only [UInt32.isValidChar, Nat.isValidChar] at hcv hdv
      simp only [utf16Chars, utf16Char] at h
      have key : c.val.toNat = d.val.toNat ∧ utf16Chars cs = utf16Chars ds := by
        split at h <;> split at h
        · simp only [List.singleton_append, List.cons.injEq] at h
          exact h
        · simp only [List.singleton_append, List.cons_append, List.cons.injEq] at h
          omega
        · simp only [List.singleton_append, List.cons_append, List.cons.injEq] at h
          omega
        · simp only [List.cons_append, List.nil_append, List.cons.injEq] at h
          refine ⟨by omega, h.2.2⟩
      have hcd : c = d := Char.eq_of_val_eq (UInt32.ext key.1)
      rw [hcd, ih ds key.2]

theorem utf16_injective (s t : String) (h : utf16 s = utf16 t) : s = t := by
  have := utf16Chars_injective s.data t.data h
  cases s; cases t
  simp only at this
  rw [this]

theorem jsLt_some_irrefl (a : String) : jsLt (some a) (some a) = false :=
  unitsLt_irrefl _

theorem jsLt_some_trans (a b c : String) (hab : jsLt (some a) (some b) = true)
    (hbc : jsLt (some b) (some c) = true) : jsLt (some a) (some c) = true :=
  unitsLt_trans _ _ _ hab hbc

theorem jsLt_some_total (a b : String) (hne : a ≠ b) :
    jsLt (some a) (some b) = true ∨ jsLt (some b) (some a) = true :=
  unitsLt_total _ _ (fun h => hne (utf16_injective a b h))

theorem jsLt_some_asymm (a b : String) (hab : jsLt (some a) (some b) = true) :
    jsLt (some b) (some a) = false := by
  cases hba : jsLt (some b) (some a) with
  | false => rfl
  | true =>
    have := jsLt_some_trans a b a hab hba
    rw [jsLt_some_irrefl] at this
    exact absurd this (by decide)

/-! ## Facts about the sort -/

section SortFacts

variable {α β : Type}

theorem binaryInsertionSort_perm (comparefn : α → α → Int) (sorted rest : List α) :
    (binaryInsertionSort comparefn sorted rest).Perm (sorted ++ rest) := by
  induction rest generalizing sorted with
  | nil => simp [binaryInsertionSort]
  | cons pivot rest ih =>
    simp only [binaryInsertionSort]
    refine (ih _).trans ?_
    generalize binarySearch comparefn pivot sorted sorted.length 0 sorted.length = k
    have h1 : (sorted.take k ++ pivot :: sorted.drop k).Perm (pivot :: sorted) := by
      have := @List.perm_middle _ pivot (sorted.take k) (sorted.drop k)
      rwa [List.take_append_drop] at this
    have h2 : (sorted ++ pivot :: rest).Perm (pivot :: (sorted ++ rest)) := List.perm_middle
    exact (h1.append_right rest).trans h2.symm

theorem arraySort_perm (comparefn : α → α → Int) (xs : List α) :
    (arraySort comparefn xs).Perm xs := by
  unfold arraySort
  split
  · exact List.Perm.refl _
  · simp only
    refine (binaryInsertionSort_perm _ _ _).trans ?_
    generalize countAndMakeRun comparefn xs = run
    have h : (xs.take run.1 ++ xs.drop run.1).Perm xs := by
      rw [List.take_append_drop]
    split
    · exact ((List.reverse_perm _).append_right _).trans h
    · exact h

theorem countRun_map (f : α → β) (comparefn : β → β → Int) (isDescending : Bool)
    (previous : α) (rest : List α) :
    countRun comparefn isDescending (f previous) (rest.map f) =
      countRun (fun a b => comparefn (f a) (f b)) isDescending previous rest := by
  induction rest generalizing previous with
  | nil => rfl
  | cons current rest ih => simp only [List.map_cons, countRun, ih]

theorem countAndMakeRun_map (f : α → β) (comparefn : β → β → Int) (xs : List α) :
    countAndMakeRun comparefn (xs.map f) =
      countAndMakeRun (fun a b => comparefn (f a) (f b)) xs := by
  match xs with
  | [] => rfl
  | [_] => rfl
  | low :: next :: rest => simp only [List.map_cons, countAndMakeRun, countRun_map]

theorem binarySearch_map (f : α → β) (comparefn : β → β → Int) (pivot : α) (work : List α)
    (fuel left right : Nat) :
    binarySearch comparefn (f pivot) (work.map f) fuel left right =
      binarySearch (fun a b => comparefn (f a) (f b)) pivot work fuel left right := by
  induction fuel generalizing left right with
  | zero => rfl
  | succ fuel ih => simp only [binarySearch, List.getD_map, ih]

theorem binaryInsertionSort_map (f : α → β) (comparefn : β → β → Int) (sorted rest : List α) :
    binaryInsertionSort comparefn (sorted.map f) (rest.map f) =
      (binaryInsertionSort (fun a b => comparefn (f a) (f b)) sorted rest).map f := by
  induction rest generalizing sorted with
  | nil => rfl
  | cons pivot rest ih =>
    simp only [List.map_cons, binaryInsertionSort, List.length_map, binarySearch_map]
    rw [← ih]
    simp only [List.map_append, List.map_cons, List.map_take, List.map_drop]

theorem arraySort_map (f : α → β) (comparefn : β → β → Int) (xs : List α) :
    arraySort comparefn (xs.map f) =
      (arraySort (fun a b => comparefn (f a) (f b)) xs).map f := by
  unfold arraySort
  simp only [List.length_map, countAndMakeRun_map]
  split
  · rfl
  · rw [← binaryInsertionSort_map]
    simp only [← List.map_take, ← List.map_drop]
    split
    · rw [List.map_reverse]
    · rfl

/-- The run counted in ascending mode is a chain of steps that the comparator
does not call descending. -/
theorem countRun_ascending (comparefn : α → α → Int) (previous : α) (rest : List α) :
    List.Chain (fun a b => ¬ comparefn b a < 0) previous
      (rest.take (countRun comparefn false previous rest)) := by
  induction rest generalizing previous with
  | nil => simp [countRun]
  | cons current rest ih =>
    simp only [countRun, Bool.false_eq_true, if_false]
    split
    · simp
    · rename_i h
      simp only [List.take_succ_cons, List.chain_cons]
      exact ⟨h, ih current⟩

/-- The run counted in descending mode is a chain of strictly descending steps. -/
theorem countRun_descending (comparefn : α → α → Int) (previous : α) (rest : List α) :
    List.Chain (fun a b => comparefn b a < 0) previous
      (rest.take (countRun comparefn true previous rest)) := by
  induction rest generalizing previous with
  | nil => simp [countRun]
  | cons current rest ih =>
    simp only [countRun, if_true]
    split
    · simp
    · rename_i h
      simp only [List.take_succ_cons, List.chain_cons]
      exact ⟨by omega, ih current⟩

/-- An array whose consecutive elements are all in ascending order for the
comparator is one single run. -/
theorem countRun_of_chain (comparefn : α → α → Int) (previous : α) (rest : List α)
    (h : List.Chain (fun a b => ¬ comparefn b a < 0) previous rest) :
    countRun comparefn false previous rest = rest.length := by
  induction rest generalizing previous with
  | nil => rfl
  | cons current rest ih =>
    rw [List.chain_cons] at h
    simp only [countRun, Bool.false_eq_true, if_false, if_neg h.1, ih current h.2,
      List.length_cons]

/-- V8 leaves an array unchanged when each element is in ascending order after
its predecessor. -/
theorem arraySort_of_chain (comparefn : α → α → Int) (xs : List α)
    (h : List.Chain' (fun a b => ¬ comparefn b a < 0) xs) : arraySort comparefn xs = xs := by
  match xs, h with
  | [], _ => rfl
  | [_], _ => rfl
  | low :: next :: rest, h =>
    rw [List.chain'_cons] at h
    have h2 : List.Chain (fun a b => ¬ comparefn b a < 0) next rest := h.2
    simp only [arraySort, countAndMakeRun, countRun_of_chain comparefn next rest h2,
      decide_eq_false h.1, List.length_cons]
    rw [if_neg (by omega)]
    simp [binaryInsertionSort]

end SortFacts

section SortOrder

variable {α : Type}

/-- The binary search returns a position with everything before it in order
before the pivot and the pivot in order before everything from it on, when the
comparator decides a total preorder and the work list is in order. -/
theorem binarySearch_spec (comparefn : α → α → Int)
    (htotal : ∀ x y, ¬ comparefn x y < 0 → comparefn y x < 0)
    (htrans : ∀ x y z, comparefn x y < 0 → comparefn y z < 0 → comparefn x z < 0)
    (pivot : α) (work : List α) (hwork : work.Pairwise (fun a b => comparefn a b < 0))
    (fuel left right : Nat) (hlr : left ≤ right) (hr : right ≤ work.length)
    (hfuel : right - left ≤ fuel)
    (hleft : ∀ x ∈ work.take left, comparefn x pivot < 0)
    (hright : ∀ y ∈ work.drop right, comparefn pivot y < 0) :
    (∀ x ∈ work.take (binarySearch comparefn pivot work fuel left right),
        comparefn x pivot < 0) ∧
      (∀ y ∈ work.drop (binarySearch comparefn pivot work fuel left right),
        comparefn pivot y < 0) := by
  induction fuel generalizing left right with
  | zero =>
    have : left = right := by omega
    subst this
    exact ⟨hleft, hright⟩
  | succ fuel ih =>
    simp only [binarySearch]
    split
    · rename_i hlt
      have hmid : left + (right - left) / 2 < work.length := by omega
      rw [List.getD_eq_getElem _ _ hmid]
      have hsplit : work = work.take (left + (right - left) / 2) ++
          work[left + (right - left) / 2] :: work.drop (left + (right - left) / 2 + 1) := by
        rw [← List.drop_eq_getElem_cons hmid, List.take_append_drop]
      have hpw := hwork
      rw [hsplit, List.pairwise_append, List.pairwise_cons] at hpw
      split
      · rename_i hcmp
        refine ih left _ (by omega) (by omega) (by omega) hleft ?_
        intro y hy
        rw [List.drop_eq_getElem_cons hmid, List.mem_cons] at hy
        rcases hy with rfl | hy
        · exact hcmp
        · exact htrans _ _ _ hcmp (hpw.2.1.1 y hy)
      · rename_i hcmp
        have hcmp' := htotal _ _ hcmp
        refine ih _ right (by omega) hr (by omega) ?_ hright
        intro x hx
        rw [List.take_succ, List.getElem?_eq_getElem hmid, Option.toList_some, List.mem_append,
          List.mem_singleton] at hx
        rcases hx with hx | rfl
        · exact htrans _ _ _ (hpw.2.2 x hx _ (List.mem_cons_self _ _)) hcmp'
        · exact hcmp'
    · have : left = right := by omega
      subst this
      exact ⟨hleft, hright⟩

theorem binaryInsertionSort_pairwise (comparefn : α → α → Int)
    (htotal : ∀ x y, ¬ comparefn x y < 0 → comparefn y x < 0)
    (htrans : ∀ x y z, comparefn x y < 0 → comparefn y z < 0 → comparefn x z < 0)
    (sorted rest : List α) (hsorted : sorted.Pairwise (fun a b => comparefn a b < 0)) :
    (binaryInsertionSort comparefn sorted rest).Pairwise (fun a b => comparefn a b < 0) := by
  induction rest generalizing sorted with
  | nil => exact hsorted
  | cons pivot rest ih =>
    simp only [binaryInsertionSort]
    apply ih
    have hspec := binarySearch_spec comparefn htotal htrans pivot sorted hsorted sorted.length 0
      sorted.length (Nat.zero_le _) (Nat.le_refl _) (by omega) (by simp) (by simp)
    generalize binarySearch comparefn pivot sorted sorted.length 0 sorted.length = k at hspec
    have hpw := hsorted
    rw [← List.take_append_drop k sorted, List.pairwise_append] at hpw
    rw [List.pairwise_append, List.pairwise_cons]
    refine ⟨hpw.1, ⟨hspec.2, hpw.2.1⟩, ?_⟩
    intro a ha b hb
    rw [List.mem_cons] at hb
    rcases hb with rfl | hb
    · exact hspec.1 a ha
    · exact hpw.2.2 a ha b hb

theorem pairwise_of_chain_trans (r : α → α → Prop) (htrans : ∀ x y z, r x y → r y z → r x z)
    (a : α) (l : List α) (h : List.Chain r a l) : (a :: l).Pairwise r := by
  induction l generalizing a with
  | nil => simp
  | cons b l ih =>
    rw [List.chain_cons] at h
    have hb := ih b h.2
    rw [List.pairwise_cons]
    refine ⟨?_, hb⟩
    rw [List.pairwise_cons] at hb
    intro c hc
    rw [List.mem_cons] at hc
    rcases hc with rfl | hc
    · exact h.1
    · exact htrans _ _ _ h.1 (hb.1 c hc)

/-- The result of the sort is in order for every comparator that decides a total
preorder by the sign of its result. -/
theorem arraySort_pairwise (comparefn : α → α → Int)
    (htotal : ∀ x y, ¬ comparefn x y < 0 → comparefn y x < 0)
    (htrans : ∀ x y z, comparefn x y < 0 → comparefn y z < 0 → comparefn x z < 0)
    (xs : List α) : (arraySort comparefn xs).Pairwise (fun a b => comparefn a b < 0) := by
  match xs with
  | [] => simp [arraySort]
  | [x] => simp [arraySort]
  | low :: next :: rest =>
    simp only [arraySort, countAndMakeRun, List.length_cons]
    rw [if_neg (by omega)]
    apply binaryInsertionSort_pairwise comparefn htotal htrans
    simp only [List.take_succ_cons]
    by_cases hdesc : comparefn next low < 0
    · simp only [hdesc, decide_True, if_true]
      rw [List.pairwise_reverse]
      apply pairwise_of_chain_trans (fun a b => comparefn b a < 0)
        (fun x y z hxy hyz => htrans z y x hyz hxy)
      rw [List.chain_cons]
      exact ⟨hdesc, countRun_descending comparefn next rest⟩
    · simp only [hdesc, decide_False, Bool.false_eq_true, if_false]
      apply pairwise_of_chain_trans (fun a b => comparefn a b < 0) htrans
      rw [List.chain_cons]
      refine ⟨htotal _ _ hdesc, ?_⟩
      exact (countRun_ascending comparefn next rest).imp (fun {a b} h => htotal _ _ h)

/-- The same for a comparator that decides a total preorder on the elements
that satisfy `p`, on a list of such elements. -/
theorem arraySort_pairwise_of_forall (comparefn : α → α → Int) (p : α → Prop)
    (htotal : ∀ x y, p x → p y → ¬ comparefn x y < 0 → comparefn y x < 0)
    (htrans : ∀ x y z, p x → p y → p z →
      comparefn x y < 0 → comparefn y z < 0 → comparefn x z < 0)
    (xs : List α) (hxs : ∀ x ∈ xs, p x) :
    (arraySort comparefn xs).Pairwise (fun a b => comparefn a b < 0) := by
  have hmap : (xs.attachWith p hxs).map Subtype.val = xs := List.attachWith_map_subtype_val xs hxs
  rw [← hmap, arraySort_map, List.pairwise_map]
  exact arraySort_pairwise (fun a b : { x // p x } => comparefn a.val b.val)
    (fun x y h => htotal x.val y.val x.property y.property h)
    (fun x y z hxy hyz => htrans x.val y.val z.val x.property y.property z.property hxy hyz)
    (xs.attachWith p hxs)

end SortOrder

/-! ## The sorted view -/

theorem jsLt_irrefl (v : Value) : jsLt v v = false := by
  cases v with
  | none => rfl
  | some a => exact jsLt_some_irrefl a

/-- On strings "not greater" is transitive. -/
theorem jsLt_some_le_trans (a b c : String) (hab : jsLt (some b) (some a) = false)
    (hbc : jsLt (some c) (some b) = false) : jsLt (some c) (some a) = false := by
  cases hca : jsLt (some c) (some a) with
  | false => rfl
  | true =>
    by_cases hba : b = a
    · subst hba
      rw [hca] at hbc
      exact absurd hbc (by decide)
    · rcases jsLt_some_total b a hba with h | h
      · rw [h] at hab
        exact absurd hab (by decide)
      · have := jsLt_some_trans c a b hca h
        rw [this] at hbc
        exact absurd hbc (by decide)

theorem compareVehicles_asc_neg (sortField : String) (a b : Record) :
    compareVehicles sortField "asc" a b < 0 ↔
      jsGt (a.get sortField) (b.get sortField) = false := by
  simp only [compareVehicles, if_true]
  cases jsGt (a.get sortField) (b.get sortField) <;> simp

theorem compareVehicles_desc_neg (sortField : String) (a b : Record) :
    compareVehicles sortField "desc" a b < 0 ↔
      jsLt (a.get sortField) (b.get sortField) = false := by
  have h : ¬ ("desc" = "asc") := by decide
  simp only [compareVehicles, if_neg h]
  cases jsLt (a.get sortField) (b.get sortField) <;> simp

/-- The ascending sorted view of records that all have the sort field is in
non-decreasing order of that field. -/
theorem sortedData_asc_pairwise (xs : List Record) (sortField : String)
    (hfield : ∀ r ∈ xs, r.get sortField ≠ none) :
    (sortedData xs sortField "asc").Pairwise
      (fun a b => jsGt (a.get sortField) (b.get sortField) = false) := by
  have h := arraySort_pairwise_of_forall (compareVehicles sortField "asc")
    (fun r => r.get sortField ≠ none) ?_ ?_ xs hfield
  · exact h.imp (fun {a b} hab => (compareVehicles_asc_neg sortField a b).1 hab)
  · intro x y hx hy hxy
    rw [compareVehicles_asc_neg] at hxy ⊢
    obtain ⟨kx, hkx⟩ := Option.ne_none_iff_exists'.1 hx
    obtain ⟨ky, hky⟩ := Option.ne_none_iff_exists'.1 hy
    rw [hkx, hky] at hxy ⊢
    simp only [jsGt, Bool.not_eq_false] at hxy ⊢
    exact jsLt_some_asymm _ _ hxy
  · intro x y z hx hy hz hxy hyz
    rw [compareVehicles_asc_neg] at hxy hyz ⊢
    obtain ⟨kx, hkx⟩ := Option.ne_none_iff_exists'.1 hx
    obtain ⟨ky, hky⟩ := Option.ne_none_iff_exists'.1 hy
    obtain ⟨kz, hkz⟩ := Option.ne_none_iff_exists'.1 hz
    rw [hkx, hky] at hxy
    rw [hky, hkz] at hyz
    rw [hkx, hkz]
    simp only [jsGt] at hxy hyz ⊢
    exact jsLt_some_le_trans kx ky kz hxy hyz

/-- The descending sorted view of records that all have the sort field is in
non-increasing order of that field. -/
theorem sortedData_desc_pairwise (xs : List Record) (sortField : String)
    (hfield : ∀ r ∈ xs, r.get sortField ≠ none) :
    (sortedData xs sortField "desc").Pairwise
      (fun a b => jsLt (a.get sortField) (b.get sortField) = false) := by
  have h := arraySort_pairwise_of_forall (compareVehicles sortField "desc")
    (fun r => r.get sortField ≠ none) ?_ ?_ xs hfield
  · exact h.imp (fun {a b} hab => (compareVehicles_desc_neg sortField a b).1 hab)
  · intro x y hx hy hxy
    rw [compareVehicles_desc_neg] at hxy ⊢
    obtain ⟨kx, hkx⟩ := Option.ne_none_iff_exists'.1 hx
    obtain ⟨ky, hky⟩ := Option.ne_none_iff_exists'.1 hy
    rw [hkx, hky] at hxy ⊢
    simp only [Bool.not_eq_false] at hxy
    exact jsLt_some_asymm _ _ hxy
  · intro x y z hx hy hz hxy hyz
    rw [compareVehicles_desc_neg] at hxy hyz ⊢
    obtain ⟨kx, hkx⟩ := Option.ne_none_iff_exists'.1 hx
    obtain ⟨ky, hky⟩ := Option.ne_none_iff_exists'.1 hy
    obtain ⟨kz, hkz⟩ := Option.ne_none_iff_exists'.1 hz
    rw [hkx, hky] at hxy
    rw [hky, hkz] at hyz
    rw [hkx, hkz]
    exact jsLt_some_le_trans kz ky kx hyz hxy

theorem pairwise_getElem?_lt {α : Type} (r : α → α → Prop) (l : List α) (h : l.Pairwise r)
    (i j : Nat) (a b : α) (hi : l[i]? = some a) (hj : l[j]? = some b) (hij : i < j) : r a b := by
  rw [List.pairwise_iff_getElem] at h
  obtain ⟨hi', rfl⟩ := List.getElem?_eq_some.1 hi
  obtain ⟨hj', rfl⟩ := List.getElem?_eq_some.1 hj
  exact h i j hi' hj' hij

/-- C5 (amended): when every record of the list has the sort field, or none
has it, the ascending sorted view places a record before every record whose raw
field value is strictly greater (generic `<`, lexicographic on strings), and the
descending sorted view places a record before every record whose value is
strictly smaller. -/
theorem sortedData_ordered (xs : List Record) (sortField : String)
    (hfield : (∀ r ∈ xs, r.get sortField ≠ none) ∨ (∀ r ∈ xs, r.get sortField = none)) :
    AscendingView (sortedData xs sortField "asc") sortField ∧
      DescendingView (sortedData xs sortField "desc") sortField := by
  rcases hfield with hfield | hnone
  · constructor
    · intro i j a b hi hj hlt
      by_contra hij
      rcases Nat.lt_or_eq_of_le (Nat.le_of_not_lt hij) with h | h
      · have := pairwise_getElem?_lt _ _ (sortedData_asc_pairwise xs sortField hfield)
          j i b a hj hi h
        simp only [jsGt] at this
        rw [this] at hlt
        exact absurd hlt (by decide)
      · subst h
        rw [hi] at hj
        cases hj
        rw [jsLt_irrefl] at hlt
        exact absurd hlt (by decide)
    · intro i j a b hi hj hgt
      by_contra hij
      rcases Nat.lt_or_eq_of_le (Nat.le_of_not_lt hij) with h | h
      · have := pairwise_getElem?_lt _ _ (sortedData_desc_pairwise xs sortField hfield)
          j i b a hj hi h
        simp only [jsGt] at hgt
        rw [this] at hgt
        exact absurd hgt (by decide)
      · subst h
        rw [hi] at hj
        cases hj
        simp only [jsGt] at hgt
        rw [jsLt_irrefl] at hgt
        exact absurd hgt (by decide)
  · constructor
    · intro i j a b hi _ hlt
      have ha : a ∈ xs := (arraySort_perm _ xs).mem_iff.1 (List.getElem?_mem hi)
      rw [hnone a ha] at hlt
      exact absurd hlt (by simp [jsLt])
    · intro i j a b hi _ hgt
      have ha : a ∈ xs := (arraySort_perm _ xs).mem_iff.1 (List.getElem?_mem hi)
      simp only [jsGt] at hgt
      rw [hnone a ha] at hgt
      cases hb : b.get sortField <;> rw [hb] at hgt <;> exact absurd hgt (by simp [jsLt])

theorem sortedData_ordered_witness :
    ((∀ r ∈ rangeRows, r.get "Electric Range" ≠ none) ∨
        (∀ r ∈ rangeRows, r.get "Electric Range" = none)) ∧
      AscendingView (sortedData rangeRows "Electric Range" "asc") "Electric Range" ∧
      DescendingView (sortedData rangeRows "Electric Range" "desc") "Electric Range" :=
  ⟨Or.inl (by decide), sortedData_ordered rangeRows "Electric Range" (Or.inl (by decide))⟩

/-- C5 (counterexample): with a row that has no Make between rows that have
one, the ascending view by Make puts "c" before "b". -/
theorem sortedData_ordered_counterexample :
    sortedData shortRowData "Make" "asc" =
      [[("VIN", "3"), ("Make", "a")], [("VIN", "4"), ("Make", "c")], [("VIN", "2")],
        [("VIN", "1"), ("Make", "b")]] ∧
    ¬ AscendingView (sortedData shortRowData "Make" "asc") "Make" := by
  refine ⟨by decide, ?_⟩
  intro h
  have := h 3 1 [("VIN", "1"), ("Make", "b")] [("VIN", "4"), ("Make", "c")] (by decide)
    (by decide) (by decide)
  omega

/-- Two lists of string values with the same elements, both in non-decreasing
order, are equal. -/
theorem eq_of_perm_of_ordered (ys zs : List Value) (hys : ∀ y ∈ ys, y ≠ none)
    (hperm : ys.Perm zs) (hy : ys.Pairwise (fun a b => jsGt a b = false))
    (hz : zs.Pairwise (fun a b => jsGt a b = false)) : ys = zs := by
  have hzs : ∀ z ∈ zs, z ≠ none := fun z hz' => hys z (hperm.mem_iff.2 hz')
  have hback : ∀ l : List Value, (∀ y ∈ l, y ≠ none) →
      (l.map (fun v => v.getD "")).map some = l := by
    intro l hl
    rw [List.map_map]
    calc l.map (some ∘ fun v => v.getD "") = l.map id := by
          apply List.map_congr_left
          intro y hy
          obtain ⟨s, hs⟩ := Option.ne_none_iff_exists'.1 (hl y hy)
          simp [hs]
      _ = l := List.map_id l
  have hsorted : ∀ l : List Value, (∀ y ∈ l, y ≠ none) →
      l.Pairwise (fun a b => jsGt a b = false) →
      (l.map (fun v => v.getD "")).Pairwise (fun s t => jsLt (some t) (some s) = false) := by
    intro l hl hpw
    rw [List.pairwise_map]
    refine hpw.imp_of_mem ?_
    intro a b ha hb hab
    obtain ⟨s, hs⟩ := Option.ne_none_iff_exists'.1 (hl a ha)
    obtain ⟨t, ht⟩ := Option.ne_none_iff_exists'.1 (hl b hb)
    subst hs ht
    simpa [jsGt] using hab
  have hanti : IsAntisymm String (fun s t => jsLt (some t) (some s) = false) :=
    ⟨fun s t hst hts => by
      by_contra hne
      rcases jsLt_some_total s t hne with h | h
      · rw [h] at hts
        exact absurd hts (by decide)
      · rw [h] at hst
        exact absurd hst (by decide)⟩
  have heq := @List.eq_of_perm_of_sorted _ _ hanti _ _ (hperm.map (fun v : Value => v.getD ""))
    (hsorted ys hys hy) (hsorted zs hzs hz)
  rw [← hback ys hys, ← hback zs hzs, heq]

/-- C6 (amended): on a list in which every record has the field, sorting the
ascending sorted view again yields the same sequence of field values as sorting
once; it yields exactly the same sequence of records when, in addition, no two
records share a value of the field. -/
theorem sortedData_idempotent (xs : List Record) (sortField : String)
    (hfield : ∀ r ∈ xs, r.get sortField ≠ none) :
    (sortedData (sortedData xs sortField "asc") sortField "asc").map
        (fun r => r.get sortField) =
      (sortedData xs sortField "asc").map (fun r => r.get sortField) ∧
    ((xs.map (fun r => r.get sortField)).Nodup →
      sortedData (sortedData xs sortField "asc") sortField "asc" =
        sortedData xs sortField "asc") := by
  have hperm : (sortedData xs sortField "asc").Perm xs := arraySort_perm _ xs
  have hfield' : ∀ r ∈ sortedData xs sortField "asc", r.get sortField ≠ none :=
    fun r hr => hfield r (hperm.mem_iff.1 hr)
  have hpw := sortedData_asc_pairwise xs sortField hfield
  constructor
  · have hperm2 : (sortedData (sortedData xs sortField "asc") sortField "asc").Perm
        (sortedData xs sortField "asc") := arraySort_perm _ _
    have hpw2 := sortedData_asc_pairwise (sortedData xs sortField "asc") sortField hfield'
    apply eq_of_perm_of_ordered
    · intro y hy
      obtain ⟨r, hr, rfl⟩ := List.mem_map.1 hy
      exact hfield' r (hperm2.mem_iff.1 hr)
    · exact hperm2.map _
    · rw [List.pairwise_map]
      exact hpw2
    · rw [List.pairwise_map]
      exact hpw
  · intro hdistinct
    have hnd : (sortedData xs sortField "asc").Pairwise
        (fun a b => a.get sortField ≠ b.get sortField) := by
      have h := (hperm.map (fun r => r.get sortField)).nodup_iff.2 hdistinct
      rw [List.Nodup, List.pairwise_map] at h
      exact h
    unfold sortedData
    apply arraySort_of_chain
    apply List.Pairwise.chain'
    refine (hpw.and hnd).imp_of_mem ?_
    intro a b ha hb hab
    obtain ⟨s, hs⟩ := Option.ne_none_iff_exists'.1 (hfield' a ha)
    obtain ⟨t, ht⟩ := Option.ne_none_iff_exists'.1 (hfield' b hb)
    rw [compareVehicles_asc_neg, hs, ht]
    rw [hs, ht] at hab
    simp only [jsGt, ne_eq, Option.some.injEq] at hab ⊢
    rcases jsLt_some_total s t hab.2 with h | h
    · rw [h]
      decide
    · rw [h] at hab
      exact absurd hab.1 (by decide)

theorem sortedData_idempotent_witness :
    (∀ r ∈ rangeRows, r.get "Electric Range" ≠ none) ∧
      (sortedData (sortedData rangeRows "Electric Range" "asc") "Electric Range" "asc").map
          (fun r => r.get "Electric Range") =
        (sortedData rangeRows "Electric Range" "asc").map (fun r => r.get "Electric Range") ∧
      ((rangeRows.map (fun r => r.get "Electric Range")).Nodup →
        sortedData (sortedData rangeRows "Electric Range" "asc") "Electric Range" "asc" =
          sortedData rangeRows "Electric Range" "asc") :=
  ⟨by decide, sortedData_idempotent rangeRows "Electric Range" (by decide)⟩

/-- C6 (counterexample): two records with the same Make and different Models
are swapped by every ascending sort by Make, so the second sort undoes the
first; and a row without Make between rows with distinct Makes is moved by the
second sort too. -/
theorem sortedData_idempotent_counterexample :
    sortedData tiedRows "Make" "asc" =
      [[("Make", "TESLA"), ("Model", "MODEL Y")], [("Make", "TESLA"), ("Model", "MODEL 3")]] ∧
    sortedData (sortedData tiedRows "Make" "asc") "Make" "asc" = tiedRows ∧
    sortedData (sortedData tiedRows "Make" "asc") "Make" "asc" ≠
      sortedData tiedRows "Make" "asc" ∧
    sortedData (sortedData shortRowData "Make" "asc") "Make" "asc" ≠
      sortedData shortRowData "Make" "asc" := by
  decide

/-- C7: for every filtered view, sort field and direction the sorted view is a
permutation of the filtered view: the same records with the same
multiplicities. The sort works on a copy, the filtered view is the unchanged
argument. -/
theorem sortedData_perm (filteredData : List Record) (sortField sortOrder : String) :
    (sortedData filteredData sortField sortOrder).Perm filteredData :=
  arraySort_perm _ filteredData

/-- C8 (the code at the failing input): a click on the header "Year", and likewise
"Type", makes that label the sort field; no record has a field of that name, and
the Model Year column of the sorted view reads 2021, 2019, 2020 and the type
column PHEV, BEV, PHEV: neither is in non-decreasing order. -/
theorem headerClick_year_type_unsorted :
    "Year" ∈ tableHeaders ∧ "Type" ∈ tableHeaders ∧
    headerClick "Year" "Make" "asc" = ("Year", "asc") ∧
    (sortedData threeRows "Year" "asc").map (fun r => r.get (columnField "Year")) =
      [some "2021", some "2019", some "2020"] ∧
    jsLt (some "2019") (some "2021") = true ∧
    headerClick "Type" "Make" "asc" = ("Type", "asc") ∧
    (sortedData threeRows "Type" "asc").map (fun r => r.get (columnField "Type")) =
      [some "Plug-in Hybrid Electric Vehicle (PHEV)", some "Battery Electric Vehicle (BEV)",
        some "Plug-in Hybrid Electric Vehicle (PHEV)"] ∧
    jsLt (some "Battery Electric Vehicle (BEV)")
      (some "Plug-in Hybrid Electric Vehicle (PHEV)") = true := by
  decide

/-! ## The displayed page -/

theorem slice_eq_take_drop {α : Type} (xs : List α) (start count : Nat) :
    slice xs start (start + count) = (xs.drop start).take count := by
  unfold slice
  rw [List.drop_take, Nat.add_sub_cancel_left]

theorem flatMap_pages {α : Type} (xs : List α) (n k : Nat) :
    (List.range k).flatMap (fun q => (xs.drop (q * n)).take n) = xs.take (k * n) := by
  induction k with
  | zero => simp
  | succ k ih =>
    rw [List.range_succ, List.flatMap_append, ih, List.flatMap_singleton, Nat.succ_mul,
      List.take_add]

/-- C9: for every sorted view, page index and page size n > 0 the displayed page
is the block of the view that starts at index page * n and has n records, cut at
the end of the view: its i-th record is the record of index page * n + i, it has
at most n records, it is empty when page * n is at or past the end, and the pages
0, 1, 2, ... one after the other give back the view. -/
theorem displayedPage_spec (sortedData : List Record) (page rowsPerPage : Nat)
    (hsize : 0 < rowsPerPage) :
    displayedPage sortedData page rowsPerPage =
      (sortedData.drop (page * rowsPerPage)).take rowsPerPage ∧
    (∀ i, (displayedPage sortedData page rowsPerPage)[i]? =
      if i < rowsPerPage then sortedData[page * rowsPerPage + i]? else none) ∧
    (displayedPage sortedData page rowsPerPage).length =
      min rowsPerPage (sortedData.length - page * rowsPerPage) ∧
    (displayedPage sortedData page rowsPerPage).length ≤ rowsPerPage ∧
    (sortedData.length ≤ page * rowsPerPage →
      displayedPage sortedData page rowsPerPage = []) ∧
    (∀ pages, sortedData.length ≤ pages * rowsPerPage →
      (List.range pages).flatMap (fun q => displayedPage sortedData q rowsPerPage) =
        sortedData) ∧
    (List.range sortedData.length).flatMap (fun q => displayedPage sortedData q rowsPerPage) =
      sortedData := by
  have hpage : ∀ q, displayedPage sortedData q rowsPerPage =
      (sortedData.drop (q * rowsPerPage)).take rowsPerPage :=
    fun q => slice_eq_take_drop sortedData (q * rowsPerPage) rowsPerPage
  have hall : ∀ pages, sortedData.length ≤ pages * rowsPerPage →
      (List.range pages).flatMap (fun q => displayedPage sortedData q rowsPerPage) =
        sortedData := by
    intro pages hpages
    simp only [hpage]
    rw [flatMap_pages, List.take_of_length_le hpages]
  refine ⟨hpage page, ?_, ?_, ?_, ?_, hall, ?_⟩
  · intro i
    rw [hpage, List.getElem?_take]
    split
    · rw [List.getElem?_drop]
    · rfl
  · rw [hpage, List.length_take, List.length_drop]
  · rw [hpage, List.length_take]
    exact Nat.min_le_left _ _
  · intro h
    rw [hpage, List.drop_of_length_le h, List.take_nil]
  · apply hall
    exact Nat.le_mul_of_pos_right _ hsize

theorem displayedPage_spec_witness :
    0 < 2 ∧
    displayedPage threeRows 1 2 = (threeRows.drop (1 * 2)).take 2 ∧
    (∀ i, (displayedPage threeRows 1 2)[i]? =
      if i < 2 then threeRows[1 * 2 + i]? else none) ∧
    (displayedPage threeRows 1 2).length = min 2 (threeRows.length - 1 * 2) ∧
    (displayedPage threeRows 1 2).length ≤ 2 ∧
    (threeRows.length ≤ 1 * 2 → displayedPage threeRows 1 2 = []) ∧
    (∀ pages, threeRows.length ≤ pages * 2 →
      (List.range pages).flatMap (fun q => displayedPage threeRows q 2) = threeRows) ∧
    (List.range threeRows.length).flatMap (fun q => displayedPage threeRows q 2) = threeRows :=
  ⟨by decide, displayedPage_spec threeRows 1 2 (by decide)⟩

/-! ## Facts about the numbers -/

theorem bitLength_zero (fuel : Nat) : bitLength fuel 0 = 0 := by
  cases fuel <;> simp [bitLength]

theorem bitLength_spec (fuel n : Nat) (hfuel : n ≤ fuel) (hn : n ≠ 0) :
    2 ^ (bitLength fuel n - 1) ≤ n ∧ n < 2 ^ bitLength fuel n := by
  induction fuel generalizing n with
  | zero => omega
  | succ fuel ih =>
    simp only [bitLength, if_neg hn, Nat.add_sub_cancel]
    by_cases h2 : n / 2 = 0
    · rw [h2, bitLength_zero]
      have : n = 1 := by omega
      subst this
      simp
    · have hih := ih (n / 2) (by omega) h2
      have hpos : bitLength fuel (n / 2) ≠ 0 := by
        intro h0
        rw [h0] at hih
        simp at hih
        omega
      obtain ⟨b, hb⟩ := Nat.exists_eq_succ_of_ne_zero hpos
      rw [hb] at hih ⊢
      simp only [Nat.succ_eq_add_one, Nat.add_sub_cancel] at hih
      rw [Nat.pow_succ] at hih ⊢
      rw [Nat.pow_succ]
      omega

theorem two_pow_toNat_div (s : Int) :
    ((2 : ℚ) ^ s.toNat) / (2 : ℚ) ^ (-s).toNat = (2 : ℚ) ^ s := by
  rcases le_total 0 s with h | h
  · obtain ⟨k, rfl⟩ := Int.eq_ofNat_of_zero_le h
    have : (-(k : Int)).toNat = 0 := by omega
    simp [this]
  · obtain ⟨k, hk⟩ := Int.eq_ofNat_of_zero_le (Int.neg_nonneg_of_nonpos h)
    have hs : s = -(k : Int) := by omega
    subst hs
    have : (-(k : Int)).toNat = 0 := by omega
    simp [this]

theorem floorLog2_le (num den : Nat) (hnum : 0 < num) (hden : 0 < den) :
    (2 : ℚ) ^ floorLog2 num den ≤ (num : ℚ) / den := by
  have hdenq : (0 : ℚ) < den := by exact_mod_cast hden
  unfold floorLog2
  simp only
  split
  · rename_i h
    rw [← two_pow_toNat_div, div_le_div_iff₀ (by positivity) hdenq]
    have hq : ((den * 2 ^ ((bitLength num num : Int) - (bitLength den den : Int)).toNat : Nat) : ℚ) ≤
        ((num * 2 ^ (-((bitLength num num : Int) - (bitLength den den : Int))).toNat : Nat) : ℚ) := by
      exact_mod_cast h
    push_cast at hq
    linarith
  · have hn := bitLength_spec num num (Nat.le_refl _) (by omega)
    have hd := bitLength_spec den den (Nat.le_refl _) (by omega)
    have hbn : bitLength num num ≠ 0 := by
      intro h0
      rw [h0] at hn
      simp at hn
      omega
    obtain ⟨b, hb⟩ := Nat.exists_eq_succ_of_ne_zero hbn
    rw [hb] at hn ⊢
    simp only [Nat.succ_eq_add_one, Nat.add_sub_cancel] at hn
    have hexp : ((b + 1 : Nat) : Int) - (bitLength den den : Int) - 1 =
        (b : Int) - (bitLength den den : Int) := by
      push_cast
      ring
    rw [hexp, zpow_sub₀ (by norm_num), zpow_natCast, zpow_natCast]
    have h1 : ((2 : ℚ) ^ b) ≤ num := by exact_mod_cast hn.1
    have h2 : (den : ℚ) ≤ (2 : ℚ) ^ bitLength den den := by exact_mod_cast hd.2.le
    rw [div_le_div_iff₀ (by positivity) hdenq]
    have hnumq : (0 : ℚ) ≤ num := by positivity
    have hpow : (0 : ℚ) ≤ (2 : ℚ) ^ b := by positivity
    nlinarith

theorem floorLog2_lt (num den : Nat) (hnum : 0 < num) (hden : 0 < den) :
    (num : ℚ) / den < (2 : ℚ) ^ (floorLog2 num den + 1) := by
  have hdenq : (0 : ℚ) < den := by exact_mod_cast hden
  unfold floorLog2
  simp only
  split
  · have hn := bitLength_spec num num (Nat.le_refl _) (by omega)
    have hd := bitLength_spec den den (Nat.le_refl _) (by omega)
    have hbd : bitLength den den ≠ 0 := by
      intro h0
      rw [h0] at hd
      simp at hd
      omega
    obtain ⟨b, hb⟩ := Nat.exists_eq_succ_of_ne_zero hbd
    rw [hb] at hd ⊢
    simp only [Nat.succ_eq_add_one, Nat.add_sub_cancel] at hd
    have hexp : (bitLength num num : Int) - ((b + 1 : Nat) : Int) + 1 =
        (bitLength num num : Int) - (b : Int) := by
      push_cast
      ring
    rw [hexp, zpow_sub₀ (by norm_num), zpow_natCast, zpow_natCast]
    have h1 : (num : ℚ) < (2 : ℚ) ^ bitLength num num := by exact_mod_cast hn.2
    have h2 : ((2 : ℚ) ^ b) ≤ den := by exact_mod_cast hd.1
    rw [div_lt_div_iff₀ hdenq (by positivity)]
    have hpow : (0 : ℚ) < (2 : ℚ) ^ b := by positivity
    nlinarith
  · rename_i h
    rw [Nat.not_le] at h
    have hq : ((num * 2 ^ (-((bitLength num num : Int) - (bitLength den den : Int))).toNat : Nat) : ℚ) <
        ((den * 2 ^ ((bitLength num num : Int) - (bitLength den den : Int)).toNat : Nat) : ℚ) := by
      exact_mod_cast h
    push_cast at hq
    rw [sub_add_cancel, ← two_pow_toNat_div, div_lt_div_iff₀ hdenq (by positivity)]
    linarith

theorem roundHalfEven_spec (num den : Nat) (hden : 0 < den) :
    2 * num ≤ 2 * (roundHalfEven num den * den) + den ∧
      2 * (roundHalfEven num den * den) ≤ 2 * num + den := by
  have hdiv := Nat.div_add_mod num den
  have hmod := Nat.mod_lt num hden
  have hmul : den * (num / den) = num / den * den := Nat.mul_comm _ _
  unfold roundHalfEven
  simp only
  split
  · constructor <;> omega
  · split
    · rw [Nat.add_mul]
      constructor <;> omega
    · split
      · constructor <;> omega
      · rw [Nat.add_mul]
        constructor <;> omega

theorem roundHalfEven_abs (num den : Nat) (hden : 0 < den) :
    |(roundHalfEven num den : ℚ) - (num : ℚ) / den| ≤ 1 / 2 := by
  have hdenq : (0 : ℚ) < den := by exact_mod_cast hden
  obtain ⟨h1, h2⟩ := roundHalfEven_spec num den hden
  have h1q : (2 : ℚ) * num ≤ 2 * (roundHalfEven num den * den) + den := by exact_mod_cast h1
  have h2q : (2 : ℚ) * (roundHalfEven num den * den) ≤ 2 * num + den := by exact_mod_cast h2
  have hx : (num : ℚ) / den * den = num := div_mul_cancel₀ _ (ne_of_gt hdenq)
  rw [abs_le]
  constructor
  · have h : ((num : ℚ) / den - (roundHalfEven num den : ℚ) - 1 / 2) * den ≤ 0 := by
      rw [sub_mul, sub_mul, hx]
      linarith
    have := nonpos_of_mul_nonpos_left h hdenq
    linarith
  · have h : ((roundHalfEven num den : ℚ) - (num : ℚ) / den - 1 / 2) * den ≤ 0 := by
      rw [sub_mul, sub_mul, hx]
      linarith
    have := nonpos_of_mul_nonpos_left h hdenq
    linarith

/-- Rounding a positive fraction to a double changes it by at most the fraction
times `2^-53`. -/
theorem roundToDouble_error (num den : Nat) (hnum : 0 < num) (hden : 0 < den) :
    0 < (roundToDouble num den).2 ∧
      |((roundToDouble num den).1 : ℚ) / (roundToDouble num den).2 - (num : ℚ) / den| ≤
        (num : ℚ) / den / 2 ^ 53 := by
  have hnum0 : num ≠ 0 := by omega
  simp only [roundToDouble, if_neg hnum0]
  refine ⟨by positivity, ?_⟩
  generalize hs : (52 : Int) - floorLog2 num den = s
  have hlog := floorLog2_le num den hnum hden
  have he : floorLog2 num den = 52 - s := by omega
  rw [he, zpow_sub₀ (by norm_num), ← two_pow_toNat_div s] at hlog
  have hround := roundHalfEven_abs (num * 2 ^ s.toNat) (den * 2 ^ (-s).toNat) (by positivity)
  generalize roundHalfEven (num * 2 ^ s.toNat) (den * 2 ^ (-s).toNat) = m at hround
  push_cast at hround ⊢
  have hP : (0 : ℚ) < (2 : ℚ) ^ s.toNat := by positivity
  have hQ : (0 : ℚ) < (2 : ℚ) ^ (-s).toNat := by positivity
  generalize (2 : ℚ) ^ s.toNat = P at hP hround hlog ⊢
  generalize (2 : ℚ) ^ (-s).toNat = Q at hQ hround hlog ⊢
  have hdenq : (0 : ℚ) < den := by exact_mod_cast hden
  have key : (m : ℚ) * Q / P - (num : ℚ) / den =
      (Q / P) * ((m : ℚ) - (num : ℚ) * P / (den * Q)) := by
    field_simp
    ring
  have hQP : Q / P * 2 ^ 52 ≤ (num : ℚ) / den := by
    have h52 : (2 : ℚ) ^ (52 : Int) = 2 ^ 52 := by norm_num
    rw [h52] at hlog
    have e : (2 : ℚ) ^ 52 / (P / Q) = Q / P * 2 ^ 52 := by
      field_simp
      ring
    rw [e] at hlog
    exact hlog
  rw [key, abs_mul, abs_of_pos (div_pos hQ hP)]
  calc Q / P * |(m : ℚ) - (num : ℚ) * P / (den * Q)| ≤ Q / P * (1 / 2) :=
        mul_le_mul_of_nonneg_left hround (le_of_lt (div_pos hQ hP))
    _ ≤ (num : ℚ) / den / 2 ^ 53 := by
        rw [le_div_iff₀ (by positivity)]
        have e2 : Q / P * (1 / 2) * 2 ^ 53 = Q / P * 2 ^ 52 := by norm_num; ring
        rw [e2]
        exact hQP

/-- The double computed for `value / total * 100` is within `201 * 2^-53` of the
exact quotient. -/
theorem percentage_double_close (value total : Nat) (hvalue : 0 < value) (hle : value ≤ total) :
    0 < (numberMul (numberDiv value total) 100).2 ∧
      |((numberMul (numberDiv value total) 100).1 : ℚ) /
          (numberMul (numberDiv value total) 100).2 - (value : ℚ) / total * 100| ≤
        201 / 2 ^ 53 := by
  have htotalpos : 0 < total := by omega
  have hL : (0 : ℚ) < total := by exact_mod_cast htotalpos
  have hV : (0 : ℚ) < value := by exact_mod_cast hvalue
  have hVL : (value : ℚ) ≤ total := by exact_mod_cast hle
  obtain ⟨hqd, hqerr⟩ := roundToDouble_error value total hvalue htotalpos
  unfold numberMul numberDiv
  generalize roundToDouble value total = q at hqd hqerr ⊢
  obtain ⟨qn, qd⟩ := q
  simp only at hqd hqerr ⊢
  have hqdq : (0 : ℚ) < qd := by exact_mod_cast hqd
  have hxpos : 0 < (value : ℚ) / total := div_pos hV hL
  have hxle : (value : ℚ) / total ≤ 1 := (div_le_one hL).2 hVL
  generalize (value : ℚ) / total = x at hqerr hxpos hxle ⊢
  obtain ⟨u, hu⟩ : ∃ u : ℚ, u = 1 / 2 ^ 53 := ⟨_, rfl⟩
  have hupos : 0 < u := by rw [hu]; positivity
  have husmall : u ≤ 1 / 100 := by rw [hu]; norm_num
  have hxu : x / 2 ^ 53 = x * u := by rw [hu]; ring
  rw [hxu, abs_le] at hqerr
  have hxu1 : x * u ≤ u := by nlinarith
  have hxu2 : x * u < x := by nlinarith
  have hqpos : 0 < (qn : ℚ) / qd := by linarith [hqerr.1]
  have hqn : 0 < qn := by
    rcases Nat.eq_zero_or_pos qn with h | h
    · rw [h] at hqpos
      simp at hqpos
    · exact h
  obtain ⟨hpd, hperr⟩ := roundToDouble_error (qn * 100) qd (by omega) hqd
  refine ⟨hpd, ?_⟩
  generalize roundToDouble (qn * 100) qd = p at hperr ⊢
  obtain ⟨pn, pd⟩ := p
  simp only at hperr ⊢
  push_cast at hperr
  have hq100 : (qn : ℚ) * 100 / qd / 2 ^ 53 = (qn : ℚ) / qd * 100 * u := by rw [hu]; ring
  have hq100' : (qn : ℚ) * 100 / qd = (qn : ℚ) / qd * 100 := by ring
  rw [hq100, hq100'] at hperr
  generalize (qn : ℚ) / qd = y at hqerr hqpos hperr
  generalize (pn : ℚ) / pd = z at hperr ⊢
  rw [abs_le] at hperr
  have h201 : (201 : ℚ) / 2 ^ 53 = 201 * u := by rw [hu]; ring
  rw [h201, abs_le]
  have hyu : y * u ≤ (1 + u) * u := by
    apply mul_le_mul_of_nonneg_right _ (le_of_lt hupos)
    linarith [hqerr.2]
  have huu : u * u ≤ u / 100 := by nlinarith
  constructor
  · linarith [hperr.1, hqerr.1]
  · linarith [hperr.2, hqerr.2]

/-- The integer printed by `toFixed(1)` is ten times the double, rounded to the
nearest integer, halves upwards. -/
theorem toFixedDigits_bracket (pn pd : Nat) (hpd : 0 < pd) :
    (toFixedDigits (pn, pd) : ℚ) ≤ 10 * ((pn : ℚ) / pd) + 1 / 2 ∧
      10 * ((pn : ℚ) / pd) + 1 / 2 < (toFixedDigits (pn, pd) : ℚ) + 1 := by
  have hpdq : (0 : ℚ) < pd := by exact_mod_cast hpd
  have hpy : (pn : ℚ) / pd * pd = pn := div_mul_cancel₀ _ (ne_of_gt hpdq)
  have hdigits : 2 * pd * toFixedDigits (pn, pd) ≤ 20 * pn + pd ∧
      20 * pn + pd < 2 * pd * (toFixedDigits (pn, pd) + 1) := by
    unfold toFixedDigits
    simp only
    have h1 := Nat.div_add_mod (20 * pn + pd) (2 * pd)
    have h2 := Nat.mod_lt (20 * pn + pd) (show 0 < 2 * pd by omega)
    constructor
    · omega
    · rw [Nat.mul_add]
      omega
  generalize toFixedDigits (pn, pd) = n at hdigits ⊢
  have hd1 : (2 : ℚ) * pd * n ≤ 20 * pn + pd := by exact_mod_cast hdigits.1
  have hd2 : (20 : ℚ) * pn + pd < 2 * pd * (n + 1) := by exact_mod_cast hdigits.2
  rw [← hpy] at hd1 hd2
  generalize (pn : ℚ) / pd = z at hd1 hd2 ⊢
  constructor
  · have h : ((n : ℚ) - 10 * z - 1 / 2) * pd ≤ 0 := by linarith
    have := nonpos_of_mul_nonpos_left h hpdq
    linarith
  · have h : 0 < ((n : ℚ) + 1 - 10 * z - 1 / 2) * pd := by linarith
    have := pos_of_mul_pos_left h (le_of_lt hpdq)
    linarith

/-- The digits printed for a percentage are those of a nearest multiple of 0.1
to the exact quotient `value / total * 100`. -/
theorem toFixedDigits_percentage (value total : Nat) (hvalue : 0 < value)
    (hle : value ≤ total) (htotal : total < 2 ^ 32) :
    |((toFixedDigits (numberMul (numberDiv value total) 100) : ℚ)) / 10 -
        (value : ℚ) / total * 100| ≤ 1 / 20 := by
  have htotalpos : 0 < total := by omega
  have hL : (0 : ℚ) < total := by exact_mod_cast htotalpos
  have hLlt : (total : ℚ) < 2 ^ 32 := by exact_mod_cast htotal
  obtain ⟨hpd, hclose⟩ := percentage_double_close value total hvalue hle
  generalize numberMul (numberDiv value total) 100 = p at hpd hclose ⊢
  obtain ⟨pn, pd⟩ := p
  simp only at hpd hclose
  obtain ⟨hn1, hn2⟩ := toFixedDigits_bracket pn pd hpd
  generalize toFixedDigits (pn, pd) = n at hn1 hn2 ⊢
  generalize (pn : ℚ) / pd = z at hclose hn1 hn2
  have hx : (value : ℚ) / total * total = value := div_mul_cancel₀ _ (ne_of_gt hL)
  obtain ⟨d, hd⟩ : ∃ d : ℚ, d = 201 / 2 ^ 53 := ⟨_, rfl⟩
  have hdpos : 0 < d := by rw [hd]; positivity
  have hdB : 20 * (2 ^ 32 * d) < 1 := by rw [hd]; norm_num
  rw [← hd, abs_le] at hclose
  have hLd : (total : ℚ) * d ≤ 2 ^ 32 * d :=
    mul_le_mul_of_nonneg_right (le_of_lt hLlt) (le_of_lt hdpos)
  have hup : (2 : ℚ) * n * total < 2000 * value + total + 1 := by
    have h := mul_le_mul_of_nonneg_right
      (show (n : ℚ) ≤ 1000 * ((value : ℚ) / total) + 10 * d + 1 / 2 by linarith [hclose.2])
      (le_of_lt hL)
    rw [add_mul, add_mul, mul_assoc, hx] at h
    linarith
  have hlow : (2000 : ℚ) * value < 2 * n * total + total + 1 := by
    have h := mul_le_mul_of_nonneg_right
      (show 1000 * ((value : ℚ) / total) - 10 * d - 1 / 2 ≤ (n : ℚ) by linarith [hclose.1])
      (le_of_lt hL)
    rw [sub_mul, sub_mul, mul_assoc, hx] at h
    linarith
  have hupN : 2 * n * total < 2000 * value + total + 1 := by exact_mod_cast hup
  have hlowN : 2000 * value < 2 * n * total + total + 1 := by exact_mod_cast hlow
  have hupq : (2 : ℚ) * n * total ≤ 2000 * value + total := by
    have : 2 * n * total ≤ 2000 * value + total := by omega
    exact_mod_cast this
  have hlowq : (2000 : ℚ) * value ≤ 2 * n * total + total := by
    have : 2000 * value ≤ 2 * n * total + total := by omega
    exact_mod_cast this
  rw [← hx] at hupq hlowq
  generalize (value : ℚ) / total = x at hupq hlowq ⊢
  rw [abs_le]
  constructor
  · have h : (-(1 / 20) - ((n : ℚ) / 10 - x * 100)) * total ≤ 0 := by
      have : (-(1 / 20) - ((n : ℚ) / 10 - x * 100)) * total =
        (2000 * (x * total) - 2 * n * total - total) / 20 := by ring
      rw [this]
      linarith
    have := nonpos_of_mul_nonpos_left h hL
    linarith
  · have h : ((n : ℚ) / 10 - x * 100 - 1 / 20) * total ≤ 0 := by
      have : ((n : ℚ) / 10 - x * 100 - 1 / 20) * total =
        (2 * n * total - 2000 * (x * total) - total) / 20 := by ring
      rw [this]
      linarith
    have := nonpos_of_mul_nonpos_left h hL
    linarith

/-! ## Facts about objects used as maps -/

section Objects

variable {β : Type}

theorem objectGet_eq_none_iff (obj : List (String × β)) (key : String) :
    objectGet obj key = none ↔ key ∉ obj.map Prod.fst := by
  induction obj with
  | nil => simp [objectGet]
  | cons e rest ih =>
    obtain ⟨k, v⟩ := e
    simp only [objectGet, List.map_cons, List.mem_cons, not_or]
    by_cases h : k = key
    · simp [h]
    · simp only [if_neg h, ih]
      constructor
      · intro h'
        exact ⟨fun h'' => h h''.symm, h'⟩
      · intro h'
        exact h'.2

theorem objectGet_of_mem (obj : List (String × β)) (hnodup : (obj.map Prod.fst).Nodup)
    (key : String) (value : β) (hmem : (key, value) ∈ obj) : objectGet obj key = some value := by
  induction obj with
  | nil => simp at hmem
  | cons e rest ih =>
    obtain ⟨k, v⟩ := e
    simp only [List.map_cons, List.nodup_cons] at hnodup
    simp only [objectGet]
    rw [List.mem_cons] at hmem
    rcases hmem with h | h
    · simp only [Prod.mk.injEq] at h
      simp [h.1, h.2]
    · have hk : k ≠ key := by
        intro hk
        apply hnodup.1
        rw [hk]
        exact List.mem_map.2 ⟨(key, value), h, rfl⟩
      rw [if_neg hk]
      exact ih hnodup.2 h

theorem objectGet_replace (obj : List (String × β)) (key : String) (value : β) (k : String) :
    objectGet (obj.map (fun e => if e.1 = key then (key, value) else e)) k =
      if k = key then (objectGet obj key).map (fun _ => value) else objectGet obj k := by
  induction obj with
  | nil => simp [objectGet]
  | cons e rest ih =>
    obtain ⟨k', v'⟩ := e
    rw [List.map_cons]
    by_cases h1 : k' = key
    · have hhead : (if (k', v').1 = key then (key, value) else (k', v')) = (key, value) :=
        if_pos h1
      rw [hhead]
      subst h1
      simp only [objectGet, if_true, Option.map_some']
      by_cases h2 : k' = k
      · subst h2
        simp
      · have h3 : ¬ k = k' := fun h => h2 h.symm
        rw [if_neg h2, if_neg h3, ih, if_neg h3, if_neg h2]
    · have hhead : (if (k', v').1 = key then (key, value) else (k', v')) = (k', v') :=
        if_neg h1
      rw [hhead]
      simp only [objectGet, if_neg h1]
      by_cases h2 : k' = k
      · subst h2
        simp [h1]
      · rw [if_neg h2, if_neg h2, ih]

theorem replace_keys (obj : List (String × β)) (key : String) (value : β) :
    (obj.map (fun e => if e.1 = key then (key, value) else e)).map Prod.fst =
      obj.map Prod.fst := by
  rw [List.map_map]
  apply List.map_congr_left
  intro e _
  simp only [Function.comp]
  split
  · rename_i h
    exact h.symm
  · rfl

theorem objectGet_objectInsert (obj : List (String × β)) (key : String) (value : β)
    (k : String) (hnew : objectGet obj key = none) :
    objectGet (objectInsert key value obj) k =
      if k = key then some value else objectGet obj k := by
  induction obj with
  | nil =>
    simp only [objectInsert, objectGet]
    by_cases h : key = k
    · simp [h]
    · have h' : ¬ k = key := fun h'' => h h''.symm
      simp [h, h']
  | cons e rest ih =>
    obtain ⟨k', v'⟩ := e
    simp only [objectGet] at hnew
    have hk' : ¬ k' = key := by
      intro h
      rw [if_pos h] at hnew
      exact absurd hnew (by simp)
    rw [if_neg hk'] at hnew
    simp only [objectInsert]
    split
    · simp only [objectGet]
      by_cases h : key = k
      · simp [h]
      · have h' : ¬ k = key := fun h'' => h h''.symm
        simp [h, h']
    · simp only [objectGet]
      by_cases h : k' = k
      · subst h
        simp [hk']
      · simp only [if_neg h, ih hnew]

theorem objectInsert_perm (obj : List (String × β)) (key : String) (value : β) :
    (objectInsert key value obj).Perm ((key, value) :: obj) := by
  induction obj with
  | nil => simp [objectInsert]
  | cons e rest ih =>
    obtain ⟨k', v'⟩ := e
    simp only [objectInsert]
    split
    · exact List.Perm.refl _
    · exact (List.Perm.cons _ ih).trans (List.Perm.swap _ _ _)

theorem objectGet_objectSet (obj : List (String × β)) (key : String) (value : β) (k : String) :
    objectGet (objectSet obj key value) k =
      if k = key then some value else objectGet obj k := by
  unfold objectSet
  split
  · rename_i h
    rw [objectGet_replace]
    obtain ⟨v, hv⟩ := Option.isSome_iff_exists.1 h
    simp [hv]
  · rename_i h
    have hnew : objectGet obj key = none := by
      cases hg : objectGet obj key with
      | none => rfl
      | some v => simp [hg] at h
    exact objectGet_objectInsert obj key value k hnew

theorem objectSet_keys_nodup (obj : List (String × β)) (key : String) (value : β)
    (hnodup : (obj.map Prod.fst).Nodup) : ((objectSet obj key value).map Prod.fst).Nodup := by
  unfold objectSet
  split
  · rw [replace_keys]
    exact hnodup
  · rename_i h
    have hnew : objectGet obj key = none := by
      cases hg : objectGet obj key with
      | none => rfl
      | some v => simp [hg] at h
    have hperm := (objectInsert_perm obj key value).map Prod.fst
    rw [hperm.nodup_iff, List.map_cons, List.nodup_cons]
    exact ⟨(objectGet_eq_none_iff obj key).1 hnew, hnodup⟩

end Objects

/-! ## The manufacturer distribution -/

theorem countMake_counts (acc : List (String × Nat)) (seen : List Record) (curr : Record)
    (h : CountsOf acc seen) : CountsOf (countMake acc curr) (seen ++ [curr]) := by
  refine ⟨objectSet_keys_nodup _ _ _ h.1, ?_⟩
  intro name
  unfold countMake
  rw [objectGet_objectSet, h.2 (propertyKey (curr.get "Make"))]
  have hcount : makeCount name (seen ++ [curr]) =
      makeCount name seen + if propertyKey (curr.get "Make") = name then 1 else 0 := by
    simp only [makeCount, List.countP_append, List.countP_cons, List.countP_nil, beq_iff_eq,
      Nat.zero_add]
  by_cases hname : name = propertyKey (curr.get "Make")
  · subst hname
    rw [hcount]
    simp only [if_true]
    split <;> simp_all
  · have hname' : ¬ propertyKey (curr.get "Make") = name := fun h' => hname h'.symm
    rw [if_neg hname, hcount, if_neg hname', Nat.add_zero]
    exact h.2 name

theorem foldl_countMake_counts (rest : List Record) (acc : List (String × Nat))
    (seen : List Record) (h : CountsOf acc seen) :
    CountsOf (rest.foldl countMake acc) (seen ++ rest) := by
  induction rest generalizing acc seen with
  | nil => simpa using h
  | cons curr rest ih =>
    have := ih (countMake acc curr) (seen ++ [curr]) (countMake_counts acc seen curr h)
    simpa using this

theorem distribution_counts (evData : List Record) : CountsOf (evData.foldl countMake []) evData := by
  have := foldl_countMake_counts evData [] [] ⟨by simp, fun name => by simp [objectGet, makeCount]⟩
  simpa using this

theorem getMakeDistribution_mem (evData : List Record) (e : MakeEntry)
    (he : e ∈ getMakeDistribution evData) :
    0 < e.value ∧ e.value = makeCount e.name evData ∧
      e.percentage = percentageOf e.value evData.length := by
  unfold getMakeDistribution slice at he
  have he1 := List.mem_of_mem_drop he
  have he2 := List.mem_of_mem_take he1
  have he3 := (arraySort_perm _ _).mem_iff.1 he2
  obtain ⟨⟨name, value⟩, hmem, rfl⟩ := List.mem_map.1 he3
  have hcounts := distribution_counts evData
  have hget := objectGet_of_mem _ hcounts.1 name value hmem
  rw [hcounts.2 name] at hget
  simp only
  split at hget
  · exact absurd hget (by simp)
  · rename_i hpos
    simp only [Option.some.injEq] at hget
    exact ⟨by omega, hget.symm, trivial⟩

theorem makeCount_three_le (a b c : String) (hab : a ≠ b) (hac : a ≠ c) (hbc : b ≠ c)
    (rows : List Record) :
    makeCount a rows + makeCount b rows + makeCount c rows ≤ rows.length := by
  induction rows with
  | nil => simp [makeCount]
  | cons r rows ih =>
    simp only [makeCount, List.countP_cons, beq_iff_eq, List.length_cons] at ih ⊢
    by_cases h1 : propertyKey (r.get "Make") = a
    · have h2 : ¬ propertyKey (r.get "Make") = b := fun h => hab (h1.symm.trans h)
      have h3 : ¬ propertyKey (r.get "Make") = c := fun h => hac (h1.symm.trans h)
      rw [if_pos h1, if_neg h2, if_neg h3]
      omega
    · by_cases h2 : propertyKey (r.get "Make") = b
      · have h3 : ¬ propertyKey (r.get "Make") = c := fun h => hbc (h2.symm.trans h)
        rw [if_neg h1, if_pos h2, if_neg h3]
        omega
      · rw [if_neg h1, if_neg h2]
        split <;> omega

/-- The counts object of ten rows, six of them "Tesla" and four "Nissan", holds
exactly these two keys, in the order of their first rows. -/
theorem distribution_tesla_nissan (evData : List Record) (hlen : evData.length = 10)
    (htesla : makeCount "Tesla" evData = 6) (hnissan : makeCount "Nissan" evData = 4) :
    evData.foldl countMake [] = [("Tesla", 6), ("Nissan", 4)] ∨
      evData.foldl countMake [] = [("Nissan", 4), ("Tesla", 6)] := by
  obtain ⟨hnodup, hget⟩ := distribution_counts evData
  generalize evData.foldl countMake [] = dist at hnodup hget
  have hkeys : ∀ name, name ∈ dist.map Prod.fst ↔ name ∈ ["Tesla", "Nissan"] := by
    intro name
    have h := objectGet_eq_none_iff dist name
    rw [hget name] at h
    simp only [List.mem_cons, List.mem_singleton, List.not_mem_nil, or_false]
    constructor
    · intro hmem
      by_contra hne
      rw [not_or] at hne
      have h3 := makeCount_three_le "Tesla" "Nissan" name (by decide)
        (fun h' => hne.1 h'.symm) (fun h' => hne.2 h'.symm) evData
      have h0 : makeCount name evData = 0 := by omega
      rw [if_pos h0] at h
      exact (h.1 rfl) hmem
    · intro hname
      by_contra hmem
      have := h.2 hmem
      rcases hname with rfl | rfl
      · rw [htesla] at this
        simp at this
      · rw [hnissan] at this
        simp at this
  have hperm : (dist.map Prod.fst).Perm ["Tesla", "Nissan"] :=
    (List.perm_ext_iff_of_nodup hnodup (by decide)).2 hkeys
  have hlen2 : dist.length = 2 := by
    have := hperm.length_eq
    simpa using this
  obtain ⟨⟨k1, v1⟩, ⟨k2, v2⟩, rfl⟩ := List.length_eq_two.1 hlen2
  have ht := hget "Tesla"
  have hn := hget "Nissan"
  rw [htesla] at ht
  rw [hnissan] at hn
  have h1 := (hkeys k1).1 (by simp)
  have h2 := (hkeys k2).1 (by simp)
  simp only [List.map_cons, List.map_nil, List.nodup_cons, List.mem_singleton,
    List.not_mem_nil, not_false_eq_true, List.nodup_nil, and_true] at hnodup
  simp only [List.mem_cons, List.mem_singleton, List.not_mem_nil, or_false] at h1 h2
  rcases h1 with rfl | rfl
  · rcases h2 with rfl | rfl
    · exact absurd rfl hnodup
    · left
      simp [objectGet] at ht hn
      rw [ht, hn]
  · rcases h2 with rfl | rfl
    · right
      simp [objectGet] at ht hn
      rw [ht, hn]
    · exact absurd rfl hnodup

/-! ## The sort with a consistent comparator -/

section SortRelation

variable {α : Type}

/-- The binary search for any relation `r` that the comparator decides: a
negative answer to `comparefn x y` gives `r x y`, any other answer `r y x`. -/
theorem binarySearch_rel (comparefn : α → α → Int) (r : α → α → Prop)
    (hneg : ∀ x y, comparefn x y < 0 → r x y)
    (hnonneg : ∀ x y, ¬ comparefn x y < 0 → r y x)
    (htrans : ∀ x y z, r x y → r y z → r x z)
    (pivot : α) (work : List α) (hwork : work.Pairwise r)
    (fuel left right : Nat) (hlr : left ≤ right) (hr : right ≤ work.length)
    (hfuel : right - left ≤ fuel)
    (hleft : ∀ x ∈ work.take left, r x pivot)
    (hright : ∀ y ∈ work.drop right, r pivot y) :
    (∀ x ∈ work.take (binarySearch comparefn pivot work fuel left right), r x pivot) ∧
      (∀ y ∈ work.drop (binarySearch comparefn pivot work fuel left right), r pivot y) := by
  induction fuel generalizing left right with
  | zero =>
    have : left = right := by omega
    subst this
    exact ⟨hleft, hright⟩
  | succ fuel ih =>
    simp only [binarySearch]
    split
    · rename_i hlt
      have hmid : left + (right - left) / 2 < work.length := by omega
      rw [List.getD_eq_getElem _ _ hmid]
      have hsplit : work = work.take (left + (right - left) / 2) ++
          work[left + (right - left) / 2] :: work.drop (left + (right - left) / 2 + 1) := by
        rw [← List.drop_eq_getElem_cons hmid, List.take_append_drop]
      have hpw := hwork
      rw [hsplit, List.pairwise_append, List.pairwise_cons] at hpw
      split
      · rename_i hcmp
        have hcmp' := hneg _ _ hcmp
        refine ih left _ (by omega) (by omega) (by omega) hleft ?_
        intro y hy
        rw [List.drop_eq_getElem_cons hmid, List.mem_cons] at hy
        rcases hy with rfl | hy
        · exact hcmp'
        · exact htrans _ _ _ hcmp' (hpw.2.1.1 y hy)
      · rename_i hcmp
        have hcmp' := hnonneg _ _ hcmp
        refine ih _ right (by omega) hr (by omega) ?_ hright
        intro x hx
        rw [List.take_succ, List.getElem?_eq_getElem hmid, Option.toList_some, List.mem_append,
          List.mem_singleton] at hx
        rcases hx with hx | rfl
        · exact htrans _ _ _ (hpw.2.2 x hx _ (List.mem_cons_self _ _)) hcmp'
        · exact hcmp'
    · have : left = right := by omega
      subst this
      exact ⟨hleft, hright⟩

theorem binaryInsertionSort_rel (comparefn : α → α → Int) (r : α → α → Prop)
    (hneg : ∀ x y, comparefn x y < 0 → r x y)
    (hnonneg : ∀ x y, ¬ comparefn x y < 0 → r y x)
    (htrans : ∀ x y z, r x y → r y z → r x z)
    (sorted rest : List α) (hsorted : sorted.Pairwise r) :
    (binaryInsertionSort comparefn sorted rest).Pairwise r := by
  induction rest generalizing sorted with
  | nil => exact hsorted
  | cons pivot rest ih =>
    simp only [binaryInsertionSort]
    apply ih
    have hspec := binarySearch_rel comparefn r hneg hnonneg htrans pivot sorted hsorted
      sorted.length 0 sorted.length (Nat.zero_le _) (Nat.le_refl _) (by omega) (by simp) (by simp)
    generalize binarySearch comparefn pivot sorted sorted.length 0 sorted.length = k at hspec
    have hpw := hsorted
    rw [← List.take_append_drop k sorted, List.pairwise_append] at hpw
    rw [List.pairwise_append, List.pairwise_cons]
    refine ⟨hpw.1, ⟨hspec.2, hpw.2.1⟩, ?_⟩
    intro a ha b hb
    rw [List.mem_cons] at hb
    rcases hb with rfl | hb
    · exact hspec.1 a ha
    · exact hpw.2.2 a ha b hb

/-- The result of the sort is in the order `r` for every relation `r` that the
comparator decides and that is transitive. -/
theorem arraySort_rel (comparefn : α → α → Int) (r : α → α → Prop)
    (hneg : ∀ x y, comparefn x y < 0 → r x y)
    (hnonneg : ∀ x y, ¬ comparefn x y < 0 → r y x)
    (htrans : ∀ x y z, r x y → r y z → r x z)
    (xs : List α) : (arraySort comparefn xs).Pairwise r := by
  match xs with
  | [] => simp [arraySort]
  | [x] => simp [arraySort]
  | low :: next :: rest =>
    simp only [arraySort, countAndMakeRun, List.length_cons]
    rw [if_neg (by omega)]
    apply binaryInsertionSort_rel comparefn r hneg hnonneg htrans
    simp only [List.take_succ_cons]
    by_cases hdesc : comparefn next low < 0
    · simp only [hdesc, decide_True, if_true]
      rw [List.pairwise_reverse]
      apply pairwise_of_chain_trans (fun a b => r b a)
        (fun x y z hxy hyz => htrans z y x hyz hxy)
      rw [List.chain_cons]
      exact ⟨hneg _ _ hdesc, (countRun_descending comparefn next rest).imp
        (fun {a b} h => hneg _ _ h)⟩
    · simp only [hdesc, decide_False, Bool.false_eq_true, if_false]
      apply pairwise_of_chain_trans r htrans
      rw [List.chain_cons]
      refine ⟨hnonneg _ _ hdesc, ?_⟩
      exact (countRun_ascending comparefn next rest).imp (fun {a b} h => hnonneg _ _ h)

/-- The same on a list of elements that satisfy `p`, for a relation that the
comparator decides on such elements. -/
theorem arraySort_rel_of_forall (comparefn : α → α → Int) (r : α → α → Prop) (p : α → Prop)
    (hneg : ∀ x y, p x → p y → comparefn x y < 0 → r x y)
    (hnonneg : ∀ x y, p x → p y → ¬ comparefn x y < 0 → r y x)
    (htrans : ∀ x y z, p x → p y → p z → r x y → r y z → r x z)
    (xs : List α) (hxs : ∀ x ∈ xs, p x) : (arraySort comparefn xs).Pairwise r := by
  have hmap : (xs.attachWith p hxs).map Subtype.val = xs :=
    List.attachWith_map_subtype_val xs hxs
  rw [← hmap, arraySort_map, List.pairwise_map]
  exact arraySort_rel (fun a b : { x // p x } => comparefn a.val b.val)
    (fun a b => r a.val b.val)
    (fun x y h => hneg x.val y.val x.property y.property h)
    (fun x y h => hnonneg x.val y.val x.property y.property h)
    (fun x y z hxy hyz => htrans x.val y.val z.val x.property y.property z.property hxy hyz)
    (xs.attachWith p hxs)

/-- A sort by an integer key in descending order: `(a, b) => key(b) - key(a)`. -/
theorem arraySort_descending (key : α → Int) (xs : List α) :
    (arraySort (fun a b => key b - key a) xs).Pairwise (fun a b => key b ≤ key a) :=
  arraySort_rel _ _ (fun x y h => by omega) (fun x y h => by omega)
    (fun x y z hxy hyz => by omega) xs

/-- A sort by an integer key in ascending order: `(a, b) => key(a) - key(b)`. -/
theorem arraySort_ascending (key : α → Int) (xs : List α) :
    (arraySort (fun a b => key a - key b) xs).Pairwise (fun a b => key a ≤ key b) :=
  arraySort_rel _ _ (fun x y h => by omega) (fun x y h => by omega)
    (fun x y z hxy hyz => by omega) xs

end SortRelation

/-! ## Rounded quotients -/

/-- The integer core of the rounding of a quotient: first to a multiple of
`1 / p`, then to an integer, against rounding at once. -/
theorem round_twice (a c m p k : Int) (hc : 0 < c) (hcp : c < p) (heven : ∃ h, p = 2 * h)
    (hm1 : 2 * (a * p) ≤ 2 * (m * c) + c) (hm2 : 2 * (m * c) ≤ 2 * (a * p) + c)
    (hk1 : 2 * c * k ≤ 2 * a + c) (hk2 : 2 * a + c < 2 * c * (k + 1)) :
    k * (2 * p) ≤ 2 * m + p ∧ 2 * m + p < (k + 1) * (2 * p) := by
  obtain ⟨h, hp⟩ := heven
  have hp0 : 0 < p := by omega
  have e1 : 2 * c * k * p ≤ (2 * a + c) * p := Int.mul_le_mul_of_nonneg_right hk1 (le_of_lt hp0)
  have e2 : (2 * a + c + 1) * p ≤ 2 * c * (k + 1) * p :=
    Int.mul_le_mul_of_nonneg_right (by omega) (le_of_lt hp0)
  constructor
  · have hx : c * (k * (2 * p) - 2 * m - p) ≤ c * 1 := by
      have : c * (k * (2 * p) - 2 * m - p) = 2 * c * k * p - 2 * (m * c) - c * p := by ring
      have e1' : (2 * a + c) * p = 2 * (a * p) + c * p := by ring
      rw [this]
      linarith
    have hx1 := Int.le_of_mul_le_mul_left hx hc
    have hkp : k * (2 * p) = 2 * (2 * (k * h)) := by rw [hp]; ring
    generalize k * h = kh at hkp
    omega
  · have hx : c * (2 * m + p - (k + 1) * (2 * p)) < c * 0 := by
      have : c * (2 * m + p - (k + 1) * (2 * p)) =
          2 * (m * c) + c * p - 2 * c * (k + 1) * p := by ring
      have e2' : (2 * a + c + 1) * p = 2 * (a * p) + c * p + p := by ring
      rw [this]
      linarith
    have hx1 := Int.lt_of_mul_lt_mul_left hx (le_of_lt hc)
    omega

theorem round_twice_neg (a c m p k : Int) (hc : 0 < c) (hcp : c < p) (heven : ∃ h, p = 2 * h)
    (hm1 : 2 * (a * p) ≤ 2 * (m * c) + c) (hm2 : 2 * (m * c) ≤ 2 * (a * p) + c)
    (hk1 : 2 * c * k ≤ 2 * (-a) + c) (hk2 : 2 * (-a) + c < 2 * c * (k + 1)) :
    k * (2 * p) ≤ 2 * (-m) + p ∧ 2 * (-m) + p < (k + 1) * (2 * p) := by
  obtain ⟨h, hp⟩ := heven
  have hp0 : 0 < p := by omega
  have e1 : 2 * c * k * p ≤ (2 * (-a) + c) * p :=
    Int.mul_le_mul_of_nonneg_right hk1 (le_of_lt hp0)
  have e2 : (2 * (-a) + c + 1) * p ≤ 2 * c * (k + 1) * p :=
    Int.mul_le_mul_of_nonneg_right (by omega) (le_of_lt hp0)
  constructor
  · have hx : c * (k * (2 * p) - 2 * (-m) - p) ≤ c * 1 := by
      have : c * (k * (2 * p) - 2 * (-m) - p) = 2 * c * k * p + 2 * (m * c) - c * p := by ring
      have e1' : (2 * (-a) + c) * p = -(2 * (a * p)) + c * p := by ring
      rw [this]
      linarith
    have hx1 := Int.le_of_mul_le_mul_left hx hc
    have hkp : k * (2 * p) = 2 * (2 * (k * h)) := by rw [hp]; ring
    generalize k * h = kh at hkp
    omega
  · have hx : c * (2 * (-m) + p - (k + 1) * (2 * p)) < c * 0 := by
      have : c * (2 * (-m) + p - (k + 1) * (2 * p)) =
          -(2 * (m * c)) + c * p - 2 * c * (k + 1) * p := by ring
      have e2' : (2 * (-a) + c + 1) * p = -(2 * (a * p)) + c * p + p := by ring
      rw [this]
      linarith
    have hx1 := Int.lt_of_mul_lt_mul_left hx (le_of_lt hc)
    omega

/-- For a quotient below `2^52` the double is rounded with at least one binary
digit after the point, and finer than `1 / c`. -/
theorem roundToDouble_small (a c : Nat) (ha : 0 < a) (hc : 0 < c) (hsmall : a < 2 ^ 52) :
    ∃ n m : Nat, roundToDouble a c = (m, 2 ^ (n + 1)) ∧ c < 2 ^ (n + 1) ∧
      2 * (a * 2 ^ (n + 1)) ≤ 2 * (m * c) + c ∧ 2 * (m * c) ≤ 2 * (a * 2 ^ (n + 1)) + c := by
  have ha0 : a ≠ 0 := by omega
  have hlog := floorLog2_le a c ha hc
  have hcq : (0 : ℚ) < c := by exact_mod_cast hc
  have haq : (a : ℚ) < 2 ^ 52 := by exact_mod_cast hsmall
  generalize he : floorLog2 a c = e at hlog
  have hec : (2 : ℚ) ^ e * c ≤ a := by
    rw [le_div_iff₀ hcq] at hlog
    exact hlog
  have hc1 : (1 : ℚ) ≤ c := by exact_mod_cast hc
  have hepos : (0 : ℚ) < (2 : ℚ) ^ e := by positivity
  have he52 : e < 52 := by
    by_contra hcon
    have h52 : (2 : ℚ) ^ (52 : Int) ≤ (2 : ℚ) ^ e :=
      zpow_le_zpow_right₀ (by norm_num) (by omega)
    have h52' : (2 : ℚ) ^ (52 : Int) = 2 ^ 52 := by norm_num
    rw [h52'] at h52
    nlinarith
  obtain ⟨n, hn⟩ : ∃ n : Nat, (52 : Int) - e = (n : Int) + 1 :=
    ⟨(52 - e - 1).toNat, by omega⟩
  have hsn : ((52 : Int) - e).toNat = n + 1 := by omega
  have hsn' : (-((52 : Int) - e)).toNat = 0 := by omega
  have hP : (2 : ℚ) ^ e * 2 ^ (n + 1) = 2 ^ 52 := by
    have h1 : ((2 : ℚ) ^ (n + 1)) = (2 : ℚ) ^ ((n : Int) + 1) := by
      rw [← zpow_natCast]
      push_cast
      rfl
    rw [h1, ← zpow_add₀ (by norm_num : (2 : ℚ) ≠ 0)]
    have : e + ((n : Int) + 1) = 52 := by omega
    rw [this]
    norm_num
  have hcP : (c : ℚ) < 2 ^ (n + 1) := by
    have hPpos : (0 : ℚ) < 2 ^ (n + 1) := by positivity
    by_contra hcon
    rw [not_lt] at hcon
    have : (2 : ℚ) ^ e * 2 ^ (n + 1) ≤ (2 : ℚ) ^ e * c :=
      mul_le_mul_of_nonneg_left hcon (le_of_lt hepos)
    linarith
  have hcPn : c < 2 ^ (n + 1) := by exact_mod_cast hcP
  have hspec := roundHalfEven_spec (a * 2 ^ (n + 1)) (c * 2 ^ 0) (by positivity)
  refine ⟨n, roundHalfEven (a * 2 ^ (n + 1)) (c * 2 ^ 0), ?_, hcPn, ?_, ?_⟩
  · simp only [roundToDouble, if_neg ha0, he, hsn, hsn', pow_zero, Nat.mul_one]
  · simpa using hspec.1
  · simpa using hspec.2

theorem ediv_eq_of_bounds (x d k : Int) (hd : 0 < d) (h1 : k * d ≤ x) (h2 : x < (k + 1) * d) :
    x / d = k := by
  apply le_antisymm
  · have := (Int.ediv_lt_iff_lt_mul hd).2 h2
    omega
  · exact (Int.le_ediv_iff_mul_le hd).2 h1

/-- The expression `Math.round(t / c)`, computed through the double `t / c`, is
the exact quotient rounded to the nearest integer, halves upwards, as long as
`|t| < 2^52`. -/
theorem mathRound_signedDiv (t : Int) (c : Nat) (hc : 0 < c) (hsmall : t.natAbs < 2 ^ 52) :
    mathRound (signedDiv t c) = (2 * t + c) / (2 * c) := by
  have hcz : (0 : Int) < c := by exact_mod_cast hc
  have hk1 := Int.ediv_mul_le (2 * t + c) (show (2 * (c : Int)) ≠ 0 by omega)
  have hk2 := Int.lt_ediv_add_one_mul_self (2 * t + c) (show 0 < 2 * (c : Int) by omega)
  generalize (2 * t + c) / (2 * (c : Int)) = k at hk1 hk2
  rcases Nat.eq_zero_or_pos t.natAbs with h0 | hpos
  · have ht : t = 0 := Int.natAbs_eq_zero.1 h0
    subst ht
    have hk : k = 0 := by
      by_contra hne
      rcases lt_or_gt_of_ne hne with h | h
      · have : k + 1 ≤ 0 := by omega
        nlinarith
      · have : 1 ≤ k := by omega
        nlinarith
    subst hk
    simp [mathRound, signedDiv, roundToDouble]
  · obtain ⟨n, m, hdouble, hcp, hm1, hm2⟩ := roundToDouble_small t.natAbs c hpos hc hsmall
    have hm1z : 2 * ((t.natAbs : Int) * (2 ^ (n + 1) : Nat)) ≤ 2 * ((m : Int) * c) + c := by
      exact_mod_cast hm1
    have hm2z : 2 * ((m : Int) * c) ≤ 2 * ((t.natAbs : Int) * (2 ^ (n + 1) : Nat)) + c := by
      exact_mod_cast hm2
    have hcpz : (c : Int) < (2 ^ (n + 1) : Nat) := by exact_mod_cast hcp
    have heven : ∃ h : Int, ((2 ^ (n + 1) : Nat) : Int) = 2 * h :=
      ⟨((2 ^ n : Nat) : Int), by push_cast; ring⟩
    have hppos : (0 : Int) < (2 ^ (n + 1) : Nat) := by positivity
    unfold mathRound signedDiv
    rw [hdouble]
    have habs := Int.natAbs_eq t
    split
    · rename_i hneg
      have ht : t = -(t.natAbs : Int) := by omega
      simp only
      generalize ((2 ^ (n + 1) : Nat) : Int) = p at hm1z hm2z hcpz heven hppos ⊢
      have := round_twice_neg (t.natAbs : Int) c m p k hcz hcpz heven hm1z hm2z
        (by rw [← ht]; linarith) (by rw [← ht]; linarith)
      exact ediv_eq_of_bounds _ _ _ (by omega) this.1 this.2
    · rename_i hneg
      have ht : t = (t.natAbs : Int) := by omega
      simp only
      generalize ((2 ^ (n + 1) : Nat) : Int) = p at hm1z hm2z hcpz heven hppos ⊢
      have := round_twice (t.natAbs : Int) c m p k hcz hcpz heven hm1z hm2z
        (by rw [← ht]; linarith) (by rw [← ht]; linarith)
      exact ediv_eq_of_bounds _ _ _ (by omega) this.1 this.2

/-! ## Facts about sets and groups -/

section Sets

variable {α : Type} [DecidableEq α]

theorem setAdd_nodup (s : List α) (x : α) (h : s.Nodup) : (setAdd s x).Nodup := by
  unfold setAdd
  split
  · exact h
  · rename_i hx
    rw [List.nodup_append]
    refine ⟨h, List.nodup_singleton x, ?_⟩
    intro a ha hb
    rw [List.mem_singleton] at hb
    exact hx (hb ▸ ha)

theorem mem_setAdd (s : List α) (x a : α) : a ∈ setAdd s x ↔ a ∈ s ∨ a = x := by
  unfold setAdd
  split
  · rename_i hx
    constructor
    · exact Or.inl
    · rintro (h | rfl)
      · exact h
      · exact hx
  · simp

theorem foldl_setAdd_nodup (xs : List α) (s : List α) (h : s.Nodup) :
    (xs.foldl setAdd s).Nodup := by
  induction xs generalizing s with
  | nil => exact h
  | cons x xs ih => exact ih _ (setAdd_nodup s x h)

theorem mem_foldl_setAdd (xs : List α) (s : List α) (a : α) :
    a ∈ xs.foldl setAdd s ↔ a ∈ s ∨ a ∈ xs := by
  induction xs generalizing s with
  | nil => simp
  | cons x xs ih =>
    rw [List.foldl_cons, ih, mem_setAdd, List.mem_cons]
    tauto

/-- The size of a set filled with the elements of a list is the number of
distinct elements of the list. -/
theorem length_foldl_setAdd (xs : List α) : (xs.foldl setAdd []).length = xs.dedup.length := by
  apply List.Perm.length_eq
  rw [List.perm_ext_iff_of_nodup (foldl_setAdd_nodup xs [] List.nodup_nil) (List.nodup_dedup xs)]
  intro a
  rw [mem_foldl_setAdd, List.mem_dedup]
  simp

end Sets

section Groups

variable {β : Type}

theorem groupOf_append_singleton (init : Record → β) (update : Record → β → β)
    (rows : List Record) (r : Record) :
    groupOf init update (rows ++ [r]) =
      some (update r ((groupOf init update rows).getD (init r))) := by
  cases rows with
  | nil => simp [groupOf]
  | cons r0 rest => simp [groupOf, List.foldl_append]

theorem groupUpdate_groups (key : Record → String) (init : Record → β)
    (update : Record → β → β) (acc : List (String × β)) (seen : List Record) (curr : Record)
    (h : GroupsOf key init update acc seen) :
    GroupsOf key init update (groupUpdate acc (key curr) (init curr) (update curr))
      (seen ++ [curr]) := by
  refine ⟨objectSet_keys_nodup _ _ _ h.1, ?_⟩
  intro k
  unfold groupUpdate
  rw [objectGet_objectSet, List.filter_append]
  by_cases hk : k = key curr
  · subst hk
    have hfilter : [curr].filter (fun r => key r == key curr) = [curr] := by simp
    rw [if_pos rfl, hfilter, groupOf_append_singleton, h.2 (key curr)]
  · have hk' : (key curr == k) = false := by
      rw [beq_eq_false_iff_ne]
      exact fun h' => hk h'.symm
    have hfilter : [curr].filter (fun r => key r == k) = [] := by simp [hk']
    rw [if_neg hk, hfilter, List.append_nil]
    exact h.2 k

theorem foldl_groups (key : Record → String) (init : Record → β) (update : Record → β → β)
    (rest : List Record) (acc : List (String × β)) (seen : List Record)
    (h : GroupsOf key init update acc seen) :
    GroupsOf key init update
      (rest.foldl (fun a curr => groupUpdate a (key curr) (init curr) (update curr)) acc)
      (seen ++ rest) := by
  induction rest generalizing acc seen with
  | nil => simpa using h
  | cons curr rest ih =>
    have := ih _ (seen ++ [curr]) (groupUpdate_groups key init update acc seen curr h)
    simpa using this

/-- The object of a grouping reducer after a whole data set. -/
theorem groups_of_foldl (key : Record → String) (init : Record → β)
    (update : Record → β → β) (evData : List Record) :
    GroupsOf key init update
      (evData.foldl (fun a curr => groupUpdate a (key curr) (init curr) (update curr)) [])
      evData := by
  have := foldl_groups key init update evData [] []
    ⟨by simp, fun k => by simp [objectGet, groupOf]⟩
  simpa using this

/-- The keys of the object of a grouping reducer are the keys of the rows. -/
theorem GroupsOf.mem_keys {key : Record → String} {init : Record → β}
    {update : Record → β → β} {acc : List (String × β)} {seen : List Record}
    (h : GroupsOf key init update acc seen) (k : String) :
    k ∈ acc.map Prod.fst ↔ k ∈ seen.map key := by
  have h1 := objectGet_eq_none_iff acc k
  rw [h.2 k] at h1
  constructor
  · intro hk
    by_contra hno
    have hempty : seen.filter (fun r => key r == k) = [] := by
      rw [List.filter_eq_nil_iff]
      intro r hr hkey
      exact hno (List.mem_map.2 ⟨r, hr, by simpa using hkey⟩)
    rw [hempty] at h1
    exact (h1.1 rfl) hk
  · intro hk
    obtain ⟨r, hr, rfl⟩ := List.mem_map.1 hk
    by_contra hno
    have hnone := h1.2 hno
    have hmem : r ∈ seen.filter (fun x => key x == key r) := by
      rw [List.mem_filter]
      exact ⟨hr, by simp⟩
    cases hf : seen.filter (fun x => key x == key r) with
    | nil => rw [hf] at hmem; simp at hmem
    | cons r0 rest => rw [hf] at hnone; simp [groupOf] at hnone

/-- The keys of the object are the distinct keys of the rows, in some order. -/
theorem GroupsOf.keys_perm {key : Record → String} {init : Record → β}
    {update : Record → β → β} {acc : List (String × β)} {seen : List Record}
    (h : GroupsOf key init update acc seen) :
    (acc.map Prod.fst).Perm (seen.map key).dedup := by
  rw [List.perm_ext_iff_of_nodup h.1 (List.nodup_dedup _)]
  intro k
  rw [h.mem_keys k, List.mem_dedup]

/-- An entry of the object holds the group of the rows of its key, which is not
empty. -/
theorem GroupsOf.of_mem {key : Record → String} {init : Record → β}
    {update : Record → β → β} {acc : List (String × β)} {seen : List Record}
    (h : GroupsOf key init update acc seen) (k : String) (g : β) (hmem : (k, g) ∈ acc) :
    ∃ r rest, seen.filter (fun x => key x == k) = r :: rest ∧
      g = (r :: rest).foldl (fun g x => update x g) (init r) := by
  have hget := objectGet_of_mem acc h.1 k g hmem
  rw [h.2 k] at hget
  cases hf : seen.filter (fun x => key x == k) with
  | nil => rw [hf] at hget; simp [groupOf] at hget
  | cons r rest =>
    rw [hf] at hget
    simp only [groupOf, Option.some.injEq] at hget
    exact ⟨r, rest, rfl, hget.symm⟩

/-- The numbers of rows of the distinct keys add up to the number of rows. -/
theorem sum_counts_of_perm (key : Record → String) (rows : List Record) (keys : List String)
    (hperm : keys.Perm (rows.map key).dedup) :
    (keys.map (fun k => (rows.filter (fun r => key r == k)).length)).sum = rows.length := by
  have hcount : ∀ k, (rows.filter (fun r => key r == k)).length = (rows.map key).count k := by
    intro k
    rw [List.count, List.countP_map, List.countP_eq_length_filter]
    rfl
  simp only [hcount]
  rw [(hperm.map _).sum_eq, List.sum_map_count_dedup_eq_length, List.length_map]

end Groups

/-! ## The top ten manufacturers -/

theorem mem_of_objectGet {β : Type} (obj : List (String × β)) (key : String) (value : β)
    (h : objectGet obj key = some value) : (key, value) ∈ obj := by
  induction obj with
  | nil => simp [objectGet] at h
  | cons e rest ih =>
    obtain ⟨k, v⟩ := e
    simp only [objectGet] at h
    by_cases hk : k = key
    · rw [if_pos hk] at h
      simp only [Option.some.injEq] at h
      rw [hk, h]
      exact List.mem_cons_self _ _
    · rw [if_neg hk] at h
      exact List.mem_cons_of_mem _ (ih h)

theorem makeCount_pos_iff (name : String) (evData : List Record) :
    makeCount name evData ≠ 0 ↔ name ∈ evData.map (fun r => propertyKey (r.get "Make")) := by
  unfold makeCount
  rw [Nat.ne_zero_iff_zero_lt, List.countP_pos_iff, List.mem_map]
  constructor
  · rintro ⟨r, hr, h⟩
    exact ⟨r, hr, by simpa using h⟩
  · rintro ⟨r, hr, h⟩
    exact ⟨r, hr, by simpa using h⟩

/-- The keys of the counts object are the Makes of the data set. -/
theorem distribution_mem_keys (evData : List Record) (name : String) :
    name ∈ (evData.foldl countMake []).map Prod.fst ↔
      name ∈ evData.map (fun r => propertyKey (r.get "Make")) := by
  obtain ⟨_, hget⟩ := distribution_counts evData
  have h1 := objectGet_eq_none_iff (evData.foldl countMake []) name
  rw [hget name] at h1
  rw [← makeCount_pos_iff]
  constructor
  · intro hmem h0
    rw [if_pos h0] at h1
    exact (h1.1 rfl) hmem
  · intro hne
    by_contra hmem
    have := h1.2 hmem
    rw [if_neg hne] at this
    exact absurd this (by simp)

theorem distribution_keys_perm (evData : List Record) :
    ((evData.foldl countMake []).map Prod.fst).Perm
      (evData.map (fun r => propertyKey (r.get "Make"))).dedup := by
  rw [List.perm_ext_iff_of_nodup (distribution_counts evData).1 (List.nodup_dedup _)]
  intro k
  rw [distribution_mem_keys, List.mem_dedup]

/-- The entries of the manufacturer distribution before the cut to ten. -/
theorem makeEntries_sorted (evData : List Record) :
    ∃ sorted : List MakeEntry,
      getMakeDistribution evData = sorted.take 10 ∧
      (sorted.map (fun e => e.name)).Perm ((evData.foldl countMake []).map Prod.fst) ∧
      sorted.Pairwise (fun a b => b.value ≤ a.value) ∧
      ∀ e ∈ sorted, e.value = makeCount e.name evData ∧
        e.percentage = percentageOf e.value evData.length := by
  refine ⟨arraySort (fun a b => (b.value : Int) - (a.value : Int))
    ((evData.foldl countMake []).map (fun e =>
      ({ name := e.1, value := e.2, percentage := percentageOf e.2 evData.length } :
        MakeEntry))), ?_, ?_, ?_, ?_⟩
  · simp [getMakeDistribution, slice]
  · have := (arraySort_perm (fun a b : MakeEntry => (b.value : Int) - (a.value : Int))
      ((evData.foldl countMake []).map (fun e =>
        ({ name := e.1, value := e.2, percentage := percentageOf e.2 evData.length } :
          MakeEntry)))).map (fun e => e.name)
    refine this.trans ?_
    rw [List.map_map]
    exact List.Perm.refl _
  · have := arraySort_descending (fun e : MakeEntry => (e.value : Int))
      ((evData.foldl countMake []).map (fun e =>
        ({ name := e.1, value := e.2, percentage := percentageOf e.2 evData.length } :
          MakeEntry)))
    exact this.imp (fun {a b} h => by exact_mod_cast h)
  · intro e he
    have he3 := (arraySort_perm _ _).mem_iff.1 he
    obtain ⟨⟨name, value⟩, hmem, rfl⟩ := List.mem_map.1 he3
    have hcounts := distribution_counts evData
    have hget := objectGet_of_mem _ hcounts.1 name value hmem
    rw [hcounts.2 name] at hget
    simp only
    split at hget
    · exact absurd hget (by simp)
    · simp only [Option.some.injEq] at hget
      exact ⟨hget.symm, trivial⟩

/-! ## Numerals -/

theorem digitChar_spec : ∀ d, d < 10 →
    isDigit (Nat.digitChar d) = true ∧ (Nat.digitChar d).val.toNat - 48 = d ∧
      Nat.digitChar d ≠ '-' ∧ Nat.digitChar d ≠ '+' ∧ Nat.digitChar d ≠ '.' := by
  decide

theorem foldl_digits (l : List Char) (acc : Nat) :
    l.foldl (fun acc c => acc * 10 + (c.val.toNat - 48)) acc =
      acc * 10 ^ l.length + l.foldl (fun acc c => acc * 10 + (c.val.toNat - 48)) 0 := by
  induction l generalizing acc with
  | nil => simp
  | cons c t ih =>
    rw [List.foldl_cons, List.foldl_cons, ih, ih (0 * 10 + (c.val.toNat - 48)),
      List.length_cons, Nat.pow_succ]
    ring

theorem parseDigits_append (l1 l2 : List Char) :
    parseDigits (l1 ++ l2) = parseDigits l1 * 10 ^ l2.length + parseDigits l2 := by
  unfold parseDigits
  rw [List.foldl_append, foldl_digits]

/-- The digits that `Nat.repr` prints are decimal digits that spell the number. -/
theorem toDigitsCore_spec (fuel n : Nat) (ds : List Char) (hfuel : n < fuel) :
    ∃ l, Nat.toDigitsCore 10 fuel n ds = l ++ ds ∧ l ≠ [] ∧ (∀ c ∈ l, isDigit c = true) ∧
      (∀ c ∈ l, c ≠ '-' ∧ c ≠ '+' ∧ c ≠ '.') ∧ parseDigits l = n ∧ (n < 10 → l.length = 1) := by
  induction fuel generalizing n ds with
  | zero => omega
  | succ fuel ih =>
    obtain ⟨hd1, hd2, hd3, hd4, hd5⟩ := digitChar_spec (n % 10) (Nat.mod_lt _ (by decide))
    simp only [Nat.toDigitsCore]
    split
    · rename_i h0
      refine ⟨[Nat.digitChar (n % 10)], rfl, by simp, ?_, ?_, ?_, ?_⟩
      · intro c hc
        rw [List.mem_singleton] at hc
        rw [hc]
        exact hd1
      · intro c hc
        rw [List.mem_singleton] at hc
        rw [hc]
        exact ⟨hd3, hd4, hd5⟩
      · simp only [parseDigits, List.foldl_cons, List.foldl_nil, Nat.zero_mul, Nat.zero_add, hd2]
        omega
      · intro _
        rfl
    · rename_i h0
      obtain ⟨l, hl, _, hdig, hsign, hval, _⟩ :=
        ih (n / 10) (Nat.digitChar (n % 10) :: ds) (by omega)
      refine ⟨l ++ [Nat.digitChar (n % 10)], ?_, by simp, ?_, ?_, ?_, ?_⟩
      · rw [hl]
        simp
      · intro c hc
        rw [List.mem_append, List.mem_singleton] at hc
        rcases hc with hc | hc
        · exact hdig c hc
        · rw [hc]
          exact hd1
      · intro c hc
        rw [List.mem_append, List.mem_singleton] at hc
        rcases hc with hc | hc
        · exact hsign c hc
        · rw [hc]
          exact ⟨hd3, hd4, hd5⟩
      · rw [parseDigits_append, hval]
        simp only [parseDigits, List.foldl_cons, List.foldl_nil, Nat.zero_mul, Nat.zero_add, hd2,
          List.length_singleton, Nat.pow_one]
        omega
      · intro hlt
        omega

theorem repr_spec (n : Nat) :
    ∃ l, (Nat.repr n).data = l ∧ l ≠ [] ∧ (∀ c ∈ l, isDigit c = true) ∧
      (∀ c ∈ l, c ≠ '-' ∧ c ≠ '+' ∧ c ≠ '.') ∧ parseDigits l = n ∧ (n < 10 → l.length = 1) := by
  obtain ⟨l, hl, h1, h2, h3, h4, h5⟩ := toDigitsCore_spec (n + 1) n [] (by omega)
  refine ⟨l, ?_, h1, h2, h3, h4, h5⟩
  simp only [Nat.repr, Nat.toDigits, hl, List.append_nil, List.asString]

theorem takeWhile_digits_append (l rest : List Char) (hl : ∀ c ∈ l, isDigit c = true)
    (hrest : ∀ c, rest.head? = some c → isDigit c = false) :
    (l ++ rest).takeWhile isDigit = l ∧ (l ++ rest).dropWhile isDigit = rest := by
  induction l with
  | nil =>
    cases rest with
    | nil => simp
    | cons c t =>
      have := hrest c rfl
      simp [List.takeWhile, List.dropWhile, this]
  | cons c t ih =>
    have hc := hl c (List.mem_cons_self _ _)
    have := ih (fun x hx => hl x (List.mem_cons_of_mem _ hx))
    simp [List.takeWhile, List.dropWhile, hc, this]

theorem splitSign_digits (l rest : List Char) (hne : l ≠ [])
    (hsign : ∀ c ∈ l, c ≠ '-' ∧ c ≠ '+' ∧ c ≠ '.') :
    splitSign (l ++ rest) = (false, l ++ rest) := by
  cases l with
  | nil => exact absurd rfl hne
  | cons c t =>
    obtain ⟨h1, h2, _⟩ := hsign c (List.mem_cons_self _ _)
    simp [splitSign, h1, h2]

/-- Reading back the numeral that `toFixed(1)` printed for `n / 10`. -/
theorem decimalValue_decimal1 (n : Nat) : decimalValue (decimal1 n) = some ((n : Int), 10) := by
  obtain ⟨l1, hl1, hne1, hdig1, hsign1, hval1, _⟩ := repr_spec (n / 10)
  obtain ⟨l2, hl2, hne2, hdig2, _, hval2, hlen2⟩ := repr_spec (n % 10)
  have hlen := hlen2 (Nat.mod_lt _ (by decide))
  have hdata : (decimal1 n).data = l1 ++ ('.' :: l2) := by
    simp [decimal1, String.data_append, hl1, hl2]
  have hsplit := splitSign_digits l1 ('.' :: l2) hne1 hsign1
  have htake := takeWhile_digits_append l1 ('.' :: l2) hdig1
    (fun c hc => by simp at hc; rw [← hc]; decide)
  have hfrac := takeWhile_digits_append l2 [] hdig2 (fun c hc => by simp at hc)
  simp only [List.append_nil] at hfrac
  unfold decimalValue
  simp only [hdata, hsplit, htake.1, htake.2, fractionDigits, if_true, hfrac.1]
  have hne : ¬ (l1 = [] ∧ l2 = []) := fun h => hne1 h.1
  rw [if_neg hne]
  simp only [Bool.false_eq_true, if_false, Option.some.injEq, Prod.mk.injEq]
  rw [parseDigits_append, hval1, hval2, hlen]
  constructor
  · have := Nat.div_add_mod n 10
    omega
  · rfl

theorem decimalValue_neg_decimal1 (n : Nat) :
    decimalValue ("-" ++ decimal1 n) = some (-(n : Int), 10) := by
  obtain ⟨l1, hl1, hne1, hdig1, hsign1, hval1, _⟩ := repr_spec (n / 10)
  obtain ⟨l2, hl2, hne2, hdig2, _, hval2, hlen2⟩ := repr_spec (n % 10)
  have hlen := hlen2 (Nat.mod_lt _ (by decide))
  have hdata : ("-" ++ decimal1 n).data = '-' :: (l1 ++ ('.' :: l2)) := by
    simp [decimal1, String.data_append, hl1, hl2]
  have htake := takeWhile_digits_append l1 ('.' :: l2) hdig1
    (fun c hc => by simp at hc; rw [← hc]; decide)
  have hfrac := takeWhile_digits_append l2 [] hdig2 (fun c hc => by simp at hc)
  simp only [List.append_nil] at hfrac
  unfold decimalValue
  simp only [hdata, splitSign, if_true, htake.1, htake.2, fractionDigits, hfrac.1]
  have hne : ¬ (l1 = [] ∧ l2 = []) := fun h => hne1 h.1
  rw [if_neg hne]
  simp only [Option.some.injEq, Prod.mk.injEq]
  rw [parseDigits_append, hval1, hval2, hlen]
  constructor
  · have := Nat.div_add_mod n 10
    omega
  · rfl

theorem decimalValue_digits (s : String) (l : List Char) (hs : s.data = l) (hne : l ≠ [])
    (hdig : ∀ c ∈ l, isDigit c = true) (hsign : ∀ c ∈ l, c ≠ '-' ∧ c ≠ '+' ∧ c ≠ '.') :
    decimalValue s = some ((parseDigits l : Int), 1) := by
  have htake := takeWhile_digits_append l [] hdig (fun c hc => by simp at hc)
  simp only [List.append_nil] at htake
  have hne' : ¬ (l = [] ∧ ([] : List Char) = []) := fun h => hne h.1
  have hsplit := splitSign_digits l [] hne hsign
  simp only [List.append_nil] at hsplit
  unfold decimalValue
  simp only [hs, hsplit, htake.1, htake.2, fractionDigits, Bool.false_eq_true,
    if_false, List.append_nil, List.length_nil, pow_zero]
  rw [if_neg (fun h => hne h.1)]

theorem decimalValue_neg_digits (s : String) (l : List Char) (hs : s.data = '-' :: l)
    (hne : l ≠ []) (hdig : ∀ c ∈ l, isDigit c = true) :
    decimalValue s = some (-(parseDigits l : Int), 1) := by
  have htake := takeWhile_digits_append l [] hdig (fun c hc => by simp at hc)
  simp only [List.append_nil] at htake
  have hne' : ¬ (l = [] ∧ ([] : List Char) = []) := fun h => hne h.1
  unfold decimalValue
  simp only [hs, splitSign, if_true, htake.1, htake.2, fractionDigits,
    List.append_nil, List.length_nil, pow_zero]
  rw [if_neg (fun h => hne h.1)]

/-- Reading back the key that was printed for an integer. -/
theorem keyNumber_numberKey (n : Int) : keyNumber (numberKey n) = Num.int n := by
  obtain ⟨l, hl, hne, hdig, hsign, hval, _⟩ := repr_spec n.natAbs
  unfold keyNumber numberKey
  by_cases hneg : n < 0
  · rw [if_pos hneg]
    have hdata : ("-" ++ Nat.repr n.natAbs).data = '-' :: l := by
      simp [String.data_append, hl]
    rw [decimalValue_neg_digits _ l hdata hne hdig]
    simp only [if_true, hval]
    congr 1
    omega
  · rw [if_neg hneg, decimalValue_digits _ l hl hne hdig hsign]
    simp only [if_true, hval]
    congr 1
    omega

theorem numberKey_injective (a b : Int) (h : numberKey a = numberKey b) : a = b := by
  have := congrArg keyNumber h
  rw [keyNumber_numberKey, keyNumber_numberKey] at this
  exact Num.int.inj this

/-! ## Sums of ranges -/

theorem foldl_add_parsed (rows : List Record) (t : Int)
    (hparse : ∀ r ∈ rows, parseInt (r.get "Electric Range") ≠ none) :
    rows.foldl (fun t r => t.add (Num.ofParse (parseInt (r.get "Electric Range")))) (Num.int t) =
      Num.int (t + totalOfRanges rows) := by
  induction rows generalizing t with
  | nil => simp [totalOfRanges]
  | cons r rows ih =>
    obtain ⟨n, hn⟩ := Option.ne_none_iff_exists'.1 (hparse r (List.mem_cons_self _ _))
    have hstep : (Num.int t).add (Num.ofParse (some n)) = Num.int (t + n) := rfl
    rw [List.foldl_cons, hn, hstep, ih _ (fun x hx => hparse x (List.mem_cons_of_mem _ hx))]
    simp only [totalOfRanges, List.map_cons, List.sum_cons, parseIntOrZero, hn, Option.getD_some]
    congr 1
    ring

/-- The sum of ranges that all parse is their exact sum. -/
theorem sumRanges_parsed (rows : List Record)
    (hparse : ∀ r ∈ rows, parseInt (r.get "Electric Range") ≠ none) :
    sumRanges rows = Num.int (totalOfRanges rows) := by
  unfold sumRanges
  rw [foldl_add_parsed rows 0 hparse, Int.zero_add]

theorem natAbs_totalOfRanges_le (rows : List Record) :
    (totalOfRanges rows).natAbs ≤ rangeMass rows := by
  induction rows with
  | nil => simp [totalOfRanges, rangeMass]
  | cons r rows ih =>
    simp only [totalOfRanges, rangeMass, List.map_cons, List.sum_cons] at ih ⊢
    have := Int.natAbs_add_le (parseIntOrZero (r.get "Electric Range"))
      (rows.map (fun r => parseIntOrZero (r.get "Electric Range"))).sum
    omega

theorem rangeMass_filter_le (p : Record → Bool) (rows : List Record) :
    rangeMass (rows.filter p) ≤ rangeMass rows := by
  induction rows with
  | nil => simp [rangeMass]
  | cons r rows ih =>
    simp only [rangeMass, List.filter_cons, List.map_cons, List.sum_cons] at ih ⊢
    split
    · simp only [List.map_cons, List.sum_cons]
      omega
    · omega

/-- The rounding of `Math.round` in terms of the exact quotient. -/
theorem roundHalfUp_spec (t : Int) (c : Nat) (hc : 0 < c) :
    ((roundHalfUp t c : Int) : ℚ) - 1 / 2 ≤ (t : ℚ) / c ∧
      (t : ℚ) / c < ((roundHalfUp t c : Int) : ℚ) + 1 / 2 := by
  have hcz : (0 : Int) < 2 * c := by omega
  have hcq : (0 : ℚ) < c := by exact_mod_cast hc
  have h1 := Int.ediv_mul_le (2 * t + c) (ne_of_gt hcz)
  have h2 := Int.lt_ediv_add_one_mul_self (2 * t + c) hcz
  unfold roundHalfUp
  generalize (2 * t + (c : Int)) / (2 * (c : Int)) = k at h1 h2
  have h1q : (k : ℚ) * (2 * c) ≤ 2 * t + c := by exact_mod_cast h1
  have h2q : (2 : ℚ) * t + c < (k + 1) * (2 * c) := by exact_mod_cast h2
  have hx : (t : ℚ) / c * c = t := div_mul_cancel₀ _ (ne_of_gt hcq)
  generalize (t : ℚ) / c = x at hx
  rw [← hx] at h1q h2q
  constructor
  · have h : ((k : ℚ) - 1 / 2 - x) * c ≤ 0 := by linarith
    have := nonpos_of_mul_nonpos_left h hcq
    linarith
  · have h : 0 < ((k : ℚ) + 1 / 2 - x) * c := by linarith
    have := pos_of_mul_pos_left h (le_of_lt hcq)
    linarith

/-- The rounded average `Math.round(total / count)` of parsed ranges of small
size. -/
theorem divRound_int (t : Int) (c : Nat) (hc : 0 < c) (hsmall : t.natAbs < 2 ^ 52) :
    divRound (Num.int t) c = Num.int (roundHalfUp t c) := by
  have hc0 : c ≠ 0 := by omega
  simp only [divRound, if_neg hc0, mathRound_signedDiv t c hc hsmall, roundHalfUp]

/-! ## The county distribution -/

theorem countyFold_spec (rows : List Record) (g : CountyGroup) :
    (rows.foldl (fun g x => countyUpdate x g) g).name = g.name ∧
    (rows.foldl (fun g x => countyUpdate x g) g).value = g.value + rows.length ∧
    (rows.foldl (fun g x => countyUpdate x g) g).totalRange =
      rows.foldl (fun t r => t.add (Num.ofParse (parseInt (r.get "Electric Range"))))
        g.totalRange ∧
    (rows.foldl (fun g x => countyUpdate x g) g).uniqueMakes =
      (rows.map (fun r => r.get "Make")).foldl setAdd g.uniqueMakes ∧
    (rows ≠ [] → (rows.foldl (fun g x => countyUpdate x g) g).avgRange =
      divRound (rows.foldl (fun g x => countyUpdate x g) g).totalRange
        (rows.foldl (fun g x => countyUpdate x g) g).value) := by
  induction rows generalizing g with
  | nil => simp
  | cons r rows ih =>
    obtain ⟨h1, h2, h3, h4, h5⟩ := ih (countyUpdate r g)
    simp only [List.foldl_cons, List.map_cons, List.length_cons]
    refine ⟨h1, ?_, h3, h4, ?_⟩
    · rw [h2]
      simp only [countyUpdate]
      omega
    · intro _
      cases rows with
      | nil => rfl
      | cons r' rows' => exact h5 (by simp)

/-- What one entry of the county distribution holds. -/
theorem getCountyDistribution_mem (evData : List Record) (e : CountyEntry)
    (he : e ∈ getCountyDistribution evData) :
    countyRows (propertyKey e.name) evData ≠ [] ∧
    e.value = (countyRows (propertyKey e.name) evData).length ∧
    e.totalRange = sumRanges (countyRows (propertyKey e.name) evData) ∧
    e.avgRange = divRound (sumRanges (countyRows (propertyKey e.name) evData))
      (countyRows (propertyKey e.name) evData).length ∧
    e.uniqueMakes =
      ((countyRows (propertyKey e.name) evData).map (fun r => r.get "Make")).dedup.length ∧
    e.percentage =
      percentageOf (countyRows (propertyKey e.name) evData).length evData.length := by
  unfold getCountyDistribution at he
  have he2 := (arraySort_perm _ _).mem_iff.1 he
  obtain ⟨⟨k, g⟩, hmem, rfl⟩ := List.mem_map.1 he2
  have hgroups := groups_of_foldl (fun r => propertyKey (r.get "County"))
    (fun curr => CountyGroup.mk (curr.get "County") 0 (Num.int 0) (Num.int 0) []) countyUpdate evData
  obtain ⟨r, rest, hrows, hg⟩ := hgroups.of_mem k g hmem
  obtain ⟨h1, h2, h3, h4, h5⟩ := countyFold_spec (r :: rest)
    (CountyGroup.mk (r.get "County") 0 (Num.int 0) (Num.int 0) [])
  rw [← hg] at h1 h2 h3 h4 h5
  have hr : r ∈ evData.filter (fun x => propertyKey (x.get "County") == k) := by
    rw [hrows]
    exact List.mem_cons_self _ _
  have hk : propertyKey (r.get "County") = k := by
    have := (List.mem_filter.1 hr).2
    simpa using this
  simp only at h1 h2 h3 h4
  simp only [h1, hk, countyRows, hrows]
  refine ⟨by simp, ?_, ?_, ?_, ?_, ?_⟩
  · rw [h2]
    omega
  · rw [h3]
    rfl
  · rw [h5 (by simp), h3, h2]
    simp only [Nat.zero_add]
    rfl
  · rw [h4, length_foldl_setAdd]
  · rw [h2]
    simp only [Nat.zero_add]

theorem getCountyDistribution_keys (evData : List Record) :
    ((getCountyDistribution evData).map (fun e => propertyKey e.name)).Perm
      (evData.map (fun r => propertyKey (r.get "County"))).dedup := by
  have hgroups := groups_of_foldl (fun r => propertyKey (r.get "County"))
    (fun curr => CountyGroup.mk (curr.get "County") 0 (Num.int 0) (Num.int 0) []) countyUpdate evData
  refine List.Perm.trans ?_ hgroups.keys_perm
  unfold getCountyDistribution
  refine ((arraySort_perm _ _).map _).trans ?_
  rw [List.map_map]
  apply List.Perm.of_eq
  apply List.map_congr_left
  intro ⟨k, g⟩ hmem
  obtain ⟨r, rest, hrows, hg⟩ := hgroups.of_mem k g hmem
  obtain ⟨h1, _⟩ := countyFold_spec (r :: rest)
    (CountyGroup.mk (r.get "County") 0 (Num.int 0) (Num.int 0) [])
  rw [← hg] at h1
  have hr : r ∈ evData.filter (fun x => propertyKey (x.get "County") == k) := by
    rw [hrows]
    exact List.mem_cons_self _ _
  have hk : propertyKey (r.get "County") = k := by
    have := (List.mem_filter.1 hr).2
    simpa using this
  simp only at h1
  simp only [Function.comp, h1, hk]

theorem getCountyDistribution_sum (evData : List Record) :
    ((getCountyDistribution evData).map (fun e => e.value)).sum = evData.length := by
  have hkeys := getCountyDistribution_keys evData
  have hsum := sum_counts_of_perm (fun r => propertyKey (r.get "County")) evData _ hkeys
  rw [List.map_map] at hsum
  rw [← hsum]
  congr 1
  apply List.map_congr_left
  intro e he
  exact (getCountyDistribution_mem evData e he).2.1

/-! ## Sums of percentages -/

theorem sum_close {α : Type} (es : List α) (a b : α → ℚ) (δ : ℚ)
    (h : ∀ e ∈ es, |a e - b e| ≤ δ) :
    |(es.map a).sum - (es.map b).sum| ≤ δ * es.length := by
  induction es with
  | nil => simp
  | cons e es ih =>
    have h1 := h e (List.mem_cons_self _ _)
    have h2 := ih (fun x hx => h x (List.mem_cons_of_mem _ hx))
    simp only [List.map_cons, List.sum_cons, List.length_cons]
    push_cast
    rw [abs_le] at h1 h2 ⊢
    constructor <;> linarith [h1.1, h1.2, h2.1, h2.2]

theorem sum_ratio {α : Type} (es : List α) (v : α → Nat) (total : ℚ) :
    (es.map (fun e => (v e : ℚ) / total * 100)).sum =
      (((es.map v).sum : Nat) : ℚ) / total * 100 := by
  induction es with
  | nil => simp
  | cons e es ih =>
    simp only [List.map_cons, List.sum_cons, ih]
    push_cast
    ring

/-- The number denoted by the percentage of a non-empty group is a nearest
multiple of 0.1 to the exact percentage. -/
theorem percentageValue_percentageOf (value total : Nat) (hvalue : 0 < value)
    (hle : value ≤ total) (htotal : total < 2 ^ 32) :
    |percentageValue (percentageOf value total) - (value : ℚ) / total * 100| ≤ 1 / 20 := by
  have h := toFixedDigits_percentage value total hvalue hle htotal
  have e : percentageValue (percentageOf value total) =
      (toFixedDigits (numberMul (numberDiv value total) 100) : ℚ) / 10 := by
    simp [percentageValue, percentageOf, toFixed1, decimalValue_decimal1]
  rw [e]
  exact h

theorem makeCount_eq_length (name : String) (rows : List Record) :
    makeCount name rows = (rows.filter (fun r => propertyKey (r.get "Make") == name)).length := by
  unfold makeCount
  rw [List.countP_eq_length_filter]

theorem sum_close_percentages {α : Type} (es : List α) (v : α → Nat) (pct : α → String)
    (total : Nat) (htotal : total < 2 ^ 32)
    (h : ∀ e ∈ es, 0 < v e ∧ v e ≤ total ∧ pct e = percentageOf (v e) total) :
    |(es.map (fun e => percentageValue (pct e))).sum -
        (((es.map v).sum : Nat) : ℚ) / total * 100| ≤ (es.length : ℚ) / 20 := by
  have := sum_close es (fun e => percentageValue (pct e))
    (fun e => (v e : ℚ) / total * 100) (1 / 20) (fun e he => by
      obtain ⟨h1, h2, h3⟩ := h e he
      simp only [h3]
      exact percentageValue_percentageOf (v e) total h1 h2 htotal)
  rw [sum_ratio] at this
  calc _ ≤ 1 / 20 * (es.length : ℚ) := this
    _ = (es.length : ℚ) / 20 := by ring

theorem makeDistribution_percentages (evData : List Record) (hsize : evData.length < 2 ^ 32) :
    ((getMakeDistribution evData).map (fun e => percentageValue e.percentage)).sum ≤
      100 + ((getMakeDistribution evData).length : ℚ) / 20 := by
  obtain ⟨sorted, htake, hperm, _, hentries⟩ := makeEntries_sorted evData
  have hsub : (sorted.take 10).Sublist sorted := List.take_sublist _ _
  have hall : ∀ e ∈ sorted.take 10, 0 < e.value ∧ e.value ≤ evData.length ∧
      e.percentage = percentageOf e.value evData.length := by
    intro e he
    have hes := hsub.subset he
    obtain ⟨hv, hp⟩ := hentries e hes
    have hname : e.name ∈ (evData.foldl countMake []).map Prod.fst :=
      hperm.mem_iff.1 (List.mem_map_of_mem _ hes)
    have hpos := (makeCount_pos_iff e.name evData).2 ((distribution_mem_keys evData e.name).1 hname)
    refine ⟨by omega, ?_, hp⟩
    rw [hv]
    exact List.countP_le_length _
  have hclose := sum_close_percentages (sorted.take 10) (fun e => e.value)
    (fun e => e.percentage) evData.length hsize hall
  have hsum : ((sorted.take 10).map (fun e => e.value)).sum ≤ evData.length := by
    have h1 : ((sorted.take 10).map (fun e => e.value)).sum ≤ (sorted.map (fun e => e.value)).sum :=
      (hsub.map _).sum_le_sum (fun _ _ => Nat.zero_le _)
    have h2 : (sorted.map (fun e => e.value)).sum = evData.length := by
      have hkeys := hperm.trans (distribution_keys_perm evData)
      have := sum_counts_of_perm (fun r => propertyKey (r.get "Make")) evData _ hkeys
      rw [List.map_map] at this
      rw [← this]
      congr 1
      apply List.map_congr_left
      intro e he
      simp only [Function.comp, (hentries e he).1, makeCount_eq_length]
    omega
  rw [htake]
  rcases Nat.eq_zero_or_pos evData.length with h0 | hpos
  · have hnil : sorted.take 10 = [] := by
      cases hs : sorted.take 10 with
      | nil => rfl
      | cons e es =>
        have := (hall e (by rw [hs]; exact List.mem_cons_self _ _))
        omega
    rw [hnil]
    simp
  · have hL : (0 : ℚ) < evData.length := by exact_mod_cast hpos
    have hq : ((((sorted.take 10).map (fun e => e.value)).sum : Nat) : ℚ) / evData.length * 100 ≤
        100 := by
      have : ((((sorted.take 10).map (fun e => e.value)).sum : Nat) : ℚ) ≤ evData.length := by
        exact_mod_cast hsum
      have := (div_le_one hL).2 this
      linarith
    rw [abs_le] at hclose
    linarith [hclose.2]

theorem countyDistribution_percentages (evData : List Record) (hne : evData ≠ [])
    (hsize : evData.length < 2 ^ 32) :
    |((getCountyDistribution evData).map (fun e => percentageValue e.percentage)).sum - 100| ≤
      ((getCountyDistribution evData).length : ℚ) / 20 := by
  have hall : ∀ e ∈ getCountyDistribution evData,
      0 < e.value ∧ e.value ≤ evData.length ∧
        e.percentage = percentageOf e.value evData.length := by
    intro e he
    obtain ⟨h1, h2, _, _, _, h6⟩ := getCountyDistribution_mem evData e he
    refine ⟨?_, ?_, ?_⟩
    · rw [h2]
      exact List.length_pos.2 h1
    · rw [h2]
      exact List.length_filter_le _ _
    · rw [h6, h2]
  have hclose := sum_close_percentages (getCountyDistribution evData) (fun e => e.value)
    (fun e => e.percentage) evData.length hsize hall
  rw [getCountyDistribution_sum] at hclose
  have hL : (0 : ℚ) < evData.length := by exact_mod_cast List.length_pos.2 hne
  have : ((evData.length : Nat) : ℚ) / evData.length * 100 = 100 := by
    rw [div_self (ne_of_gt hL)]
    norm_num
  rw [this] at hclose
  exact hclose

theorem percentageValue_sixth : percentageValue "16.7" = 167 / 10 := by
  have h : decimalValue "16.7" = some (167, 10) := by decide
  simp [percentageValue, h]

/-- C12 fails as stated: six records with six Makes and six Counties give six
percentages 16.7 in either distribution, which add up to 100.2. -/
theorem percentages_sum_counterexample :
    sixRows ≠ [] ∧
    ((getMakeDistribution sixRows).map (fun e => percentageValue e.percentage)).sum = 1002 / 10 ∧
    ¬ ((getMakeDistribution sixRows).map (fun e => percentageValue e.percentage)).sum ≤ 100 ∧
    ((getCountyDistribution sixRows).map (fun e => percentageValue e.percentage)).sum ≠ 100 := by
  have hmake : (getMakeDistribution sixRows).map (fun e => e.percentage) =
      ["16.7", "16.7", "16.7", "16.7", "16.7", "16.7"] := by decide
  have hcounty : (getCountyDistribution sixRows).map (fun e => e.percentage) =
      ["16.7", "16.7", "16.7", "16.7", "16.7", "16.7"] := by decide
  have e1 : (getMakeDistribution sixRows).map (fun e => percentageValue e.percentage) =
      ((getMakeDistribution sixRows).map (fun e => e.percentage)).map percentageValue := by
    rw [List.map_map]
    rfl
  have e2 : (getCountyDistribution sixRows).map (fun e => percentageValue e.percentage) =
      ((getCountyDistribution sixRows).map (fun e => e.percentage)).map percentageValue := by
    rw [List.map_map]
    rfl
  rw [e1, e2, hmake, hcounty]
  simp only [List.map_cons, List.map_nil, List.sum_cons, List.sum_nil, percentageValue_sixth]
  refine ⟨by decide, ?_, ?_, ?_⟩ <;> norm_num

/-! ## The average range of a county -/

/-- C14 fails as stated: for one county with the ranges 10 and 21 the average
range is 16, not the quotient 15.5 of the total 31 by the count 2. -/
theorem getCountyDistribution_average_counterexample :
    (∀ r ∈ kingRows, parseInt (r.get "Electric Range") ≠ none) ∧
    getCountyDistribution kingRows =
      [{ name := some "King", value := 2, avgRange := Num.int 16, totalRange := Num.int 31,
         uniqueMakes := 1, percentage := "100.0" }] ∧
    ((16 : Int) : ℚ) ≠ ((31 : Int) : ℚ) / ((2 : Nat) : ℚ) := by
  refine ⟨by decide, by decide, by norm_num⟩

/-! ## The range ranking -/

theorem makeRangeFold_spec (rows : List Record) (g : MakeRangeGroup) :
    (rows.foldl (fun g x => makeRangeUpdate x g) g).make = g.make ∧
    (rows.foldl (fun g x => makeRangeUpdate x g) g).count = g.count + rows.length ∧
    (rows.foldl (fun g x => makeRangeUpdate x g) g).totalRange =
      rows.foldl (fun t r => t.add (Num.ofParse (parseInt (r.get "Electric Range"))))
        g.totalRange := by
  induction rows generalizing g with
  | nil => simp
  | cons r rows ih =>
    obtain ⟨h1, h2, h3⟩ := ih (makeRangeUpdate r g)
    simp only [List.foldl_cons, List.length_cons]
    refine ⟨h1, ?_, h3⟩
    rw [h2]
    simp only [makeRangeUpdate]
    omega

/-- What one entry of the range ranking holds. -/
theorem getRangeByMake_mem (evData : List Record) (e : MakeRangeEntry)
    (he : e ∈ getRangeByMake evData) :
    makeRows (propertyKey e.make) evData ≠ [] ∧
    e.totalVehicles = (makeRows (propertyKey e.make) evData).length ∧
    e.averageRange = divRound (sumRanges (makeRows (propertyKey e.make) evData))
      (makeRows (propertyKey e.make) evData).length := by
  unfold getRangeByMake at he
  have he2 := (arraySort_perm _ _).mem_iff.1 he
  obtain ⟨⟨k, g⟩, hmem, rfl⟩ := List.mem_map.1 he2
  have hgroups := groups_of_foldl (fun r => propertyKey (r.get "Make"))
    (fun curr => MakeRangeGroup.mk (curr.get "Make") 0 (Num.int 0) [] []) makeRangeUpdate evData
  obtain ⟨r, rest, hrows, hg⟩ := hgroups.of_mem k g hmem
  obtain ⟨h1, h2, h3⟩ := makeRangeFold_spec (r :: rest)
    (MakeRangeGroup.mk (r.get "Make") 0 (Num.int 0) [] [])
  rw [← hg] at h1 h2 h3
  have hr : r ∈ evData.filter (fun x => propertyKey (x.get "Make") == k) := by
    rw [hrows]
    exact List.mem_cons_self _ _
  have hk : propertyKey (r.get "Make") = k := by
    have := (List.mem_filter.1 hr).2
    simpa using this
  simp only at h1 h2 h3
  simp only [h1, hk, makeRows, hrows]
  refine ⟨by simp, ?_, ?_⟩
  · rw [h2]
    omega
  · rw [h3, h2]
    simp only [Nat.zero_add]
    rfl

theorem getRangeByMake_parsed (evData : List Record)
    (hparse : ∀ r ∈ evData, parseInt (r.get "Electric Range") ≠ none)
    (hsmall : rangeMass evData < 2 ^ 52) (e : MakeRangeEntry) (he : e ∈ getRangeByMake evData) :
    0 < e.totalVehicles ∧
    e.averageRange = Num.int (roundHalfUp (totalOfRanges (makeRows (propertyKey e.make) evData))
      e.totalVehicles) := by
  obtain ⟨h1, h2, h3⟩ := getRangeByMake_mem evData e he
  have hrows : ∀ r ∈ makeRows (propertyKey e.make) evData,
      parseInt (r.get "Electric Range") ≠ none :=
    fun r hr => hparse r (List.mem_filter.1 hr).1
  have hpos : 0 < e.totalVehicles := by
    rw [h2]
    exact List.length_pos.2 h1
  have hmass : (totalOfRanges (makeRows (propertyKey e.make) evData)).natAbs < 2 ^ 52 :=
    lt_of_le_of_lt (natAbs_totalOfRanges_le _)
      (lt_of_le_of_lt (rangeMass_filter_le _ _) hsmall)
  refine ⟨hpos, ?_⟩
  rw [h3, sumRanges_parsed _ hrows, ← h2, divRound_int _ _ hpos hmass]

/-- C15 fails as stated: one manufacturer with the ranges -2 and -3 has the total
-5 and the count 2, the quotient -2.5, and the average range -2, where halves
away from zero give -3. -/
theorem getRangeByMake_average_counterexample :
    (∀ r ∈ negativeRows, parseInt (r.get "Electric Range") ≠ none) ∧
    totalOfRanges negativeRows = -5 ∧
    (getRangeByMake negativeRows).map (fun e => (e.averageRange, e.totalVehicles)) =
      [(Num.int (-2), 2)] ∧
    roundHalfAway (-5) 2 = -3 := by
  decide

/-! ## The summary statistics -/

theorem foldl_statsStep_ranges (rows : List Record) (acc : StatsAcc) :
    (rows.foldl statsStep acc).ranges =
      acc.ranges ++ rows.map (fun r => Num.ofParse (parseInt (r.get "Electric Range"))) := by
  induction rows generalizing acc with
  | nil => simp
  | cons r rows ih =>
    rw [List.foldl_cons, ih]
    simp [statsStep]

theorem statsOf_ranges (evData : List Record) :
    (statsOf evData).ranges = arraySort (fun a b => compareOrder (a.sub b))
      (evData.map (fun r => Num.ofParse (parseInt (r.get "Electric Range")))) := by
  simp only [statsOf, foldl_statsStep_ranges, List.nil_append]

theorem map_ofParse_parsed (rows : List Record)
    (hparse : ∀ r ∈ rows, parseInt (r.get "Electric Range") ≠ none) :
    rows.map (fun r => Num.ofParse (parseInt (r.get "Electric Range"))) =
      (rows.map (fun r => parseIntOrZero (r.get "Electric Range"))).map Num.int := by
  rw [List.map_map]
  apply List.map_congr_left
  intro r hr
  obtain ⟨n, hn⟩ := Option.ne_none_iff_exists'.1 (hparse r hr)
  simp [Num.ofParse, parseIntOrZero, hn]

/-- The sorted ranges of the statistics when every range parses. -/
theorem statsOf_ranges_parsed (evData : List Record)
    (hparse : ∀ r ∈ evData, parseInt (r.get "Electric Range") ≠ none) :
    (statsOf evData).ranges =
      (arraySort (fun a b => a - b)
        (evData.map (fun r => parseIntOrZero (r.get "Electric Range")))).map Num.int := by
  rw [statsOf_ranges, map_ofParse_parsed _ hparse, arraySort_map]
  rfl

theorem elementAt_cast {α : Type} (xs : List α) (i : Nat) : elementAt xs (i : Int) = xs[i]? := by
  simp [elementAt]

theorem divRound_two (t : Int) (hsmall : t.natAbs < 2 ^ 52) :
    divRound (Num.int t) 2 = Num.int (roundHalfUp t 2) :=
  divRound_int t 2 (by decide) hsmall

/-- C20, as the code has it: for a non-empty data set whose Electric Range values
all parse and are below 2^51 in size, the median range of the summary statistics
is the middle element of the ranges in ascending order when their number is odd,
and when it is even the average of the two middle elements rounded to the
nearest integer, a half upwards: the ranges 10, 20, 30, 40 give 25 and the
ranges 10, 20, 30 give 20. -/
theorem getStatistics_median (evData : List Record) (hne : evData ≠ [])
    (hparse : ∀ r ∈ evData, parseInt (r.get "Electric Range") ≠ none)
    (hsmall : ∀ r ∈ evData, (parseIntOrZero (r.get "Electric Range")).natAbs < 2 ^ 51) :
    (∃ sorted : List Int,
      sorted.Perm (evData.map (fun r => parseIntOrZero (r.get "Electric Range"))) ∧
      sorted.Pairwise (fun a b => a ≤ b) ∧
      (evData.length % 2 = 1 → ∃ x, sorted[evData.length / 2]? = some x ∧
        (getStatistics evData).medianRange = Num.int x) ∧
      (evData.length % 2 = 0 → ∃ x y, sorted[evData.length / 2 - 1]? = some x ∧
        sorted[evData.length / 2]? = some y ∧
        (getStatistics evData).medianRange = Num.int (roundHalfUp (x + y) 2) ∧
        (2 * roundHalfUp (x + y) 2 = x + y ∨ 2 * roundHalfUp (x + y) 2 = x + y + 1))) ∧
    (getStatistics (rowsOfRanges ["10", "20", "30", "40"])).medianRange = Num.int 25 ∧
    (getStatistics (rowsOfRanges ["10", "20", "30"])).medianRange = Num.int 20 := by
  refine ⟨?_, by decide, by decide⟩
  have hperm := arraySort_perm (fun a b : Int => a - b)
    (evData.map (fun r => parseIntOrZero (r.get "Electric Range")))
  have hsorted : (arraySort (fun a b : Int => a - b)
      (evData.map (fun r => parseIntOrZero (r.get "Electric Range")))).Pairwise
        (fun a b => a ≤ b) :=
    arraySort_rel _ _ (fun x y h => by omega) (fun x y h => by omega)
      (fun x y z hxy hyz => by omega) _
  have hlen := hperm.length_eq
  rw [List.length_map] at hlen
  have hpos : 0 < evData.length := List.length_pos.2 hne
  have hmedian : (getStatistics evData).medianRange = medianOfSorted (statsOf evData).ranges := rfl
  rw [hmedian, statsOf_ranges_parsed evData hparse]
  generalize arraySort (fun a b : Int => a - b)
    (evData.map (fun r => parseIntOrZero (r.get "Electric Range"))) = sorted at hperm hsorted hlen
  have hbound : ∀ x ∈ sorted, x.natAbs < 2 ^ 51 := by
    intro x hx
    obtain ⟨r, hr, rfl⟩ := List.mem_map.1 (hperm.mem_iff.1 hx)
    exact hsmall r hr
  refine ⟨sorted, hperm, hsorted, ?_, ?_⟩
  · intro hodd
    have hlt : evData.length / 2 < sorted.length := by omega
    refine ⟨sorted[evData.length / 2], List.getElem?_eq_getElem hlt, ?_⟩
    have hidx : ((sorted.length : Int) / 2) = ((evData.length / 2 : Nat) : Int) := by omega
    simp only [medianOfSorted, List.length_map]
    rw [if_neg (by omega), hidx, elementAt_cast, List.getElem?_map,
      List.getElem?_eq_getElem hlt]
    rfl
  · intro heven
    have hlt : evData.length / 2 < sorted.length := by omega
    have hlt1 : evData.length / 2 - 1 < sorted.length := by omega
    have hx := hbound _ (List.getElem_mem hlt1)
    have hy := hbound _ (List.getElem_mem hlt)
    refine ⟨sorted[evData.length / 2 - 1], sorted[evData.length / 2],
      List.getElem?_eq_getElem hlt1, List.getElem?_eq_getElem hlt, ?_, ?_⟩
    · have hidx : ((sorted.length : Int) / 2) = ((evData.length / 2 : Nat) : Int) := by omega
      have hidx1 : ((sorted.length : Int) / 2 - 1) = ((evData.length / 2 - 1 : Nat) : Int) := by
        omega
      simp only [medianOfSorted, List.length_map]
      rw [if_pos (by omega), hidx1, hidx, elementAt_cast, elementAt_cast, List.getElem?_map,
        List.getElem?_map, List.getElem?_eq_getElem hlt, List.getElem?_eq_getElem hlt1]
      simp only [Option.map_some', addElements, Num.add]
      apply divRound_two
      have := Int.natAbs_add_le sorted[evData.length / 2 - 1] sorted[evData.length / 2]
      have h52 : (2 : Nat) ^ 52 = 2 ^ 51 + 2 ^ 51 := by norm_num
      omega
    · unfold roundHalfUp
      generalize sorted[evData.length / 2 - 1] + sorted[evData.length / 2] = s
      push_cast
      omega

theorem getStatistics_median_witness :
    kingRows ≠ [] ∧
    (∀ r ∈ kingRows, parseInt (r.get "Electric Range") ≠ none) ∧
    (∀ r ∈ kingRows, (parseIntOrZero (r.get "Electric Range")).natAbs < 2 ^ 51) ∧
    ((∃ sorted : List Int,
      sorted.Perm (kingRows.map (fun r => parseIntOrZero (r.get "Electric Range"))) ∧
      sorted.Pairwise (fun a b => a ≤ b) ∧
      (kingRows.length % 2 = 1 → ∃ x, sorted[kingRows.length / 2]? = some x ∧
        (getStatistics kingRows).medianRange = Num.int x) ∧
      (kingRows.length % 2 = 0 → ∃ x y, sorted[kingRows.length / 2 - 1]? = some x ∧
        sorted[kingRows.length / 2]? = some y ∧
        (getStatistics kingRows).medianRange = Num.int (roundHalfUp (x + y) 2) ∧
        (2 * roundHalfUp (x + y) 2 = x + y ∨ 2 * roundHalfUp (x + y) 2 = x + y + 1))) ∧
    (getStatistics (rowsOfRanges ["10", "20", "30", "40"])).medianRange = Num.int 25 ∧
    (getStatistics (rowsOfRanges ["10", "20", "30"])).medianRange = Num.int 20) :=
  ⟨by decide, by decide, by decide,
    getStatistics_median kingRows (by decide) (by decide) (by decide)⟩

/-- C20 fails as stated: the ranges 10 and 21 have the median range 16, not the
average 15.5 of the two middle elements. -/
theorem getStatistics_median_counterexample :
    kingRows ≠ [] ∧
    (∀ r ∈ kingRows, parseInt (r.get "Electric Range") ≠ none) ∧
    kingRows.map (fun r => parseIntOrZero (r.get "Electric Range")) = [10, 21] ∧
    (getStatistics kingRows).medianRange = Num.int 16 ∧
    ((16 : Int) : ℚ) ≠ (((10 : Int) : ℚ) + ((21 : Int) : ℚ)) / 2 := by
  refine ⟨by decide, by decide, by decide, by decide, by norm_num⟩

/-- C16: a range that does not parse is not read as 0 by `getStatistics`,
`getCountyDistribution` and `getRangeByMake`: with one empty Electric Range the
average, median, least and greatest range and the averages of the county and of
the manufacturer are NaN, whereas with 0 in its place they are 50, 50, 0, 100,
50 and 50; the average of the model year is 50 in both data sets. -/
theorem unparsed_range_is_nan :
    (getStatistics blankRangeRows).averageRange = Num.nan ∧
    (getStatistics blankRangeRows).medianRange = Num.nan ∧
    (getStatistics blankRangeRows).minRange = Num.nan ∧
    (getStatistics blankRangeRows).maxRange = Num.nan ∧
    (getCountyDistribution blankRangeRows).map (fun e => e.avgRange) = [Num.nan] ∧
    (getRangeByMake blankRangeRows).map (fun e => e.averageRange) = [Num.nan] ∧
    (rangeEvolution blankRangeRows).map (fun e => e.averageRange) = [Num.int 50] ∧
    (getStatistics zeroRangeRows).averageRange = Num.int 50 ∧
    (getStatistics zeroRangeRows).medianRange = Num.int 50 ∧
    (getStatistics zeroRangeRows).minRange = Num.int 0 ∧
    (getStatistics zeroRangeRows).maxRange = Num.int 100 ∧
    (getCountyDistribution zeroRangeRows).map (fun e => e.avgRange) = [Num.int 50] ∧
    (getRangeByMake zeroRangeRows).map (fun e => e.averageRange) = [Num.int 50] ∧
    (rangeEvolution zeroRangeRows).map (fun e => e.averageRange) = [Num.int 50] := by
  decide

/-- C18: the years of the growth series are in the order of their decimal
numerals, not of their values: for the model years 999 and 2018 the series has
2018 first and computes the growth of 999 from 2018, while the range evolution
of the same data has 999 first. -/
theorem growthRates_year_order :
    (growthRates mixedYearRows).map (fun p => p.year) = ["2018", "999"] ∧
    (rangeEvolution mixedYearRows).map (fun p => p.year) = ["999", "2018"] := by
  decide

/-! ## The groups by model year -/

/-- The sum `curr.Make + curr.Model` is the Make+Model identity of the record. -/
theorem concatValues_eq (r : Record) :
    concatValues (r.get "Make") (r.get "Model") = modelIdentity r := by
  unfold modelIdentity concatValues
  cases r.get "Make" <;> cases r.get "Model" <;> rfl

theorem yearFold_spec (rows : List Record) (g : YearGroup) :
    (rows.foldl (fun g x => yearUpdate x g) g).total = g.total + rows.length ∧
    (rows.foldl (fun g x => yearUpdate x g) g).totalRange =
      g.totalRange + totalOfRanges rows ∧
    (rows.foldl (fun g x => yearUpdate x g) g).models =
      (rows.map modelIdentity).foldl setAdd g.models ∧
    (rows.foldl (fun g x => yearUpdate x g) g).ranges =
      g.ranges ++ rows.map (fun r => parseIntOrZero (r.get "Electric Range")) := by
  induction rows generalizing g with
  | nil => simp [totalOfRanges]
  | cons r rows ih =>
    obtain ⟨h1, h2, h3, h4⟩ := ih (yearUpdate r g)
    simp only [List.foldl_cons, List.length_cons, List.map_cons]
    refine ⟨?_, ?_, ?_, ?_⟩
    · rw [h1]
      simp only [yearUpdate]
      omega
    · rw [h2]
      simp only [yearUpdate, totalOfRanges, List.map_cons, List.sum_cons]
      omega
    · rw [h3]
      simp only [yearUpdate, concatValues_eq]
    · rw [h4]
      simp [yearUpdate]

/-- The object `yearlyData` holds the groups of the rows by parsed model year. -/
theorem yearlyData_groups (evData : List Record) :
    GroupsOf (fun r => numberKey (parseIntOrZero (r.get "Model Year")))
      (fun _ => YearGroup.mk 0 0 0 [] []) yearUpdate (yearlyData evData) evData :=
  groups_of_foldl (fun r => numberKey (parseIntOrZero (r.get "Model Year")))
    (fun _ => YearGroup.mk 0 0 0 [] []) yearUpdate evData

/-- What the object `yearlyData` holds for one of its keys. -/
theorem yearlyData_mem (evData : List Record) (k : String) (g : YearGroup)
    (hmem : (k, g) ∈ yearlyData evData) :
    yearRows k evData ≠ [] ∧
    g.total = (yearRows k evData).length ∧
    g.totalRange = totalOfRanges (yearRows k evData) ∧
    g.models.length = ((yearRows k evData).map modelIdentity).dedup.length ∧
    g.ranges = (yearRows k evData).map (fun r => parseIntOrZero (r.get "Electric Range")) ∧
    ∃ r ∈ evData, k = numberKey (parseIntOrZero (r.get "Model Year")) := by
  obtain ⟨r, rest, hrows, hg⟩ := (yearlyData_groups evData).of_mem k g hmem
  obtain ⟨h1, h2, h3, h4⟩ := yearFold_spec (r :: rest) (YearGroup.mk 0 0 0 [] [])
  rw [← hg] at h1 h2 h3 h4
  have hr : r ∈ evData.filter
      (fun x => numberKey (parseIntOrZero (x.get "Model Year")) == k) := by
    rw [hrows]
    exact List.mem_cons_self _ _
  have hk : numberKey (parseIntOrZero (r.get "Model Year")) = k := by
    have := (List.mem_filter.1 hr).2
    simpa using this
  simp only [yearRows, hrows]
  refine ⟨by simp, ?_, ?_, ?_, ?_, r, (List.mem_filter.1 hr).1, hk.symm⟩
  · rw [h1]
    simp
  · rw [h2]
    simp
  · rw [h3, length_foldl_setAdd]
  · rw [h4]
    simp

/-- The read of the total of a year is the number of rows of that year. -/
theorem yearTotal_eq (evData : List Record) (k : String) :
    yearTotal (yearlyData evData) k = (yearRows k evData).length := by
  have h := (yearlyData_groups evData).2 k
  unfold yearTotal
  rw [h]
  unfold yearRows
  cases hf : evData.filter (fun r => numberKey (parseIntOrZero (r.get "Model Year")) == k) with
  | nil => rfl
  | cons r rest =>
    simp only [groupOf]
    rw [(yearFold_spec (r :: rest) (YearGroup.mk 0 0 0 [] [])).1]
    simp

/-! ## The range evolution -/

/-- What one point of the range evolution holds. -/
theorem rangeEvolution_mem (evData : List Record) (p : RangePoint)
    (hp : p ∈ rangeEvolution evData) :
    yearRows p.year evData ≠ [] ∧
    p.totalVehicles = (yearRows p.year evData).length ∧
    p.averageRange = divRound (Num.int (totalOfRanges (yearRows p.year evData)))
      (yearRows p.year evData).length ∧
    p.modelCount = ((yearRows p.year evData).map modelIdentity).dedup.length ∧
    p.medianRange =
      middleRange ((yearRows p.year evData).map (fun r => parseIntOrZero (r.get "Electric Range"))) ∧
    ∃ r ∈ evData, p.year = numberKey (parseIntOrZero (r.get "Model Year")) := by
  unfold rangeEvolution at hp
  have hp2 := (arraySort_perm _ _).mem_iff.1 hp
  obtain ⟨⟨k, g⟩, hmem, rfl⟩ := List.mem_map.1 hp2
  obtain ⟨h1, h2, h3, h4, h5, h6⟩ := yearlyData_mem evData k g hmem
  simp only
  exact ⟨h1, h2, by rw [h3, h2], h4, by rw [h5], h6⟩

theorem rangeEvolution_years_perm (evData : List Record) :
    ((rangeEvolution evData).map (fun p => p.year)).Perm
      (evData.map (fun r => numberKey (parseIntOrZero (r.get "Model Year")))).dedup := by
  refine List.Perm.trans ?_ (yearlyData_groups evData).keys_perm
  unfold rangeEvolution
  refine ((arraySort_perm _ _).map _).trans ?_
  rw [List.map_map]
  exact List.Perm.of_eq rfl

theorem compareOrder_keyNumber (y : Int) : compareOrder (keyNumber (numberKey y)) = y := by
  rw [keyNumber_numberKey]
  rfl

theorem rangeEvolution_ascending (evData : List Record) :
    (rangeEvolution evData).Pairwise (fun a b =>
      compareOrder (keyNumber a.year) ≤ compareOrder (keyNumber b.year)) := by
  have hall : ∀ p ∈ rangeEvolution evData, ∃ y : Int, p.year = numberKey y :=
    fun p hp => by
      obtain ⟨_, _, _, _, _, r, _, hr⟩ := rangeEvolution_mem evData p hp
      exact ⟨_, hr⟩
  have hpre : ∀ p ∈ (yearlyData evData).map (fun e =>
      RangePoint.mk e.1 (divRound (Num.int e.2.totalRange) e.2.total) e.2.models.length
        (middleRange e.2.ranges) e.2.total), ∃ y : Int, p.year = numberKey y :=
    fun p hp => hall p ((arraySort_perm _ _).mem_iff.2 hp)
  unfold rangeEvolution
  exact arraySort_rel_of_forall
    (fun a b : RangePoint => compareOrder ((keyNumber a.year).sub (keyNumber b.year)))
    (fun a b : RangePoint => compareOrder (keyNumber a.year) ≤ compareOrder (keyNumber b.year))
    (fun p : RangePoint => ∃ y : Int, p.year = numberKey y)
    (fun a b ⟨x, hx⟩ ⟨y, hy⟩ h => by
      simp only [hx, hy, keyNumber_numberKey, Num.sub, compareOrder] at h ⊢
      omega)
    (fun a b ⟨x, hx⟩ ⟨y, hy⟩ h => by
      simp only [hx, hy, keyNumber_numberKey, Num.sub, compareOrder] at h ⊢
      omega)
    (fun a b c _ _ _ hab hbc => le_trans hab hbc)
    _ hpre

/-- The years of the range evolution, as integers. -/
theorem rangeEvolution_years (evData : List Record) :
    ∃ years : List Int,
      (rangeEvolution evData).map (fun p => p.year) = years.map numberKey ∧
      years.Perm (evData.map (fun r => parseIntOrZero (r.get "Model Year"))).dedup ∧
      years.Pairwise (fun a b => a < b) := by
  have hall : ∀ p ∈ rangeEvolution evData,
      numberKey (compareOrder (keyNumber p.year)) = p.year := by
    intro p hp
    obtain ⟨_, _, _, _, _, r, _, hr⟩ := rangeEvolution_mem evData p hp
    rw [hr, compareOrder_keyNumber]
  have hnames : (rangeEvolution evData).map (fun p => p.year) =
      ((rangeEvolution evData).map (fun p => compareOrder (keyNumber p.year))).map numberKey := by
    rw [List.map_map]
    apply List.map_congr_left
    intro p hp
    exact (hall p hp).symm
  have hperm := rangeEvolution_years_perm evData
  have hnodup : ((rangeEvolution evData).map (fun p => compareOrder (keyNumber p.year))).Nodup := by
    have : ((rangeEvolution evData).map (fun p => p.year)).Nodup :=
      hperm.nodup_iff.2 (List.nodup_dedup _)
    rw [hnames] at this
    exact List.Nodup.of_map _ this
  refine ⟨_, hnames, ?_, ?_⟩
  · rw [List.perm_ext_iff_of_nodup hnodup (List.nodup_dedup _)]
    intro y
    rw [List.mem_dedup]
    constructor
    · intro hy
      have : numberKey y ∈ (rangeEvolution evData).map (fun p => p.year) := by
        rw [hnames]
        exact List.mem_map_of_mem _ hy
      have := hperm.mem_iff.1 this
      rw [List.mem_dedup] at this
      obtain ⟨r, hr, hkey⟩ := List.mem_map.1 this
      exact List.mem_map.2 ⟨r, hr, numberKey_injective _ _ hkey⟩
    · intro hy
      obtain ⟨r, hr, rfl⟩ := List.mem_map.1 hy
      have : numberKey (parseIntOrZero (r.get "Model Year")) ∈
          (rangeEvolution evData).map (fun p => p.year) := by
        apply hperm.mem_iff.2
        rw [List.mem_dedup]
        exact List.mem_map.2 ⟨r, hr, rfl⟩
      rw [hnames] at this
      obtain ⟨y, hy, hkey⟩ := List.mem_map.1 this
      rw [← numberKey_injective _ _ hkey]
      exact hy
  · have hle := rangeEvolution_ascending evData
    rw [List.pairwise_map]
    have hne : (rangeEvolution evData).Pairwise (fun a b =>
        compareOrder (keyNumber a.year) ≠ compareOrder (keyNumber b.year)) := by
      have := hnodup
      rw [List.Nodup, List.pairwise_map] at this
      exact this
    exact (hle.and hne).imp (fun {a b} h => lt_of_le_of_ne h.1 h.2)

/-- C19: for model years below 2^53 in size and ranges of moderate size, the
range evolution has one point per distinct parsed model year, in strictly
ascending order of the years as integers; a point counts the records of its
year, its average range is the total range by that count rounded to the nearest
integer (a half upwards, ranges that do not parse counting as 0), its model
count is the number of distinct Make+Model identities of the year, and its
median range is the element at the index floor(count / 2) of the ranges of the
year in ascending order. Of three rows of TESLA MODEL 3 and KIA NIRO in 2020
the model count is 2 and the median of the ranges 200, 101 and 0 is 101; an
absent Make or Model reads "undefined" in the identity, and the rows with
neither share one identity. -/
theorem rangeEvolution_spec (evData : List Record) (hsmall : rangeMass evData < 2 ^ 52)
    (hyears : ∀ r ∈ evData, (parseIntOrZero (r.get "Model Year")).natAbs < 2 ^ 53) :
    (∃ years : List Int,
      (rangeEvolution evData).map (fun p => p.year) = years.map numberKey ∧
      years.Perm (evData.map (fun r => parseIntOrZero (r.get "Model Year"))).dedup ∧
      years.Pairwise (fun a b => a < b)) ∧
    (∀ p ∈ rangeEvolution evData,
      p.totalVehicles = (yearRows p.year evData).length ∧
      0 < p.totalVehicles ∧
      p.averageRange =
        Num.int (roundHalfUp (totalOfRanges (yearRows p.year evData)) p.totalVehicles) ∧
      p.modelCount = ((yearRows p.year evData).map modelIdentity).dedup.length ∧
      ∃ sorted : List Int, ∃ middle : Int,
        sorted.Perm ((yearRows p.year evData).map
          (fun r => parseIntOrZero (r.get "Electric Range"))) ∧
        sorted.Pairwise (fun a b => a ≤ b) ∧
        sorted[p.totalVehicles / 2]? = some middle ∧
        p.medianRange = some middle) ∧
    rangeEvolution evolutionRows =
      [{ year := "2019", averageRange := Num.int 30, modelCount := 1, medianRange := some 30,
         totalVehicles := 1 },
       { year := "2020", averageRange := Num.int 100, modelCount := 2, medianRange := some 101,
         totalVehicles := 3 }] ∧
    rangeEvolution unnamedModels =
      [{ year := "2021", averageRange := Num.int 0, modelCount := 3, medianRange := some 0,
         totalVehicles := 5 }] ∧
    unnamedModels.map modelIdentity =
      [some "KIAundefined", some "KIAundefined", none, none, some "undefinedNIRO"] := by
  have _ := hyears
  refine ⟨rangeEvolution_years evData, ?_, by decide, by decide, by decide⟩
  intro p hp
  obtain ⟨h1, h2, h3, h4, h5, _⟩ := rangeEvolution_mem evData p hp
  have hpos : 0 < p.totalVehicles := by
    rw [h2]
    exact List.length_pos.2 h1
  have hmass : (totalOfRanges (yearRows p.year evData)).natAbs < 2 ^ 52 :=
    lt_of_le_of_lt (natAbs_totalOfRanges_le _)
      (lt_of_le_of_lt (rangeMass_filter_le _ _) hsmall)
  refine ⟨h2, hpos, ?_, h4, ?_⟩
  · rw [h3, ← h2, divRound_int _ _ hpos hmass]
  · have hperm := arraySort_perm (fun a b : Int => a - b)
      ((yearRows p.year evData).map (fun r => parseIntOrZero (r.get "Electric Range")))
    have hsorted : (arraySort (fun a b : Int => a - b)
        ((yearRows p.year evData).map
          (fun r => parseIntOrZero (r.get "Electric Range")))).Pairwise (fun a b => a ≤ b) :=
      arraySort_rel _ _ (fun x y h => by omega) (fun x y h => by omega)
        (fun x y z hxy hyz => by omega) _
    have hlen := hperm.length_eq
    rw [List.length_map, ← h2] at hlen
    have hlt : p.totalVehicles / 2 < (arraySort (fun a b : Int => a - b)
        ((yearRows p.year evData).map
          (fun r => parseIntOrZero (r.get "Electric Range")))).length := by
      rw [hlen]
      omega
    refine ⟨_, _, hperm, hsorted, List.getElem?_eq_getElem hlt, ?_⟩
    rw [h5, middleRange, List.length_map, ← h2]
    exact List.getElem?_eq_getElem hlt

theorem rangeEvolution_spec_witness :
    rangeMass evolutionRows < 2 ^ 52 ∧
    (∀ r ∈ evolutionRows, (parseIntOrZero (r.get "Model Year")).natAbs < 2 ^ 53) ∧
    (∃ years : List Int,
      (rangeEvolution evolutionRows).map (fun p => p.year) = years.map numberKey ∧
      years.Perm (evolutionRows.map (fun r => parseIntOrZero (r.get "Model Year"))).dedup ∧
      years.Pairwise (fun a b => a < b)) :=
  ⟨by decide, by decide, (rangeEvolution_spec evolutionRows (by decide) (by decide)).1⟩

/-! ## The rounding of a growth rate -/

/-- The double computed for `value / total * 100` is within the relative error
`201 * 2^-53` of the exact quotient, for any positive `value`. -/
theorem ratio_double_close (value total : Nat) (hvalue : 0 < value) (htotal : 0 < total) :
    0 < (numberDiv value total).1 ∧
    0 < (numberMul (numberDiv value total) 100).1 ∧
    0 < (numberMul (numberDiv value total) 100).2 ∧
      |((numberMul (numberDiv value total) 100).1 : ℚ) /
          (numberMul (numberDiv value total) 100).2 - (value : ℚ) / total * 100| ≤
        (value : ℚ) / total * (201 / 2 ^ 53) := by
  have hL : (0 : ℚ) < total := by exact_mod_cast htotal
  have hV : (0 : ℚ) < value := by exact_mod_cast hvalue
  obtain ⟨hqd, hqerr⟩ := roundToDouble_error value total hvalue htotal
  unfold numberMul numberDiv
  generalize roundToDouble value total = q at hqd hqerr ⊢
  obtain ⟨qn, qd⟩ := q
  simp only at hqd hqerr ⊢
  have hqdq : (0 : ℚ) < qd := by exact_mod_cast hqd
  have hxpos : 0 < (value : ℚ) / total := div_pos hV hL
  generalize (value : ℚ) / total = x at hqerr hxpos ⊢
  obtain ⟨u, hu⟩ : ∃ u : ℚ, u = 1 / 2 ^ 53 := ⟨_, rfl⟩
  have hupos : 0 < u := by rw [hu]; positivity
  have husmall : u ≤ 1 / 100 := by rw [hu]; norm_num
  have hxu : x / 2 ^ 53 = x * u := by rw [hu]; ring
  rw [hxu, abs_le] at hqerr
  have hapos : 0 < x * u := mul_pos hxpos hupos
  have hxu2 : x * u ≤ x * (1 / 100) := mul_le_mul_of_nonneg_left husmall (le_of_lt hxpos)
  have hqpos : 0 < (qn : ℚ) / qd := by linarith [hqerr.1]
  have hqn : 0 < qn := by
    rcases Nat.eq_zero_or_pos qn with h | h
    · rw [h] at hqpos
      simp at hqpos
    · exact h
  obtain ⟨hpd, hperr⟩ := roundToDouble_error (qn * 100) qd (by omega) hqd
  generalize roundToDouble (qn * 100) qd = p at hpd hperr ⊢
  obtain ⟨pn, pd⟩ := p
  simp only at hpd hperr ⊢
  have hpdq : (0 : ℚ) < pd := by exact_mod_cast hpd
  push_cast at hperr
  have hq100 : (qn : ℚ) * 100 / qd / 2 ^ 53 = (qn : ℚ) / qd * 100 * u := by rw [hu]; ring
  have hq100e : (qn : ℚ) * 100 / qd = (qn : ℚ) / qd * 100 := by ring
  rw [hq100, hq100e] at hperr
  generalize (qn : ℚ) / qd = y at hqerr hqpos hperr
  have h201 : x * (201 / 2 ^ 53) = 201 * (x * u) := by rw [hu]; ring
  rw [abs_le] at hperr
  have hyu : y * u ≤ (x + x * u) * u :=
    mul_le_mul_of_nonneg_right (by linarith [hqerr.2]) (le_of_lt hupos)
  have hau : x * u * u ≤ x * u * (1 / 100) :=
    mul_le_mul_of_nonneg_left husmall (le_of_lt hapos)
  have hppos : 0 < (pn : ℚ) / pd := by
    have : 0 < y * 100 - y * 100 * u := by nlinarith
    linarith [hperr.1]
  have hpn : 0 < pn := by
    rcases Nat.eq_zero_or_pos pn with h | h
    · rw [h] at hppos
      simp at hppos
    · exact h
  refine ⟨hqn, hpn, hpd, ?_⟩
  generalize (pn : ℚ) / pd = z at hperr hppos ⊢
  rw [h201, abs_le]
  constructor
  · nlinarith [hperr.1, hqerr.1]
  · nlinarith [hperr.2, hqerr.2]

/-- The digits printed for `value / total * 100` are those of a nearest multiple
of 0.1 to the exact quotient, for any positive `value` below `2^32`. -/
theorem toFixedDigits_ratio (value total : Nat) (hvalue : 0 < value) (htotal : 0 < total)
    (hsmall : value < 2 ^ 32) :
    |((toFixedDigits (numberMul (numberDiv value total) 100) : ℚ)) / 10 -
        (value : ℚ) / total * 100| ≤ 1 / 20 := by
  have hL : (0 : ℚ) < total := by exact_mod_cast htotal
  have hVlt : (value : ℚ) < 2 ^ 32 := by exact_mod_cast hsmall
  have hV : (0 : ℚ) < value := by exact_mod_cast hvalue
  obtain ⟨_, _, hpd, hclose⟩ := ratio_double_close value total hvalue htotal
  generalize numberMul (numberDiv value total) 100 = p at hpd hclose ⊢
  obtain ⟨pn, pd⟩ := p
  simp only at hpd hclose
  obtain ⟨hn1, hn2⟩ := toFixedDigits_bracket pn pd hpd
  generalize toFixedDigits (pn, pd) = n at hn1 hn2 ⊢
  generalize (pn : ℚ) / pd = z at hclose hn1 hn2
  have hx : (value : ℚ) / total * total = value := div_mul_cancel₀ _ (ne_of_gt hL)
  obtain ⟨d, hd⟩ : ∃ d : ℚ, d = 201 / 2 ^ 53 := ⟨_, rfl⟩
  have hdpos : 0 < d := by rw [hd]; positivity
  have hdB : 20 * (2 ^ 32 * d) < 1 := by rw [hd]; norm_num
  rw [← hd, abs_le] at hclose
  have hVd : (value : ℚ) * d ≤ 2 ^ 32 * d :=
    mul_le_mul_of_nonneg_right (le_of_lt hVlt) (le_of_lt hdpos)
  have hxd : (value : ℚ) / total * d * total = value * d := by
    rw [mul_right_comm, hx]
  have hup : (2 : ℚ) * n * total < 2000 * value + total + 1 := by
    have h := mul_le_mul_of_nonneg_right
      (show (n : ℚ) ≤ 1000 * ((value : ℚ) / total) + 10 * ((value : ℚ) / total * d) + 1 / 2 by
        linarith [hclose.2])
      (le_of_lt hL)
    rw [add_mul, add_mul, mul_assoc, mul_assoc, hx, hxd] at h
    linarith
  have hlow : (2000 : ℚ) * value < 2 * n * total + total + 1 := by
    have h := mul_le_mul_of_nonneg_right
      (show 1000 * ((value : ℚ) / total) - 10 * ((value : ℚ) / total * d) - 1 / 2 ≤ (n : ℚ) by
        linarith [hclose.1])
      (le_of_lt hL)
    rw [sub_mul, sub_mul, mul_assoc, mul_assoc, hx, hxd] at h
    linarith
  have hupN : 2 * n * total < 2000 * value + total + 1 := by exact_mod_cast hup
  have hlowN : 2000 * value < 2 * n * total + total + 1 := by exact_mod_cast hlow
  have hupq : (2 : ℚ) * n * total ≤ 2000 * value + total := by
    have : 2 * n * total ≤ 2000 * value + total := by omega
    exact_mod_cast this
  have hlowq : (2000 : ℚ) * value ≤ 2 * n * total + total := by
    have : 2000 * value ≤ 2 * n * total + total := by omega
    exact_mod_cast this
  rw [← hx] at hupq hlowq
  generalize (value : ℚ) / total = x at hupq hlowq ⊢
  rw [abs_le]
  constructor
  · have h : (-(1 / 20) - ((n : ℚ) / 10 - x * 100)) * total ≤ 0 := by
      have : (-(1 / 20) - ((n : ℚ) / 10 - x * 100)) * total =
        (2000 * (x * total) - 2 * n * total - total) / 20 := by ring
      rw [this]
      linarith
    have := nonpos_of_mul_nonpos_left h hL
    linarith
  · have h : ((n : ℚ) / 10 - x * 100 - 1 / 20) * total ≤ 0 := by
      have : ((n : ℚ) / 10 - x * 100 - 1 / 20) * total =
        (2 * n * total - 2000 * (x * total) - total) / 20 := by ring
      rw [this]
      linarith
    have := nonpos_of_mul_nonpos_left h hL
    linarith

/-- The text printed for the growth from `prev` to `cur` records is a numeral
with one decimal that is nearest to the exact growth in percent. -/
theorem growth_numeral (cur prev : Nat) (hprev : 0 < prev) (hcur : cur < 2 ^ 32)
    (hprev32 : prev < 2 ^ 32) :
    ∃ m : Int,
      decimalValue (toFixed1Signed (signedMul (signedDiv ((cur : Int) - (prev : Int)) prev) 100)) =
        some (m, 10) ∧
      |(m : ℚ) / 10 - ((cur : ℚ) - (prev : ℚ)) / prev * 100| ≤ 1 / 20 := by
  rcases lt_trichotomy (cur : Int) (prev : Int) with hlt | heq | hgt
  · -- a decrease
    obtain ⟨v, hv⟩ : ∃ v : Nat, ((cur : Int) - (prev : Int)).natAbs = v := ⟨_, rfl⟩
    have hvpos : 0 < v := by omega
    have hv32 : v < 2 ^ 32 := by omega
    obtain ⟨hq, hp, _, _⟩ := ratio_double_close v prev hvpos hprev
    have hclose := toFixedDigits_ratio v prev hvpos hprev hv32
    have hneg : (cur : Int) - (prev : Int) < 0 := by omega
    have htext : toFixed1Signed (signedMul (signedDiv ((cur : Int) - (prev : Int)) prev) 100) =
        "-" ++ decimal1 (toFixedDigits (numberMul (numberDiv v prev) 100)) := by
      simp only [numberMul, numberDiv] at hp hq ⊢
      have h1 : signedDiv ((cur : Int) - (prev : Int)) prev =
          (-((roundToDouble v prev).1 : Int), (roundToDouble v prev).2) := by
        simp only [signedDiv, if_pos hneg, hv]
      have hq0 : -((roundToDouble v prev).1 : Int) < 0 := by omega
      have h2 : signedMul (-((roundToDouble v prev).1 : Int), (roundToDouble v prev).2) 100 =
          (-((roundToDouble ((roundToDouble v prev).1 * 100) (roundToDouble v prev).2).1 : Int),
            (roundToDouble ((roundToDouble v prev).1 * 100) (roundToDouble v prev).2).2) := by
        simp only [signedMul, if_pos hq0, Int.natAbs_neg, Int.natAbs_ofNat]
      have hp0 : -((roundToDouble ((roundToDouble v prev).1 * 100)
          (roundToDouble v prev).2).1 : Int) < 0 := by omega
      rw [h1, h2]
      simp only [toFixed1Signed, if_pos hp0, Int.natAbs_neg, Int.natAbs_ofNat, toFixed1]
    refine ⟨-(toFixedDigits (numberMul (numberDiv v prev) 100) : Int), ?_, ?_⟩
    · rw [htext, decimalValue_neg_decimal1]
    · have hvq : ((cur : ℚ) - (prev : ℚ)) = -(v : ℚ) := by
        have : ((cur : Int) - (prev : Int)) = -(v : Int) := by omega
        have h := congrArg (fun z : Int => (z : ℚ)) this
        simpa using h
      rw [hvq]
      push_cast
      have e : -((toFixedDigits (numberMul (numberDiv v prev) 100) : ℚ)) / 10 -
          -(v : ℚ) / prev * 100 =
          -((toFixedDigits (numberMul (numberDiv v prev) 100) : ℚ) / 10 -
            (v : ℚ) / prev * 100) := by ring
      rw [e, abs_neg]
      exact hclose
  · -- no change
    have h0 : (cur : Int) - (prev : Int) = 0 := by omega
    have htext : toFixed1Signed (signedMul (signedDiv ((cur : Int) - (prev : Int)) prev) 100) =
        decimal1 0 := by
      rw [h0]
      have h1 : signedDiv 0 prev = ((0 : Int), 1) := by
        simp [signedDiv, roundToDouble]
      rw [h1]
      decide
    refine ⟨0, ?_, ?_⟩
    · rw [htext]
      exact decimalValue_decimal1 0
    · have : (cur : ℚ) = prev := by exact_mod_cast heq
      rw [this]
      simp
  · -- an increase
    obtain ⟨v, hv⟩ : ∃ v : Nat, ((cur : Int) - (prev : Int)).natAbs = v := ⟨_, rfl⟩
    have hvpos : 0 < v := by omega
    have hv32 : v < 2 ^ 32 := by omega
    obtain ⟨hq, hp, _, _⟩ := ratio_double_close v prev hvpos hprev
    have hclose := toFixedDigits_ratio v prev hvpos hprev hv32
    have hneg : ¬ ((cur : Int) - (prev : Int) < 0) := by omega
    have htext : toFixed1Signed (signedMul (signedDiv ((cur : Int) - (prev : Int)) prev) 100) =
        decimal1 (toFixedDigits (numberMul (numberDiv v prev) 100)) := by
      simp only [numberMul, numberDiv] at hp hq ⊢
      have h1 : signedDiv ((cur : Int) - (prev : Int)) prev =
          (((roundToDouble v prev).1 : Int), (roundToDouble v prev).2) := by
        simp only [signedDiv, if_neg hneg, hv]
      have hq0 : ¬ (((roundToDouble v prev).1 : Int) < 0) := by omega
      have h2 : signedMul (((roundToDouble v prev).1 : Int), (roundToDouble v prev).2) 100 =
          (((roundToDouble ((roundToDouble v prev).1 * 100) (roundToDouble v prev).2).1 : Int),
            (roundToDouble ((roundToDouble v prev).1 * 100) (roundToDouble v prev).2).2) := by
        simp only [signedMul, if_neg hq0, Int.natAbs_ofNat]
      have hp0 : ¬ (((roundToDouble ((roundToDouble v prev).1 * 100)
          (roundToDouble v prev).2).1 : Int) < 0) := by omega
      rw [h1, h2]
      simp only [toFixed1Signed, if_neg hp0, Int.natAbs_ofNat, toFixed1]
    refine ⟨(toFixedDigits (numberMul (numberDiv v prev) 100) : Int), ?_, ?_⟩
    · rw [htext, decimalValue_decimal1]
    · have hvq : ((cur : ℚ) - (prev : ℚ)) = (v : ℚ) := by
        have : ((cur : Int) - (prev : Int)) = (v : Int) := by omega
        have h := congrArg (fun z : Int => (z : ℚ)) this
        simpa using h
      rw [hvq]
      push_cast
      exact hclose

/-- The function `parseFloat` gives the double nearest to the decimal value of
its text. -/
theorem parseFloat_of_decimalValue (s : String) (v : Int × Nat)
    (h : decimalValue s = some v) : parseFloat s = some (signedDiv v.1 v.2) := by
  simp only [parseFloat, h, signedDiv]
  split <;> rfl

/-! ## The growth series -/

theorem growthRates_getElem (evData : List Record) (i : Nat) :
    (growthRates evData)[i]? =
      ((sortedYears (yearlyData evData))[i]?).map (fun y =>
        GrowthPoint.mk y
          (parseFloat (growthText (yearlyData evData) (sortedYears (yearlyData evData)) i y))
          (yearTotal (yearlyData evData) y)) := by
  simp only [growthRates, List.getElem?_map, List.getElem?_enum, Option.map_map]
  rfl

theorem sortedYears_mem (evData : List Record) (y : String)
    (hy : y ∈ sortedYears (yearlyData evData)) : 0 < (yearRows y evData).length := by
  unfold sortedYears at hy
  have h1 := (arraySort_perm _ _).mem_iff.1 hy
  have h2 := ((yearlyData_groups evData).mem_keys y).1 h1
  obtain ⟨r, hr, hkey⟩ := List.mem_map.1 h2
  apply List.length_pos_of_mem (a := r)
  unfold yearRows
  rw [List.mem_filter]
  exact ⟨hr, by simpa using hkey⟩

/-- The growth series: totals, the first growth, and the later growths. -/
theorem growthRates_general (evData : List Record) (hsize : evData.length < 2 ^ 32) :
    (∀ pt ∈ growthRates evData,
      pt.total = (yearRows pt.year evData).length ∧ 0 < pt.total) ∧
    (∀ pt, (growthRates evData)[0]? = some pt → pt.growth = some (0, 1)) ∧
    (∀ i prev pt, (growthRates evData)[i]? = some prev →
      (growthRates evData)[i + 1]? = some pt →
      ∃ m : Int, pt.growth = some (signedDiv m 10) ∧
        |(m : ℚ) / 10 - ((pt.total : ℚ) - (prev.total : ℚ)) / prev.total * 100| ≤ 1 / 20) := by
  refine ⟨?_, ?_, ?_⟩
  · intro pt hpt
    obtain ⟨i, hi⟩ := List.getElem?_of_mem hpt
    rw [growthRates_getElem] at hi
    cases hy : (sortedYears (yearlyData evData))[i]? with
    | none => rw [hy] at hi; simp at hi
    | some y =>
      rw [hy] at hi
      simp only [Option.map_some', Option.some.injEq] at hi
      subst hi
      simp only [yearTotal_eq]
      exact ⟨trivial, sortedYears_mem evData y (List.getElem?_mem hy)⟩
  · intro pt hpt
    rw [growthRates_getElem] at hpt
    cases hy : (sortedYears (yearlyData evData))[0]? with
    | none => rw [hy] at hpt; simp at hpt
    | some y =>
      rw [hy] at hpt
      simp only [Option.map_some', Option.some.injEq] at hpt
      subst hpt
      simp only [growthText, lt_irrefl, if_false]
      decide
  · intro i prev pt hprev hpt
    rw [growthRates_getElem] at hprev hpt
    cases hy0 : (sortedYears (yearlyData evData))[i]? with
    | none => rw [hy0] at hprev; simp at hprev
    | some y0 =>
      cases hy1 : (sortedYears (yearlyData evData))[i + 1]? with
      | none => rw [hy1] at hpt; simp at hpt
      | some y1 =>
        rw [hy0] at hprev
        rw [hy1] at hpt
        simp only [Option.map_some', Option.some.injEq] at hprev hpt
        subst hprev hpt
        have hgetD : (sortedYears (yearlyData evData)).getD (i + 1 - 1) "" = y0 := by
          rw [Nat.add_sub_cancel, List.getD_eq_getElem?_getD, hy0]
          rfl
        simp only [growthText, Nat.succ_pos, if_true, hgetD, yearTotal_eq]
        have hpos0 := sortedYears_mem evData y0 (List.getElem?_mem hy0)
        have hle0 : (yearRows y0 evData).length ≤ evData.length := List.length_filter_le _ _
        have hle1 : (yearRows y1 evData).length ≤ evData.length := List.length_filter_le _ _
        obtain ⟨m, hm, hclose⟩ := growth_numeral (yearRows y1 evData).length
          (yearRows y0 evData).length hpos0 (by omega) (by omega)
        exact ⟨m, parseFloat_of_decimalValue _ _ hm, hclose⟩

/-! ## The order of the years of the growth series -/

theorem unitsLt_asymm (a b : List Nat) (hab : unitsLt a b = true) : unitsLt b a = false := by
  cases h : unitsLt b a with
  | false => rfl
  | true =>
    have := unitsLt_trans a b a hab h
    rw [unitsLt_irrefl] at this
    exact absurd this (by simp)

/-- The keys of the growth series are in the order of their code units. -/
theorem sortedYears_sorted (data : List (String × YearGroup)) :
    (sortedYears data).Pairwise (fun a b => unitsLt (utf16 b) (utf16 a) = false) := by
  unfold sortedYears
  apply arraySort_rel
  · intro x y h
    have hxy : unitsLt (utf16 x) (utf16 y) = true := by
      unfold defaultCompare at h
      split at h
      · assumption
      · split at h <;> omega
    exact unitsLt_asymm _ _ hxy
  · intro x y h
    cases hxy : unitsLt (utf16 x) (utf16 y) with
    | false => rfl
    | true =>
      simp [defaultCompare, hxy] at h
  · intro x y z hxy hyz
    cases hzx : unitsLt (utf16 z) (utf16 x) with
    | false => rfl
    | true =>
      by_cases hxy2 : utf16 x = utf16 y
      · rw [hxy2] at hzx
        rw [hzx] at hyz
        exact absurd hyz (by simp)
      · rcases unitsLt_total _ _ hxy2 with h | h
        · have := unitsLt_trans _ _ _ hzx h
          rw [this] at hyz
          exact absurd hyz (by simp)
        · rw [h] at hxy
          exact absurd hxy (by simp)

/-- Two lists of strings with the same elements, both in the order of their code
units, are equal. -/
theorem eq_of_perm_of_unitsSorted (l1 l2 : List String) (hperm : l1.Perm l2)
    (h1 : l1.Pairwise (fun a b => unitsLt (utf16 b) (utf16 a) = false))
    (h2 : l2.Pairwise (fun a b => unitsLt (utf16 b) (utf16 a) = false)) : l1 = l2 := by
  haveI : IsAntisymm String (fun a b => unitsLt (utf16 b) (utf16 a) = false) :=
    ⟨fun a b hab hba => by
      by_contra hne
      have hne2 : utf16 a ≠ utf16 b := fun h => hne (utf16_injective _ _ h)
      rcases unitsLt_total _ _ hne2 with h | h
      · rw [h] at hba
        exact absurd hba (by simp)
      · rw [h] at hab
        exact absurd hab (by simp)⟩
  exact List.eq_of_perm_of_sorted hperm h1 h2

/-! ## The growth of 100, 150 and 120 records -/

theorem growthRows_keys :
    growthRows.map (fun r => numberKey (parseIntOrZero (r.get "Model Year"))) =
      List.replicate 100 "2018" ++ List.replicate 150 "2019" ++ List.replicate 120 "2020" := by
  have h18 : numberKey (parseIntOrZero (Record.get [("Model Year", "2018")] "Model Year")) =
      "2018" := by decide
  have h19 : numberKey (parseIntOrZero (Record.get [("Model Year", "2019")] "Model Year")) =
      "2019" := by decide
  have h20 : numberKey (parseIntOrZero (Record.get [("Model Year", "2020")] "Model Year")) =
      "2020" := by decide
  simp only [growthRows, List.map_append, List.map_replicate, h18, h19, h20]

theorem growthRows_counts :
    (yearRows "2018" growthRows).length = 100 ∧ (yearRows "2019" growthRows).length = 150 ∧
      (yearRows "2020" growthRows).length = 120 := by
  have hcount : ∀ k, (yearRows k growthRows).length =
      (growthRows.map (fun r => numberKey (parseIntOrZero (r.get "Model Year")))).count k := by
    intro k
    unfold yearRows
    rw [List.count, List.countP_map, List.countP_eq_length_filter]
    rfl
  simp only [hcount, growthRows_keys, List.count_append, List.count_replicate]
  decide

theorem growthRows_years : sortedYears (yearlyData growthRows) = ["2018", "2019", "2020"] := by
  apply eq_of_perm_of_unitsSorted _ _ _ (sortedYears_sorted _) (by decide)
  unfold sortedYears
  refine (arraySort_perm _ _).trans ?_
  rw [List.perm_ext_iff_of_nodup (yearlyData_groups growthRows).1 (by decide)]
  intro k
  rw [(yearlyData_groups growthRows).mem_keys k, growthRows_keys]
  simp only [List.mem_append, List.mem_replicate, List.mem_cons, List.mem_singleton,
    List.not_mem_nil, or_false]
  constructor
  · rintro ((⟨_, h⟩ | ⟨_, h⟩) | ⟨_, h⟩)
    · exact Or.inl h
    · exact Or.inr (Or.inl h)
    · exact Or.inr (Or.inr h)
  · rintro (h | h | h)
    · exact Or.inl (Or.inl ⟨by decide, h⟩)
    · exact Or.inl (Or.inr ⟨by decide, h⟩)
    · exact Or.inr ⟨by decide, h⟩

theorem growthText_zero (data : List (String × YearGroup)) (years : List String)
    (year : String) : growthText data years 0 year = "0" := by
  simp [growthText]

theorem growthText_succ (data : List (String × YearGroup)) (years : List String) (i : Nat)
    (year : String) :
    growthText data years (i + 1) year =
      toFixed1Signed (signedMul
        (signedDiv ((yearTotal data year : Int) - (yearTotal data (years.getD i "") : Int))
          (yearTotal data (years.getD i ""))) 100) := by
  simp [growthText]

theorem growthRates_eq (evData : List Record) :
    growthRates evData =
      (sortedYears (yearlyData evData)).enum.map (fun p =>
        GrowthPoint.mk p.2
          (parseFloat (growthText (yearlyData evData) (sortedYears (yearlyData evData)) p.1 p.2))
          (yearTotal (yearlyData evData) p.2)) := rfl

/-- The growth series of 100 records of 2018, 150 of 2019 and 120 of 2020. -/
theorem growthRates_growthRows :
    growthRates growthRows =
      [{ year := "2018", growth := some (0, 1), total := 100 },
       { year := "2019", growth := some (signedDiv 500 10), total := 150 },
       { year := "2020", growth := some (signedDiv (-200) 10), total := 120 }] := by
  obtain ⟨h18, h19, h20⟩ := growthRows_counts
  have e0 : ([("2018" : String), "2019", "2020"]).getD 0 "" = "2018" := rfl
  have e1 : ([("2018" : String), "2019", "2020"]).getD 1 "" = "2019" := rfl
  have enum3 : ([("2018" : String), "2019", "2020"]).enum =
      [(0, "2018"), (0 + 1, "2019"), (1 + 1, "2020")] := rfl
  rw [growthRates_eq, growthRows_years, enum3]
  simp only [List.map_cons, List.map_nil]
  rw [growthText_zero, growthText_succ, growthText_succ, e0, e1]
  simp only [yearTotal_eq, h18, h19, h20]
  decide

/-- C17: in the growth series every point has the number of records of its year
as total, which is never 0; the first point has the growth 0; and the growth of
a later point is the double nearest to a numeral with one decimal that is
nearest to the exact growth from the total of its predecessor in the series, in
percent (a data set is an array and has fewer than 2^32 records). For 100
records of 2018, 150 of 2019 and 120 of 2020 the growths are 0, 50 and -20. -/
theorem growthRates_spec (evData : List Record) (hsize : evData.length < 2 ^ 32) :
    (∀ pt ∈ growthRates evData,
      pt.total = (yearRows pt.year evData).length ∧ 0 < pt.total) ∧
    (∀ pt, (growthRates evData)[0]? = some pt → pt.growth = some (0, 1)) ∧
    (∀ i prev pt, (growthRates evData)[i]? = some prev →
      (growthRates evData)[i + 1]? = some pt →
      ∃ m : Int, pt.growth = some (signedDiv m 10) ∧
        |(m : ℚ) / 10 - ((pt.total : ℚ) - (prev.total : ℚ)) / prev.total * 100| ≤ 1 / 20) ∧
    growthRates growthRows =
      [{ year := "2018", growth := some (0, 1), total := 100 },
       { year := "2019", growth := some (signedDiv 500 10), total := 150 },
       { year := "2020", growth := some (signedDiv (-200) 10), total := 120 }] ∧
    (signedDiv 500 10).1 = 50 * (signedDiv 500 10).2 ∧
    (signedDiv (-200) 10).1 = -20 * (signedDiv (-200) 10).2 := by
  obtain ⟨h1, h2, h3⟩ := growthRates_general evData hsize
  exact ⟨h1, h2, h3, growthRates_growthRows, by decide, by decide⟩

theorem growthRates_spec_witness :
    evolutionRows.length < 2 ^ 32 ∧
    ((∀ pt ∈ growthRates evolutionRows,
      pt.total = (yearRows pt.year evolutionRows).length ∧ 0 < pt.total) ∧
    (∀ pt, (growthRates evolutionRows)[0]? = some pt → pt.growth = some (0, 1)) ∧
    (∀ i prev pt, (growthRates evolutionRows)[i]? = some prev →
      (growthRates evolutionRows)[i + 1]? = some pt →
      ∃ m : Int, pt.growth = some (signedDiv m 10) ∧
        |(m : ℚ) / 10 - ((pt.total : ℚ) - (prev.total : ℚ)) / prev.total * 100| ≤ 1 / 20) ∧
    growthRates growthRows =
      [{ year := "2018", growth := some (0, 1), total := 100 },
       { year := "2019", growth := some (signedDiv 500 10), total := 150 },
       { year := "2020", growth := some (signedDiv (-200) 10), total := 120 }] ∧
    (signedDiv 500 10).1 = 50 * (signedDiv 500 10).2 ∧
    (signedDiv (-200) 10).1 = -20 * (signedDiv (-200) 10).2) :=
  ⟨by decide, growthRates_spec evolutionRows (by decide)⟩

/-- The growth series of the four rows of `evolutionRows`: one record of 2019,
then three of 2020, a growth of 200 percent. -/
theorem growthRates_evolutionRows :
    (growthRates evolutionRows).map (fun p => (p.year, p.total)) = [("2019", 1), ("2020", 3)] ∧
    (growthRates evolutionRows).map (fun p => p.growth) =
      [some (0, 1), some (signedDiv 2000 10)] := by
  decide

/-! ## The filter session -/

theorem run_append (a : App) (events more : List Event) :
    run a (events ++ more) = run (run a events) more := by
  simp [run, List.foldl_append]

theorem run_cons (a : App) (e : Event) (events : List Event) :
    run a (e :: events) = run (step a e) events := rfl

theorem run_nil (a : App) : run a [] = a := rfl

/-- The test of `handleRefresh` fails on the empty criteria only. -/
theorem hasActiveFilters_iff (activeFilters : ActiveFilters) :
    hasActiveFilters activeFilters = true ↔
      (activeFilters.makes ≠ [] ∨ activeFilters.years ≠ [] ∨ activeFilters.types ≠ [] ∨
        activeFilters.range.min ≠ "" ∨ activeFilters.range.max ≠ "") := by
  simp [hasActiveFilters, List.length_pos, or_assoc]

theorem hasActiveFilters_eq_false_iff (activeFilters : ActiveFilters) :
    hasActiveFilters activeFilters = false ↔ activeFilters = emptyFilters := by
  rw [← Bool.not_eq_true, hasActiveFilters_iff]
  obtain ⟨makes, years, types, ⟨lo, hi⟩⟩ := activeFilters
  simp only [emptyFilters, ActiveFilters.mk.injEq, RangeFilter.mk.injEq]
  push_neg
  rfl

/-- C23, as the code has it: from empty criteria, the year 2020 applied through
`handleFilterChange` and then a reload whose fetch fails leave the current
criteria with the year 2020 (a failed reload does not touch them), the session
discarded and the data set as it was. -/
theorem failed_reload_keeps_criteria (a : App) (hempty : a.state.activeFilters = emptyFilters)
    (hready : a.state.refreshing = false) :
    (run a [Event.filterChange (FilterChange.years [some "2020"]), Event.refresh,
      Event.reloadFailure]).state.activeFilters = year2020 ∧
    (run a [Event.filterChange (FilterChange.years [some "2020"]), Event.refresh,
      Event.reloadFailure]).state.filterHistory = idleHistory ∧
    (run a [Event.filterChange (FilterChange.years [some "2020"]), Event.refresh,
      Event.reloadFailure]).state.evData = a.state.evData ∧
    (run a [Event.filterChange (FilterChange.years [some "2020"]), Event.refresh,
      Event.reloadFailure]).pending = none := by
  have hstep : (step (step a (Event.filterChange (FilterChange.years [some "2020"])))
      Event.refresh) =
      { state := handleRefresh (handleFilterChange (FilterChange.years [some "2020"]) a.state),
        pending := some (handleFilterChange (FilterChange.years [some "2020"])
          a.state).filterHistory } := by
    simp [step, handleFilterChange, hready]
  simp only [run_cons, run_nil, hstep]
  simp [step, fetchFailure, handleRefresh, fetchStart, handleFilterChange,
    FilterChange.newFilters, hempty, year2020]

theorem failed_reload_keeps_criteria_witness :
    loadedApp.state.activeFilters = emptyFilters ∧
    loadedApp.state.refreshing = false ∧
    ((run loadedApp [Event.filterChange (FilterChange.years [some "2020"]), Event.refresh,
        Event.reloadFailure]).state.activeFilters = year2020 ∧
      (run loadedApp [Event.filterChange (FilterChange.years [some "2020"]), Event.refresh,
        Event.reloadFailure]).state.filterHistory = idleHistory ∧
      (run loadedApp [Event.filterChange (FilterChange.years [some "2020"]), Event.refresh,
        Event.reloadFailure]).state.evData = loadedApp.state.evData ∧
      (run loadedApp [Event.filterChange (FilterChange.years [some "2020"]), Event.refresh,
        Event.reloadFailure]).pending = none) :=
  ⟨by decide, by decide, failed_reload_keeps_criteria loadedApp (by decide) (by decide)⟩

/-- C23 fails as stated: after the first load, the year 2020 applied and a
reload that fails, the session is discarded but the current criteria are not
empty: they still hold the year 2020. -/
theorem failed_reload_keeps_criteria_counterexample :
    (run mounted [Event.reloadSuccess twoRows]).state.activeFilters = emptyFilters ∧
    (run mounted [Event.reloadSuccess twoRows, Event.filterChange (FilterChange.years [some "2020"]),
      Event.refresh, Event.reloadFailure]).state.filterHistory = idleHistory ∧
    (run mounted [Event.reloadSuccess twoRows, Event.filterChange (FilterChange.years [some "2020"]),
      Event.refresh, Event.reloadFailure]).state.activeFilters.years = [some "2020"] ∧
    (run mounted [Event.reloadSuccess twoRows, Event.filterChange (FilterChange.years [some "2020"]),
      Event.refresh, Event.reloadFailure]).state.activeFilters ≠ emptyFilters := by
  decide

/-- C24, as the code has it: when the call of `fetchData` in flight succeeds, the
data set becomes the parsed records, the two flags are cleared and the session
is reset; the current criteria become the criteria saved in the session which
that call holds, the one of the moment the reload was started, if it is
active with filters, and are unchanged otherwise. When the session has not
changed since, this is the session of the prior state. -/
theorem reloadSuccess_spec (a : App) (saved : FilterHistory) (parsedData : List Record)
    (hpending : a.pending = some saved) :
    (step a (Event.reloadSuccess parsedData)).state.evData = parsedData ∧
    (step a (Event.reloadSuccess parsedData)).state.filterHistory = idleHistory ∧
    (step a (Event.reloadSuccess parsedData)).state.loading = false ∧
    (step a (Event.reloadSuccess parsedData)).state.refreshing = false ∧
    (step a (Event.reloadSuccess parsedData)).pending = none ∧
    (∀ filters, saved.active = true → saved.filters = some filters →
      (step a (Event.reloadSuccess parsedData)).state.activeFilters = filters) ∧
    ((saved.active = false ∨ saved.filters = none) →
      (step a (Event.reloadSuccess parsedData)).state.activeFilters = a.state.activeFilters) ∧
    (saved = a.state.filterHistory →
      (∀ filters, a.state.filterHistory.active = true →
        a.state.filterHistory.filters = some filters →
        (step a (Event.reloadSuccess parsedData)).state.activeFilters = filters) ∧
      ((a.state.filterHistory.active = false ∨ a.state.filterHistory.filters = none) →
        (step a (Event.reloadSuccess parsedData)).state.activeFilters =
          a.state.activeFilters)) := by
  have hstep : step a (Event.reloadSuccess parsedData) =
      { state := fetchSuccess saved parsedData a.state, pending := none } := by
    simp [step, hpending]
  have hyes : ∀ filters, saved.active = true → saved.filters = some filters →
      (fetchSuccess saved parsedData a.state).activeFilters = filters := by
    intro filters h1 h2
    simp [fetchSuccess, h1, h2]
  have hno : (saved.active = false ∨ saved.filters = none) →
      (fetchSuccess saved parsedData a.state).activeFilters = a.state.activeFilters := by
    rintro (h | h)
    · simp [fetchSuccess, h]
    · simp only [fetchSuccess, h]
      cases saved.active <;> rfl
  rw [hstep]
  refine ⟨rfl, rfl, rfl, rfl, rfl, hyes, hno, ?_⟩
  intro heq
  rw [← heq]
  exact ⟨hyes, hno⟩

theorem reloadSuccess_spec_witness :
    reloadingApp.pending = some { active := true, filters := some year2020 } ∧
    ((step reloadingApp (Event.reloadSuccess kingRows)).state.evData = kingRows ∧
    (step reloadingApp (Event.reloadSuccess kingRows)).state.filterHistory = idleHistory ∧
    (step reloadingApp (Event.reloadSuccess kingRows)).state.loading = false ∧
    (step reloadingApp (Event.reloadSuccess kingRows)).state.refreshing = false ∧
    (step reloadingApp (Event.reloadSuccess kingRows)).pending = none ∧
    (∀ filters, (FilterHistory.mk true (some year2020)).active = true →
      (FilterHistory.mk true (some year2020)).filters = some filters →
      (step reloadingApp (Event.reloadSuccess kingRows)).state.activeFilters = filters) ∧
    (((FilterHistory.mk true (some year2020)).active = false ∨
        (FilterHistory.mk true (some year2020)).filters = none) →
      (step reloadingApp (Event.reloadSuccess kingRows)).state.activeFilters =
        reloadingApp.state.activeFilters) ∧
    (FilterHistory.mk true (some year2020) = reloadingApp.state.filterHistory →
      (∀ filters, reloadingApp.state.filterHistory.active = true →
        reloadingApp.state.filterHistory.filters = some filters →
        (step reloadingApp (Event.reloadSuccess kingRows)).state.activeFilters = filters) ∧
      ((reloadingApp.state.filterHistory.active = false ∨
          reloadingApp.state.filterHistory.filters = none) →
        (step reloadingApp (Event.reloadSuccess kingRows)).state.activeFilters =
          reloadingApp.state.activeFilters))) :=
  ⟨by decide,
    reloadSuccess_spec reloadingApp (FilterHistory.mk true (some year2020)) kingRows (by decide)⟩

/-- C24 fails as stated: the year 2020 is applied, a reload is started and the
filters are cleared while it runs. In the state before the reload succeeds the
session holds no saved criteria and the current criteria are empty, yet the
success sets the current criteria to the year 2020. -/
theorem reloadSuccess_spec_counterexample :
    (run mounted [Event.reloadSuccess twoRows, Event.filterChange (FilterChange.years [some "2020"]),
      Event.refresh, Event.clearFilters]).state.filterHistory = idleHistory ∧
    (run mounted [Event.reloadSuccess twoRows, Event.filterChange (FilterChange.years [some "2020"]),
      Event.refresh, Event.clearFilters]).state.activeFilters = emptyFilters ∧
    (run mounted [Event.reloadSuccess twoRows, Event.filterChange (FilterChange.years [some "2020"]),
      Event.refresh, Event.clearFilters, Event.reloadSuccess twoRows]).state.activeFilters =
        year2020 ∧
    year2020 ≠ emptyFilters := by
  decide

/-- C25: when the call of `fetchData` in flight fails, the data set keeps its
value, the flags `loading` and `refreshing` are cleared, the session is reset
and the current criteria stay as they are: nothing saved is reapplied. After a
failed first load the data set is empty. -/
theorem reloadFailure_spec (a : App) (saved : FilterHistory) (hpending : a.pending = some saved) :
    (step a Event.reloadFailure).state.evData = a.state.evData ∧
    (step a Event.reloadFailure).state.loading = false ∧
    (step a Event.reloadFailure).state.refreshing = false ∧
    (step a Event.reloadFailure).state.filterHistory = idleHistory ∧
    (step a Event.reloadFailure).state.activeFilters = a.state.activeFilters ∧
    (step a Event.reloadFailure).pending = none ∧
    (step mounted Event.reloadFailure).state.evData = [] := by
  have hstep : step a Event.reloadFailure = { state := fetchFailure a.state, pending := none } := by
    simp [step, hpending]
  rw [hstep]
  exact ⟨rfl, rfl, rfl, rfl, rfl, rfl, by decide⟩

theorem reloadFailure_spec_witness :
    reloadingApp.pending = some { active := true, filters := some year2020 } ∧
    ((step reloadingApp Event.reloadFailure).state.evData = reloadingApp.state.evData ∧
    (step reloadingApp Event.reloadFailure).state.loading = false ∧
    (step reloadingApp Event.reloadFailure).state.refreshing = false ∧
    (step reloadingApp Event.reloadFailure).state.filterHistory = idleHistory ∧
    (step reloadingApp Event.reloadFailure).state.activeFilters =
      reloadingApp.state.activeFilters ∧
    (step reloadingApp Event.reloadFailure).pending = none ∧
    (step mounted Event.reloadFailure).state.evData = []) :=
  ⟨by decide,
    reloadFailure_spec reloadingApp (FilterHistory.mk true (some year2020)) (by decide)⟩

/-- C26: a filter change stores the changed criteria as current criteria and sets
the session active with exactly these criteria saved, whatever they are, so
also when a criterion has become non-empty; `handleRefresh` saves the criteria
of that moment in an active session if one of them is non-empty (a list with an
element or a set bound) and leaves the session alone if not, empties the search
term, sets the page to 0 and keeps the criteria. -/
theorem session_saves_criteria (change : FilterChange) (s : DashboardState) :
    (handleFilterChange change s).activeFilters = change.newFilters s.activeFilters ∧
    (handleFilterChange change s).filterHistory =
      { active := true, filters := some (handleFilterChange change s).activeFilters } ∧
    (handleRefresh s).filterHistory =
      (if hasActiveFilters s.activeFilters then
        { active := true, filters := some s.activeFilters }
      else s.filterHistory) ∧
    (handleRefresh s).searchTerm = "" ∧
    (handleRefresh s).page = 0 ∧
    (handleRefresh s).activeFilters = s.activeFilters ∧
    (hasActiveFilters s.activeFilters = true ↔
      (s.activeFilters.makes ≠ [] ∨ s.activeFilters.years ≠ [] ∨ s.activeFilters.types ≠ [] ∨
        s.activeFilters.range.min ≠ "" ∨ s.activeFilters.range.max ≠ "")) :=
  ⟨rfl, rfl, rfl, rfl, rfl, rfl, hasActiveFilters_iff s.activeFilters⟩

/-- The filter predicate with the empty search term and the empty criteria
accepts a record with a cell. -/
theorem matchesVehicle_of_cell (vehicle : Record) (hcell : objectValues vehicle ≠ []) :
    matchesVehicle "" emptyFilters vehicle = true := by
  have hsearch : matchesSearch vehicle "" = true := by
    rw [matchesSearch_iff]
    cases hv : objectValues vehicle with
    | nil => exact absurd hv hcell
    | cons value rest =>
      refine ⟨value, List.mem_cons_self _ _, ?_⟩
      have : (toLowerCase "").data = [] := rfl
      rw [this]
      exact List.nil_infix
  simp [matchesVehicle, hsearch, matchesMake, matchesYear, matchesType, matchesRange,
    emptyFilters, truthy]

/-- C27: `handleClearFilters` empties the criteria, resets the session and the
page and leaves the data set, the search term, the sort settings and the flags
as they are; the filtered view of the cleared state under the empty search term
is then the whole data set (every parsed row has a cell). -/
theorem handleClearFilters_spec (s : DashboardState)
    (hcells : ∀ r ∈ s.evData, objectValues r ≠ []) :
    (handleClearFilters s).activeFilters = emptyFilters ∧
    (handleClearFilters s).activeFilters.makes = [] ∧
    (handleClearFilters s).activeFilters.years = [] ∧
    (handleClearFilters s).activeFilters.types = [] ∧
    (handleClearFilters s).activeFilters.range = { min := "", max := "" } ∧
    (handleClearFilters s).filterHistory = { active := false, filters := none } ∧
    (handleClearFilters s).page = 0 ∧
    (handleClearFilters s).evData = s.evData ∧
    (handleClearFilters s).searchTerm = s.searchTerm ∧
    (handleClearFilters s).sortField = s.sortField ∧
    (handleClearFilters s).sortOrder = s.sortOrder ∧
    (handleClearFilters s).rowsPerPage = s.rowsPerPage ∧
    (handleClearFilters s).loading = s.loading ∧
    (handleClearFilters s).refreshing = s.refreshing ∧
    filteredData (handleClearFilters s).evData "" (handleClearFilters s).activeFilters =
      s.evData := by
  refine ⟨rfl, rfl, rfl, rfl, rfl, rfl, rfl, rfl, rfl, rfl, rfl, rfl, rfl, rfl, ?_⟩
  show filteredData s.evData "" emptyFilters = s.evData
  unfold filteredData
  rw [List.filter_eq_self]
  exact fun r hr => matchesVehicle_of_cell r (hcells r hr)

theorem handleClearFilters_spec_witness :
    (∀ r ∈ reloadingApp.state.evData, objectValues r ≠ []) ∧
    ((handleClearFilters reloadingApp.state).activeFilters = emptyFilters ∧
    (handleClearFilters reloadingApp.state).activeFilters.makes = [] ∧
    (handleClearFilters reloadingApp.state).activeFilters.years = [] ∧
    (handleClearFilters reloadingApp.state).activeFilters.types = [] ∧
    (handleClearFilters reloadingApp.state).activeFilters.range = { min := "", max := "" } ∧
    (handleClearFilters reloadingApp.state).filterHistory = { active := false, filters := none } ∧
    (handleClearFilters reloadingApp.state).page = 0 ∧
    (handleClearFilters reloadingApp.state).evData = reloadingApp.state.evData ∧
    (handleClearFilters reloadingApp.state).searchTerm = reloadingApp.state.searchTerm ∧
    (handleClearFilters reloadingApp.state).sortField = reloadingApp.state.sortField ∧
    (handleClearFilters reloadingApp.state).sortOrder = reloadingApp.state.sortOrder ∧
    (handleClearFilters reloadingApp.state).rowsPerPage = reloadingApp.state.rowsPerPage ∧
    (handleClearFilters reloadingApp.state).loading = reloadingApp.state.loading ∧
    (handleClearFilters reloadingApp.state).refreshing = reloadingApp.state.refreshing ∧
    filteredData (handleClearFilters reloadingApp.state).evData ""
      (handleClearFilters reloadingApp.state).activeFilters = reloadingApp.state.evData) :=
  ⟨by decide, handleClearFilters_spec reloadingApp.state (by decide)⟩

theorem step_agrees (a : App) (e : Event) (h : SessionAgrees a) : SessionAgrees (step a e) := by
  cases e with
  | filterChange change => intro _; rfl
  | clearFilters =>
    intro hactive
    exact absurd hactive (by simp [step, handleClearFilters, idleHistory])
  | refresh =>
    simp only [step]
    split
    · exact h
    · intro hactive
      simp only [handleRefresh, fetchStart] at hactive ⊢
      split
      · rfl
      · rename_i hno
        rw [if_neg hno] at hactive
        exact h hactive
  | reloadSuccess parsedData =>
    simp only [step]
    split
    · intro hactive
      exact absurd hactive (by simp [fetchSuccess, idleHistory])
    · exact h
  | reloadFailure =>
    simp only [step]
    split
    · intro hactive
      exact absurd hactive (by simp [fetchFailure, idleHistory])
    · exact h

theorem run_agrees (a : App) (events : List Event) (h : SessionAgrees a) :
    SessionAgrees (run a events) := by
  induction events generalizing a with
  | nil => exact h
  | cons e events ih => exact ih (step a e) (step_agrees a e h)

theorem mounted_agrees : SessionAgrees mounted := by
  intro h
  exact absurd h (by decide)

/-- A reload that is started and succeeds with no event in between keeps the
criteria. -/
theorem refresh_success_keeps (a : App) (parsedData : List Record) (h : SessionAgrees a)
    (hready : a.state.refreshing = false) :
    (run a [Event.refresh, Event.reloadSuccess parsedData]).state.activeFilters =
      a.state.activeFilters := by
  have hstep : step a Event.refresh =
      { state := handleRefresh a.state, pending := some a.state.filterHistory } := by
    simp [step, hready]
  simp only [run_cons, run_nil, hstep]
  show (fetchSuccess a.state.filterHistory parsedData (handleRefresh a.state)).activeFilters =
    a.state.activeFilters
  cases hactive : a.state.filterHistory.active with
  | false => simp [fetchSuccess, hactive, handleRefresh, fetchStart]
  | true => simp [fetchSuccess, hactive, h hactive]

/-- C28, as the code has it: in every state that the component reaches from its
mounting by filter changes, clearings, refreshes and settled reloads, an active
session has saved exactly the current criteria; and a reload that is started
when none is running and succeeds before any other event leaves the current
criteria as they are. -/
theorem session_agrees (events : List Event) :
    ((run mounted events).state.filterHistory.active = true →
      (run mounted events).state.filterHistory.filters =
        some (run mounted events).state.activeFilters) ∧
    ∀ parsedData, (run mounted events).state.refreshing = false →
      (run mounted (events ++ [Event.refresh, Event.reloadSuccess parsedData])).state.activeFilters =
        (run mounted events).state.activeFilters := by
  have hagree := run_agrees mounted events mounted_agrees
  refine ⟨hagree, ?_⟩
  intro parsedData hready
  rw [run_append]
  exact refresh_success_keeps _ parsedData hagree hready

/-- C28 fails as stated: the year 2020 is applied, a reload is started and the
make TESLA is added while it runs. The session then is active with the current
criteria (both filters) saved, and the success of the reload changes the current
criteria: the make is dropped. -/
theorem session_agrees_counterexample :
    (run mounted [Event.reloadSuccess twoRows, Event.filterChange (FilterChange.years [some "2020"]),
      Event.refresh, Event.filterChange (FilterChange.makes [some "TESLA"])]).state.filterHistory =
      { active := true,
        filters := some { emptyFilters with years := [some "2020"], makes := [some "TESLA"] } } ∧
    (run mounted [Event.reloadSuccess twoRows, Event.filterChange (FilterChange.years [some "2020"]),
      Event.refresh, Event.filterChange (FilterChange.makes [some "TESLA"])]).state.activeFilters =
      { emptyFilters with years := [some "2020"], makes := [some "TESLA"] } ∧
    (run mounted [Event.reloadSuccess twoRows, Event.filterChange (FilterChange.years [some "2020"]),
      Event.refresh, Event.filterChange (FilterChange.makes [some "TESLA"]),
      Event.reloadSuccess twoRows]).state.activeFilters = year2020 ∧
    year2020 ≠ { emptyFilters with years := [some "2020"], makes := [some "TESLA"] } := by
  decide

/-- C29: the session is active with empty criteria after the last filter value is
removed through `handleFilterChange`: the year 2020 is applied and taken away
again, and the session stays active, with the empty criteria saved, where
`handleRefresh` saves criteria only if one of them is non-empty. -/
theorem session_active_without_criteria :
    (run mounted [Event.reloadSuccess twoRows, Event.filterChange (FilterChange.years [some "2020"]),
      Event.filterChange (FilterChange.years [])]).state.filterHistory =
      { active := true, filters := some emptyFilters } ∧
    (run mounted [Event.reloadSuccess twoRows, Event.filterChange (FilterChange.years [some "2020"]),
      Event.filterChange (FilterChange.years [])]).state.activeFilters = emptyFilters ∧
    hasActiveFilters (run mounted [Event.reloadSuccess twoRows,
      Event.filterChange (FilterChange.years [some "2020"]),
      Event.filterChange (FilterChange.years [])]).state.activeFilters = false ∧
    (handleRefresh (run mounted [Event.reloadSuccess twoRows]).state).filterHistory =
      idleHistory := by
  decide

/-! ## The empty data set -/

/-- C21: on the empty data set `getStatistics` does not throw, and the number of
vehicles is 0, but the other values are not the 0 of the claim: the average and
the median range are NaN (the quotient 0 / 0 and the sum of two absent
elements), the least range and the oldest year are Infinity and the greatest
range and the newest year -Infinity (`Math.min` and `Math.max` of no argument),
whatever the conversion of the years. -/
theorem getStatistics_empty :
    (getStatistics []).totalVehicles = 0 ∧
    (getStatistics []).averageRange = Num.nan ∧
    (getStatistics []).medianRange = Num.nan ∧
    (getStatistics []).minRange = Num.posInf ∧
    (getStatistics []).maxRange = Num.negInf ∧
    (∀ toNumber : Value → Num, yearRange toNumber [] = (Num.posInf, Num.negInf)) ∧
    (getStatistics []).averageRange ≠ Num.int 0 ∧
    (getStatistics []).medianRange ≠ Num.int 0 ∧
    (getStatistics []).minRange ≠ Num.int 0 ∧
    (getStatistics []).maxRange ≠ Num.int 0 ∧
    (yearRange (fun v => Num.ofParse (parseInt v)) []).1 ≠ Num.int 0 ∧
    (yearRange (fun v => Num.ofParse (parseInt v)) []).2 ≠ Num.int 0 :=
  ⟨by decide, by decide, by decide, by decide, by decide, fun _ => rfl, by decide, by decide,
    by decide, by decide, by decide, by decide⟩

/-! ## The views of the time series -/

theorem lastElement_of_ne_nil {α : Type} (xs : List α) (h : xs ≠ []) :
    (lastElement xs).isSome = true := by
  have hpos : 0 < xs.length := List.length_pos.2 h
  have hidx : ((xs.length : Int) - 1) = ((xs.length - 1 : Nat) : Int) := by omega
  rw [lastElement, hidx, elementAt_cast, List.getElem?_eq_getElem (by omega)]
  rfl

theorem yearlyData_ne_nil (r : Record) (evData : List Record) : yearlyData (r :: evData) ≠ [] := by
  intro h
  have hmem := ((yearlyData_groups (r :: evData)).mem_keys
    (numberKey (parseIntOrZero (r.get "Model Year")))).2
    (List.mem_map.2 ⟨r, List.mem_cons_self _ _, rfl⟩)
  rw [h] at hmem
  simp at hmem

theorem rangeEvolution_ne_nil (r : Record) (evData : List Record) :
    rangeEvolution (r :: evData) ≠ [] := by
  intro h
  have hlen := (arraySort_perm
    (fun a b : RangePoint => compareOrder ((keyNumber a.year).sub (keyNumber b.year)))
    ((yearlyData (r :: evData)).map (fun e =>
      RangePoint.mk e.1 (divRound (Num.int e.2.totalRange) e.2.total) e.2.models.length
        (middleRange e.2.ranges) e.2.total))).length_eq
  have h0 : (rangeEvolution (r :: evData)).length = 0 := by rw [h]; rfl
  rw [List.length_map] at hlen
  have : (yearlyData (r :: evData)).length = 0 := by
    rw [← hlen]
    exact h0
  exact yearlyData_ne_nil r evData (List.length_eq_zero.1 this)

theorem growthRates_ne_nil (r : Record) (evData : List Record) :
    growthRates (r :: evData) ≠ [] := by
  intro h
  have h0 : (growthRates (r :: evData)).length = 0 := by rw [h]; rfl
  rw [growthRates_eq, List.length_map, List.enum_length] at h0
  have hlen := (arraySort_perm defaultCompare
    ((yearlyData (r :: evData)).map Prod.fst)).length_eq
  rw [List.length_map] at hlen
  have : (yearlyData (r :: evData)).length = 0 := by
    rw [← hlen]
    exact h0
  exact yearlyData_ne_nil r evData (List.length_eq_zero.1 this)

/-- C22: on the empty data set the two series are empty, the element at the index
`length - 1` (and at the index 0) is `undefined`, and the four views fail on
reading a property of it; on a data set with a record the elements exist and the
four views are defined. -/
theorem views_of_empty_series :
    growthRates [] = [] ∧ rangeEvolution [] = [] ∧
    latestGrowth [] = none ∧ latestAverageRange [] = none ∧ totalModels [] = none ∧
    rangeImprovementOperands [] = none ∧
    ∀ (r : Record) (evData : List Record),
      (latestGrowth (r :: evData)).isSome = true ∧
      (latestAverageRange (r :: evData)).isSome = true ∧
      (totalModels (r :: evData)).isSome = true ∧
      (rangeImprovementOperands (r :: evData)).isSome = true := by
  refine ⟨by decide, by decide, by decide, by decide, by decide, by decide, ?_⟩
  intro r evData
  have hg := lastElement_of_ne_nil _ (growthRates_ne_nil r evData)
  have hr := lastElement_of_ne_nil _ (rangeEvolution_ne_nil r evData)
  have hfirst : (elementAt (rangeEvolution (r :: evData)) 0).isSome = true := by
    have hpos : 0 < (rangeEvolution (r :: evData)).length :=
      List.length_pos.2 (rangeEvolution_ne_nil r evData)
    have := elementAt_cast (rangeEvolution (r :: evData)) 0
    simp only [Nat.cast_zero] at this
    rw [this, List.getElem?_eq_getElem hpos]
    rfl
  refine ⟨?_, ?_, ?_, ?_⟩
  · simpa [latestGrowth] using hg
  · simpa [latestAverageRange] using hr
  · simpa [totalModels] using hr
  · unfold rangeImprovementOperands
    obtain ⟨first, hf⟩ := Option.isSome_iff_exists.1 hfirst
    obtain ⟨last, hl⟩ := Option.isSome_iff_exists.1 hr
    rw [hf, hl]
    rfl

/-! ## Bounds of the summary statistics -/

theorem foldl_statsStep_totalRange (rows : List Record) (acc : StatsAcc) :
    (rows.foldl statsStep acc).totalRange =
      rows.foldl (fun t r => t.add (Num.ofParse (parseInt (r.get "Electric Range"))))
        acc.totalRange := by
  induction rows generalizing acc with
  | nil => rfl
  | cons r rows ih =>
    rw [List.foldl_cons, ih]
    rfl

theorem statsOf_totalRange (evData : List Record) :
    (statsOf evData).totalRange = sumRanges evData := by
  simp only [statsOf, foldl_statsStep_totalRange]
  rfl

/-- The least of a list of integers, as `Math.min` finds it from a first value. -/
theorem foldl_min_int (l : List Int) (a : Int) :
    ∃ m, (l.map Num.int).foldl Num.min (Num.int a) = Num.int m ∧ m ∈ a :: l ∧
      ∀ x ∈ a :: l, m ≤ x := by
  induction l generalizing a with
  | nil => exact ⟨a, rfl, List.mem_cons_self _ _, by simp⟩
  | cons b l ih =>
    obtain ⟨m, hm, hmem, hle⟩ := ih (if a ≤ b then a else b)
    refine ⟨m, hm, ?_, ?_⟩
    · rcases List.mem_cons.1 hmem with h | h
      · rw [h]
        split
        · exact List.mem_cons_self _ _
        · exact List.mem_cons_of_mem _ (List.mem_cons_self _ _)
      · exact List.mem_cons_of_mem _ (List.mem_cons_of_mem _ h)
    · intro x hx
      have h0 := hle _ (List.mem_cons_self _ _)
      rcases List.mem_cons.1 hx with h | h
      · rw [h]
        split at h0 <;> omega
      · rcases List.mem_cons.1 h with h | h
        · rw [h]
          split at h0 <;> omega
        · exact hle x (List.mem_cons_of_mem _ h)

/-- The greatest of a list of integers, as `Math.max` finds it from a first
value. -/
theorem foldl_max_int (l : List Int) (a : Int) :
    ∃ m, (l.map Num.int).foldl Num.max (Num.int a) = Num.int m ∧ m ∈ a :: l ∧
      ∀ x ∈ a :: l, x ≤ m := by
  induction l generalizing a with
  | nil => exact ⟨a, rfl, List.mem_cons_self _ _, by simp⟩
  | cons b l ih =>
    obtain ⟨m, hm, hmem, hle⟩ := ih (if a ≤ b then b else a)
    refine ⟨m, hm, ?_, ?_⟩
    · rcases List.mem_cons.1 hmem with h | h
      · rw [h]
        split
        · exact List.mem_cons_of_mem _ (List.mem_cons_self _ _)
        · exact List.mem_cons_self _ _
      · exact List.mem_cons_of_mem _ (List.mem_cons_of_mem _ h)
    · intro x hx
      have h0 := hle _ (List.mem_cons_self _ _)
      rcases List.mem_cons.1 hx with h | h
      · rw [h]
        split at h0 <;> omega
      · rcases List.mem_cons.1 h with h | h
        · rw [h]
          split at h0 <;> omega
        · exact hle x (List.mem_cons_of_mem _ h)

theorem mathMin_int (l : List Int) (hne : l ≠ []) :
    ∃ m, mathMin (l.map Num.int) = Num.int m ∧ m ∈ l ∧ ∀ x ∈ l, m ≤ x := by
  cases l with
  | nil => exact absurd rfl hne
  | cons a l => exact foldl_min_int l a

theorem mathMax_int (l : List Int) (hne : l ≠ []) :
    ∃ m, mathMax (l.map Num.int) = Num.int m ∧ m ∈ l ∧ ∀ x ∈ l, x ≤ m := by
  cases l with
  | nil => exact absurd rfl hne
  | cons a l => exact foldl_max_int l a

theorem sum_bounds (l : List Int) (lo hi : Int) (h : ∀ x ∈ l, lo ≤ x ∧ x ≤ hi) :
    lo * l.length ≤ l.sum ∧ l.sum ≤ hi * l.length := by
  induction l with
  | nil => simp
  | cons a l ih =>
    obtain ⟨h1, h2⟩ := ih (fun x hx => h x (List.mem_cons_of_mem _ hx))
    obtain ⟨ha1, ha2⟩ := h a (List.mem_cons_self _ _)
    simp only [List.sum_cons, List.length_cons]
    push_cast
    constructor <;> linarith

/-- A quotient rounded to the nearest integer lies between integer bounds of the
quotient. -/
theorem roundHalfUp_bounds (t : Int) (c : Nat) (lo hi : Int) (hc : 0 < c)
    (hlo : lo * c ≤ t) (hhi : t ≤ hi * c) :
    lo ≤ roundHalfUp t c ∧ roundHalfUp t c ≤ hi := by
  have hcz : (0 : Int) < 2 * c := by omega
  unfold roundHalfUp
  constructor
  · rw [Int.le_ediv_iff_mul_le hcz]
    have hc0 : (0 : Int) ≤ c := by omega
    linarith
  · have : (2 * t + (c : Int)) / (2 * c) < hi + 1 := by
      rw [Int.ediv_lt_iff_lt_mul hcz]
      have hc0 : (0 : Int) < c := by omega
      linarith
    omega

theorem pair_le_sum (l : List Nat) (i j : Nat) (hij : i < j) (hj : j < l.length) :
    l[i] + l[j] ≤ l.sum := by
  induction l generalizing i j with
  | nil => simp at hj
  | cons a l ih =>
    cases j with
    | zero => omega
    | succ j =>
      have hj2 : j < l.length := by simpa using hj
      cases i with
      | zero =>
        simp only [List.getElem_cons_zero, List.getElem_cons_succ, List.sum_cons]
        have := List.single_le_sum (fun x _ => Nat.zero_le x) _ (List.getElem_mem hj2)
        omega
      | succ i =>
        simp only [List.getElem_cons_succ, List.sum_cons]
        have := ih i j (by omega) hj2
        omega

theorem single_le_mass (l : List Int) (x : Int) (hx : x ∈ l) :
    x.natAbs ≤ (l.map Int.natAbs).sum :=
  List.single_le_sum (fun x _ => Nat.zero_le x) _ (List.mem_map_of_mem _ hx)

/-- The median of sorted integers of moderate size is an integer between any
bounds of the list. -/
theorem medianOfSorted_bounds (sorted : List Int) (hne : sorted ≠ [])
    (hsmall : (sorted.map Int.natAbs).sum < 2 ^ 52) :
    ∃ med, medianOfSorted (sorted.map Num.int) = Num.int med ∧
      ∀ lo hi, (∀ x ∈ sorted, lo ≤ x ∧ x ≤ hi) → lo ≤ med ∧ med ≤ hi := by
  have hpos : 0 < sorted.length := List.length_pos.2 hne
  by_cases hodd : sorted.length % 2 = 0
  · have hlt : sorted.length / 2 < sorted.length := by omega
    have hlt1 : sorted.length / 2 - 1 < sorted.length := by omega
    have hidx : ((sorted.length : Int) / 2) = ((sorted.length / 2 : Nat) : Int) := by omega
    have hidx1 : ((sorted.length : Int) / 2 - 1) = ((sorted.length / 2 - 1 : Nat) : Int) := by
      omega
    have hpair := pair_le_sum (sorted.map Int.natAbs) (sorted.length / 2 - 1)
      (sorted.length / 2) (by omega) (by rw [List.length_map]; exact hlt)
    simp only [List.getElem_map] at hpair
    have habs := Int.natAbs_add_le sorted[sorted.length / 2 - 1] sorted[sorted.length / 2]
    refine ⟨roundHalfUp (sorted[sorted.length / 2 - 1] + sorted[sorted.length / 2]) 2, ?_, ?_⟩
    · simp only [medianOfSorted, List.length_map]
      rw [if_pos hodd, hidx1, hidx, elementAt_cast, elementAt_cast, List.getElem?_map,
        List.getElem?_map, List.getElem?_eq_getElem hlt, List.getElem?_eq_getElem hlt1]
      simp only [Option.map_some', addElements, Num.add]
      exact divRound_two _ (by omega)
    · intro lo hi hall
      obtain ⟨h1, h2⟩ := hall _ (List.getElem_mem hlt1)
      obtain ⟨h3, h4⟩ := hall _ (List.getElem_mem hlt)
      apply roundHalfUp_bounds _ 2 lo hi (by decide)
      · push_cast
        omega
      · push_cast
        omega
  · have hlt : sorted.length / 2 < sorted.length := by omega
    have hidx : ((sorted.length : Int) / 2) = ((sorted.length / 2 : Nat) : Int) := by omega
    refine ⟨sorted[sorted.length / 2], ?_, ?_⟩
    · simp only [medianOfSorted, List.length_map]
      rw [if_neg hodd, hidx, elementAt_cast, List.getElem?_map, List.getElem?_eq_getElem hlt]
      rfl
    · intro lo hi hall
      exact hall _ (List.getElem_mem hlt)

/-- C30: for a non-empty data set whose Electric Range values all parse (and are
of moderate size, their absolute values adding up to less than 2^52) the least,
median, average and greatest range of the summary statistics are integers with
least <= median <= greatest and least <= average <= greatest; the least and the
greatest range are the range of some record; and the number of vehicles is the
number of records. -/
theorem getStatistics_bounds (evData : List Record) (hne : evData ≠ [])
    (hparse : ∀ r ∈ evData, parseInt (r.get "Electric Range") ≠ none)
    (hsmall : rangeMass evData < 2 ^ 52) :
    ∃ lo med avg hi : Int,
      (getStatistics evData).minRange = Num.int lo ∧
      (getStatistics evData).medianRange = Num.int med ∧
      (getStatistics evData).averageRange = Num.int avg ∧
      (getStatistics evData).maxRange = Num.int hi ∧
      lo ≤ med ∧ med ≤ hi ∧ lo ≤ avg ∧ avg ≤ hi ∧
      (∃ r ∈ evData, parseInt (r.get "Electric Range") = some lo) ∧
      (∃ r ∈ evData, parseInt (r.get "Electric Range") = some hi) ∧
      (getStatistics evData).totalVehicles = evData.length := by
  have hperm := arraySort_perm (fun a b : Int => a - b)
    (evData.map (fun r => parseIntOrZero (r.get "Electric Range")))
  have hranges := statsOf_ranges_parsed evData hparse
  have htotal := statsOf_totalRange evData
  rw [sumRanges_parsed evData hparse] at htotal
  have hmin : (getStatistics evData).minRange = mathMin (statsOf evData).ranges := rfl
  have hmax : (getStatistics evData).maxRange = mathMax (statsOf evData).ranges := rfl
  have hmed : (getStatistics evData).medianRange = medianOfSorted (statsOf evData).ranges := rfl
  have havg : (getStatistics evData).averageRange =
      divRound (statsOf evData).totalRange (statsOf evData).ranges.length := rfl
  have hcount : (getStatistics evData).totalVehicles = (statsOf evData).ranges.length := rfl
  rw [hmin, hmax, hmed, havg, hcount, hranges, htotal, List.length_map]
  generalize arraySort (fun a b : Int => a - b)
    (evData.map (fun r => parseIntOrZero (r.get "Electric Range"))) = sorted at hperm
  have hlen : sorted.length = evData.length := by
    rw [hperm.length_eq, List.length_map]
  have hpos : 0 < evData.length := List.length_pos.2 hne
  have hsne : sorted ≠ [] := by
    intro h
    rw [h] at hlen
    simp at hlen
    omega
  have hmass : (sorted.map Int.natAbs).sum < 2 ^ 52 := by
    rw [(hperm.map _).sum_eq, List.map_map]
    exact hsmall
  have hsum : sorted.sum = totalOfRanges evData := by
    rw [hperm.sum_eq]
    rfl
  obtain ⟨lo, hlo, hlomem, hlole⟩ := mathMin_int sorted hsne
  obtain ⟨hi, hhi, hhimem, hhile⟩ := mathMax_int sorted hsne
  obtain ⟨med, hmedian, hmedb⟩ := medianOfSorted_bounds sorted hsne hmass
  have hall : ∀ x ∈ sorted, lo ≤ x ∧ x ≤ hi := fun x hx => ⟨hlole x hx, hhile x hx⟩
  obtain ⟨hs1, hs2⟩ := sum_bounds sorted lo hi hall
  rw [hsum, hlen] at hs1 hs2
  have htot : (totalOfRanges evData).natAbs < 2 ^ 52 :=
    lt_of_le_of_lt (natAbs_totalOfRanges_le evData) hsmall
  have hrecord : ∀ x ∈ sorted, ∃ r ∈ evData, parseInt (r.get "Electric Range") = some x := by
    intro x hx
    obtain ⟨r, hr, hrx⟩ := List.mem_map.1 (hperm.mem_iff.1 hx)
    obtain ⟨n, hn⟩ := Option.ne_none_iff_exists'.1 (hparse r hr)
    refine ⟨r, hr, ?_⟩
    rw [← hrx, parseIntOrZero, hn]
    rfl
  obtain ⟨hb1, hb2⟩ := roundHalfUp_bounds (totalOfRanges evData) evData.length lo hi hpos hs1 hs2
  refine ⟨lo, med, roundHalfUp (totalOfRanges evData) evData.length, hi, hlo, hmedian, ?_, hhi,
    (hmedb lo hi hall).1, (hmedb lo hi hall).2, hb1, hb2, hrecord lo hlomem, hrecord hi hhimem,
    hlen⟩
  rw [hlen]
  exact divRound_int _ _ hpos htot

theorem getStatistics_bounds_witness :
    evolutionRows.take 3 ≠ [] ∧
    (∀ r ∈ evolutionRows.take 3, parseInt (r.get "Electric Range") ≠ none) ∧
    rangeMass (evolutionRows.take 3) < 2 ^ 52 ∧
    ∃ lo med avg hi : Int,
      (getStatistics (evolutionRows.take 3)).minRange = Num.int lo ∧
      (getStatistics (evolutionRows.take 3)).medianRange = Num.int med ∧
      (getStatistics (evolutionRows.take 3)).averageRange = Num.int avg ∧
      (getStatistics (evolutionRows.take 3)).maxRange = Num.int hi ∧
      lo ≤ med ∧ med ≤ hi ∧ lo ≤ avg ∧ avg ≤ hi ∧
      (∃ r ∈ evolutionRows.take 3, parseInt (r.get "Electric Range") = some lo) ∧
      (∃ r ∈ evolutionRows.take 3, parseInt (r.get "Electric Range") = some hi) ∧
      (getStatistics (evolutionRows.take 3)).totalVehicles = (evolutionRows.take 3).length :=
  ⟨by decide, by decide, by decide,
    getStatistics_bounds (evolutionRows.take 3) (by decide) (by decide) (by decide)⟩

/-- The summary statistics of the ranges 200, 30 and 101. -/
theorem getStatistics_three_rows :
    (getStatistics (evolutionRows.take 3)).minRange = Num.int 30 ∧
    (getStatistics (evolutionRows.take 3)).medianRange = Num.int 101 ∧
    (getStatistics (evolutionRows.take 3)).averageRange = Num.int 110 ∧
    (getStatistics (evolutionRows.take 3)).maxRange = Num.int 200 ∧
    (getStatistics (evolutionRows.take 3)).totalVehicles = 3 := by
  decide

/-! ## The text search up to case -/

theorem ofNat_val (n : Nat) (h : n < 55296) : (Char.ofNat n).val.toNat = n := by
  have hvalid : n.isValidChar := Or.inl h
  simp only [Char.ofNat, dif_pos hvalid, Char.ofNatAux]
  rfl

theorem char_eq_of_toNat (c d : Char) (h : c.val.toNat = d.val.toNat) : c = d :=
  Char.eq_of_val_eq (UInt32.ext h)

theorem lowerChar_val (c : Char) :
    (lowerChar c).val.toNat =
      if (65 ≤ c.val.toNat ∧ c.val.toNat ≤ 90) ∨
          (192 ≤ c.val.toNat ∧ c.val.toNat ≤ 222 ∧ c.val.toNat ≠ 215) then c.val.toNat + 32
      else c.val.toNat := by
  unfold lowerChar
  split
  · rename_i h
    rw [ofNat_val _ (by omega)]
  · rfl

/-- Two characters have the same lower case exactly when they are the same up to
the case of a letter. -/
theorem lowerChar_eq_iff (c d : Char) : lowerChar c = lowerChar d ↔ SameLetter c d := by
  constructor
  · intro h
    have hv := congrArg (fun x : Char => x.val.toNat) h
    simp only [lowerChar_val] at hv
    unfold SameLetter CasePair
    by_cases hcd : c.val.toNat = d.val.toNat
    · exact Or.inl (char_eq_of_toNat c d hcd)
    · right
      split at hv <;> split at hv
      · omega
      · rename_i hc hd
        exact Or.inl ⟨hc, by omega⟩
      · rename_i hc hd
        exact Or.inr ⟨hd, by omega⟩
      · omega
  · rintro (h | h | h)
    · rw [h]
    · apply char_eq_of_toNat
      obtain ⟨hu, hl⟩ := h
      rw [lowerChar_val, lowerChar_val, if_pos hu, if_neg (by omega)]
      omega
    · apply char_eq_of_toNat
      obtain ⟨hu, hl⟩ := h
      rw [lowerChar_val, lowerChar_val, if_pos hu, if_neg (by omega)]
      omega

theorem map_eq_map_iff_forall₂ (block term : List Char) :
    block.map lowerChar = term.map lowerChar ↔ List.Forall₂ SameLetter block term := by
  induction block generalizing term with
  | nil =>
    cases term with
    | nil => simp
    | cons d t => simp
  | cons c b ih =>
    cases term with
    | nil => simp
    | cons d t =>
      simp only [List.map_cons, List.cons.injEq, List.forall₂_cons, lowerChar_eq_iff, ih]

theorem infix_map_iff (term value : List Char) :
    term.map lowerChar <:+: value.map lowerChar ↔
      ∃ block, block <:+: value ∧ block.map lowerChar = term.map lowerChar := by
  constructor
  · rintro ⟨p, q, h⟩
    obtain ⟨v12, v3, hv, h12, h3⟩ := List.map_eq_append_iff.1 h.symm
    obtain ⟨v1, v2, hv12, h1, h2⟩ := List.map_eq_append_iff.1 h12
    exact ⟨v2, ⟨v1, v3, by rw [hv, hv12]⟩, h2⟩
  · rintro ⟨block, ⟨p, q, h⟩, hb⟩
    refine ⟨p.map lowerChar, q.map lowerChar, ?_⟩
    rw [← h, List.map_append, List.map_append, hb]

/-- The text search of the filter: some cell has a block of characters that is
the search term up to the case of letters. -/
theorem matchesSearch_spec (vehicle : Record) (searchTerm : String) :
    matchesSearch vehicle searchTerm = true ↔
      ∃ value ∈ objectValues vehicle, ContainsUpToCase value searchTerm := by
  rw [matchesSearch_iff]
  constructor
  · rintro ⟨value, hv, h⟩
    refine ⟨value, hv, ?_⟩
    obtain ⟨block, hb, hmap⟩ := (infix_map_iff searchTerm.data value.data).1 h
    exact ⟨block, hb, (map_eq_map_iff_forall₂ block searchTerm.data).1 hmap⟩
  · rintro ⟨value, hv, block, hb, hsame⟩
    refine ⟨value, hv, ?_⟩
    exact (infix_map_iff searchTerm.data value.data).2
      ⟨block, hb, (map_eq_map_iff_forall₂ block searchTerm.data).2 hsame⟩

/-! ## `parseInt` on decimal numerals -/

theorem isDigit_iff (c : Char) : isDigit c = true ↔ 48 ≤ c.val.toNat ∧ c.val.toNat ≤ 57 := by
  simp [isDigit]

theorem digit_not_space (c : Char) (h : isDigit c = true) : isWhiteSpace c = false := by
  rw [isDigit_iff] at h
  simp only [isWhiteSpace, Bool.or_eq_false_iff, beq_eq_false_iff_ne, ne_eq, Bool.and_eq_false_imp,
    decide_eq_true_eq, decide_eq_false_iff_not]
  omega

theorem digitValue_digit (c : Char) (h : isDigit c = true) :
    digitValue c = some (c.val.toNat - 48) := by
  rw [isDigit_iff] at h
  simp only [digitValue, if_pos h]

theorem takeDigits_digits (l : List Char) (h : ∀ c ∈ l, isDigit c = true) :
    takeDigits 10 l = l.map (fun c => c.val.toNat - 48) := by
  induction l with
  | nil => rfl
  | cons c t ih =>
    have hc := h c (List.mem_cons_self _ _)
    have hlt : c.val.toNat - 48 < 10 := by
      rw [isDigit_iff] at hc
      omega
    simp only [takeDigits, digitValue_digit c hc, if_pos hlt, List.map_cons,
      ih (fun x hx => h x (List.mem_cons_of_mem _ hx))]

theorem digitsValue_digits (l : List Char) :
    digitsValue 10 (l.map (fun c => c.val.toNat - 48)) = parseDigits l := by
  unfold digitsValue parseDigits
  rw [List.foldl_map]

/-- The value that `parseInt` reads from the characters behind the sign. -/
theorem parseInt_unsigned (l : List Char) (hne : l ≠ []) (hdig : ∀ c ∈ l, isDigit c = true)
    (hsmall : parseDigits l < 2 ^ 53) :
    parseInt (some ⟨l⟩) = some (parseDigits l : Int) ∧
      parseInt (some ⟨'-' :: l⟩) = some (-(parseDigits l : Int)) := by
  cases l with
  | nil => exact absurd rfl hne
  | cons c t =>
    have hc := hdig c (List.mem_cons_self _ _)
    have hspace := digit_not_space c hc
    have hminus : c ≠ '-' := by
      rintro rfl
      exact absurd hc (by decide)
    have hplus : c ≠ '+' := by
      rintro rfl
      exact absurd hc (by decide)
    have hx : ∀ d rest, t = d :: rest → d ≠ 'x' ∧ d ≠ 'X' := by
      intro d rest ht
      have hd := hdig d (by rw [ht]; simp)
      constructor
      · rintro rfl
        exact absurd hd (by decide)
      · rintro rfl
        exact absurd hd (by decide)
    have hx1 : ∀ r, t ≠ 'x' :: r := fun r h => (hx 'x' r h).1 rfl
    have hx2 : ∀ r, t ≠ 'X' :: r := fun r h => (hx 'X' r h).2 rfl
    have htake := takeDigits_digits (c :: t) hdig
    have hval' := digitsValue_digits (c :: t)
    simp only [List.map_cons] at hval'
    have hnear : nearestDouble (parseDigits (c :: t)) = parseDigits (c :: t) := by
      simp only [nearestDouble, if_pos hsmall]
    have hds : List.map (fun c => c.val.toNat - 48) (c :: t) ≠ [] := by simp
    constructor
    · have hdrop : (c :: t).dropWhile isWhiteSpace = c :: t := by
        simp [List.dropWhile, hspace]
      simp only [parseInt, hdrop]
      simp [hminus, hplus, hx1, hx2, htake]
      rw [hval', hnear]
    · have hdrop : ('-' :: c :: t).dropWhile isWhiteSpace = '-' :: c :: t := by
        have : isWhiteSpace '-' = false := by decide
        simp [List.dropWhile, this]
      simp only [parseInt, hdrop]
      simp [hx1, hx2, htake]
      rw [hval', hnear]

/-- The numeral of an integer below `2^53` in size parses to that integer. -/
theorem parseInt_numberKey (n : Int) (hsmall : n.natAbs < 2 ^ 53) :
    parseInt (some (numberKey n)) = some n := by
  obtain ⟨l, hl, hne, hdig, _, hvalue, _⟩ := repr_spec n.natAbs
  have hp := parseInt_unsigned l hne hdig (by rw [hvalue]; exact hsmall)
  rw [hvalue] at hp
  unfold numberKey
  split
  · rename_i hneg
    have hs : "-" ++ Nat.repr n.natAbs = ⟨'-' :: l⟩ := by
      apply String.ext
      simp [String.data_append, hl]
    rw [hs, hp.2]
    congr 1
    omega
  · rename_i hneg
    have hs : Nat.repr n.natAbs = ⟨l⟩ := by
      apply String.ext
      simp [hl]
    rw [hs, hp.1]
    congr 1
    omega

theorem parseIntOrZero_numberKey (n : Int) (hsmall : n.natAbs < 2 ^ 53) :
    parseIntOrZero (some (numberKey n)) = n := by
  rw [parseIntOrZero, parseInt_numberKey n hsmall]
  rfl

/-! ## The filter on one record -/

theorem doubleLimit_eq : doubleLimit = 2 ^ 1024 := by
  unfold doubleLimit
  rw [← pow_add, ← pow_add, ← pow_add]

theorem containsUpToCase_iff (value term : String) :
    ContainsUpToCase value term ↔ includes (toLowerCase value) (toLowerCase term) = true := by
  rw [includes_iff]
  constructor
  · rintro ⟨block, hb, hsame⟩
    exact (infix_map_iff term.data value.data).2
      ⟨block, hb, (map_eq_map_iff_forall₂ block term.data).2 hsame⟩
  · intro h
    obtain ⟨block, hb, hmap⟩ := (infix_map_iff term.data value.data).1 h
    exact ⟨block, hb, (map_eq_map_iff_forall₂ block term.data).1 hmap⟩

/-- C1: for a search term and cells of characters below U+0100 and range numbers
that are finite, a record is in the filtered view exactly when it is a record
of the data set and passes the four checks and the range check: some cell
contains the search term up to the case of letters, which is what the code
tests on the two lower-cased strings; each of the criteria lists for Make,
Model Year and Electric Vehicle Type is empty or contains the record's field;
and the parsed Electric Range (0 when it does not parse) is within the bounds
that are set. Of a row of Make CITROËN and range 50 and a row of Make TESLA and
range 300, the term citroën finds the first and Esl the second, the least range
51 and the Make TESLA keep the second, the ranges 50 to 299 keep the first and
the model year 2020 keeps none. -/
theorem filteredData_mem_iff (evData : List Record) (searchTerm : String)
    (activeFilters : ActiveFilters) (vehicle : Record)
    (hterm : isLatin1 searchTerm = true)
    (hcells : ∀ value ∈ objectValues vehicle, isLatin1 value = true)
    (hrange : finiteParse (vehicle.get "Electric Range") = true)
    (hmin : finiteParse (some activeFilters.range.min) = true)
    (hmax : finiteParse (some activeFilters.range.max) = true) :
    (vehicle ∈ filteredData evData searchTerm activeFilters ↔
      vehicle ∈ evData ∧
      (∃ value ∈ objectValues vehicle, ContainsUpToCase value searchTerm) ∧
      (activeFilters.makes = [] ∨ vehicle.get "Make" ∈ activeFilters.makes) ∧
      (activeFilters.years = [] ∨ vehicle.get "Model Year" ∈ activeFilters.years) ∧
      (activeFilters.types = [] ∨ vehicle.get "Electric Vehicle Type" ∈ activeFilters.types) ∧
      ((activeFilters.range.min = "" ∨
        ∃ lo, parseInt (some activeFilters.range.min) = some lo ∧
          lo ≤ parseIntOrZero (vehicle.get "Electric Range")) ∧
       (activeFilters.range.max = "" ∨
        ∃ hi, parseInt (some activeFilters.range.max) = some hi ∧
          parseIntOrZero (vehicle.get "Electric Range") ≤ hi))) ∧
    (∀ value ∈ objectValues vehicle,
      ContainsUpToCase value searchTerm ↔
        includes (toLowerCase value) (toLowerCase searchTerm) = true) ∧
    filteredData citroenRows "citroën" emptyFilters =
      [[("Make", "CITROËN"), ("Electric Range", "50")]] ∧
    filteredData citroenRows "Esl" emptyFilters =
      [[("Make", "TESLA"), ("Electric Range", "300")]] ∧
    filteredData citroenRows "" { emptyFilters with range := ⟨"51", ""⟩ } =
      [[("Make", "TESLA"), ("Electric Range", "300")]] ∧
    filteredData citroenRows "" { emptyFilters with range := ⟨"50", "299"⟩ } =
      [[("Make", "CITROËN"), ("Electric Range", "50")]] ∧
    filteredData citroenRows "" { emptyFilters with makes := [some "TESLA"] } =
      [[("Make", "TESLA"), ("Electric Range", "300")]] ∧
    filteredData citroenRows "" { emptyFilters with years := [some "2020"] } = [] := by
  have _ := hterm
  have _ := hcells
  have _ := hrange
  have _ := hmin
  have _ := hmax
  refine ⟨?_, fun value _ => containsUpToCase_iff value searchTerm, by decide, by decide,
    by decide, by decide, by decide, by decide⟩
  unfold filteredData
  rw [List.mem_filter]
  unfold matchesVehicle matchesMake matchesYear matchesType
  simp only [Bool.and_eq_true, matchesSearch_spec, matchesCategory_iff, matchesRange_iff,
    and_assoc]

theorem filteredData_mem_iff_witness :
    isLatin1 "citroën" = true ∧
    (∀ value ∈ objectValues [("Make", "CITROËN"), ("Electric Range", "50")],
      isLatin1 value = true) ∧
    finiteParse (Record.get [("Make", "CITROËN"), ("Electric Range", "50")] "Electric Range") =
      true ∧
    finiteParse (some emptyFilters.range.min) = true ∧
    finiteParse (some emptyFilters.range.max) = true ∧
    [("Make", "CITROËN"), ("Electric Range", "50")] ∈
      filteredData citroenRows "citroën" emptyFilters :=
  ⟨by decide, by decide, by decide, by decide, by decide,
    ((filteredData_mem_iff citroenRows "citroën" emptyFilters
      [("Make", "CITROËN"), ("Electric Range", "50")] (by decide) (by decide) (by decide)
      (by decide) (by decide)).1).2
      ⟨by decide,
        ⟨"CITROËN", by decide, ['C', 'I', 'T', 'R', 'O', 'Ë', 'N'], List.infix_refl _,
          by
            refine List.Forall₂.cons (Or.inr (Or.inl ⟨by decide, by decide⟩)) ?_
            refine List.Forall₂.cons (Or.inr (Or.inl ⟨by decide, by decide⟩)) ?_
            refine List.Forall₂.cons (Or.inr (Or.inl ⟨by decide, by decide⟩)) ?_
            refine List.Forall₂.cons (Or.inr (Or.inl ⟨by decide, by decide⟩)) ?_
            refine List.Forall₂.cons (Or.inr (Or.inl ⟨by decide, by decide⟩)) ?_
            refine List.Forall₂.cons (Or.inr (Or.inl ⟨by decide, by decide⟩)) ?_
            refine List.Forall₂.cons (Or.inr (Or.inl ⟨by decide, by decide⟩)) ?_
            exact List.Forall₂.nil⟩,
        Or.inl rfl, Or.inl rfl, Or.inl rfl, Or.inl rfl, Or.inl rfl⟩⟩

theorem numberKey_ne_empty (n : Int) : numberKey n ≠ "" := by
  obtain ⟨l, hl, hne, _⟩ := repr_spec n.natAbs
  intro h
  have hd := congrArg String.data h
  unfold numberKey at hd
  split at hd
  · simp [String.data_append] at hd
  · rw [hl] at hd
    exact hne hd

theorem get_single (key value : String) :
    Record.get [(key, value)] key = some value := by
  simp [Record.get]

/-- The range check on decimal numerals of integers below `2^53` in size. -/
theorem matchesRange_numerals (r lo hi : Int) (hr : r.natAbs < 2 ^ 53)
    (hlo : lo.natAbs < 2 ^ 53) (hhi : hi.natAbs < 2 ^ 53) :
    (matchesRange [("Electric Range", numberKey r)]
        { emptyFilters with range := ⟨numberKey lo, numberKey hi⟩ } = true ↔
      lo ≤ r ∧ r ≤ hi) ∧
    (matchesRange [("Electric Range", numberKey r)]
        { emptyFilters with range := ⟨numberKey lo, ""⟩ } = true ↔ lo ≤ r) ∧
    (matchesRange [("Electric Range", numberKey r)]
        { emptyFilters with range := ⟨"", numberKey hi⟩ } = true ↔ r ≤ hi) ∧
    (matchesRange [("Electric Range", "")]
        { emptyFilters with range := ⟨numberKey lo, numberKey hi⟩ } = true ↔
      lo ≤ 0 ∧ 0 ≤ hi) ∧
    (matchesRange []
        { emptyFilters with range := ⟨numberKey lo, numberKey hi⟩ } = true ↔
      lo ≤ 0 ∧ 0 ≤ hi) := by
  have hblank : parseIntOrZero (Record.get [("Electric Range", "")] "Electric Range") = 0 := by
    decide
  have hnone : parseIntOrZero (Record.get [] "Electric Range") = 0 := by decide
  have hblank2 : parseIntOrZero (some "") = 0 := by decide
  have hnone2 : parseIntOrZero none = 0 := by decide
  refine ⟨?_, ?_, ?_, ?_, ?_⟩ <;>
    simp [matchesRange_iff, emptyFilters, get_single, parseIntOrZero_numberKey r hr,
      parseInt_numberKey lo hlo, parseInt_numberKey hi hhi, numberKey_ne_empty, hblank, hnone, hblank2, hnone2]

/-- C4: with range numbers that are finite, the range check passes exactly when
(min is unset or r >= min) and (max is unset or r <= max), where r is the
record's Electric Range parsed as an integer, 0 when it does not parse, and a
bound is unset when its input is empty; a bound of 0 is a set bound. On decimal
numerals of integers below 2^53 in size the check is the comparison of the
integers written, an empty or absent range counting as 0. A record of range "0"
passes under min 0, max 0 and fails under min 1; a record of range "5" fails
under min 0, max 0. -/
theorem matchesRange_spec (vehicle : Record) (activeFilters : ActiveFilters)
    (hrange : finiteParse (vehicle.get "Electric Range") = true)
    (hmin : finiteParse (some activeFilters.range.min) = true)
    (hmax : finiteParse (some activeFilters.range.max) = true) :
    (matchesRange vehicle activeFilters = true ↔
      (activeFilters.range.min = "" ∨
        ∃ lo, parseInt (some activeFilters.range.min) = some lo ∧
          lo ≤ parseIntOrZero (vehicle.get "Electric Range")) ∧
      (activeFilters.range.max = "" ∨
        ∃ hi, parseInt (some activeFilters.range.max) = some hi ∧
          parseIntOrZero (vehicle.get "Electric Range") ≤ hi)) ∧
    (parseInt (vehicle.get "Electric Range") = none →
      parseIntOrZero (vehicle.get "Electric Range") = 0) ∧
    (∀ r : Int, parseInt (vehicle.get "Electric Range") = some r →
      parseIntOrZero (vehicle.get "Electric Range") = r) ∧
    (∀ r lo hi : Int, r.natAbs < 2 ^ 53 → lo.natAbs < 2 ^ 53 → hi.natAbs < 2 ^ 53 →
      (matchesRange [("Electric Range", numberKey r)]
          { emptyFilters with range := ⟨numberKey lo, numberKey hi⟩ } = true ↔
        lo ≤ r ∧ r ≤ hi) ∧
      (matchesRange [("Electric Range", numberKey r)]
          { emptyFilters with range := ⟨numberKey lo, ""⟩ } = true ↔ lo ≤ r) ∧
      (matchesRange [("Electric Range", numberKey r)]
          { emptyFilters with range := ⟨"", numberKey hi⟩ } = true ↔ r ≤ hi) ∧
      (matchesRange [("Electric Range", "")]
          { emptyFilters with range := ⟨numberKey lo, numberKey hi⟩ } = true ↔
        lo ≤ 0 ∧ 0 ≤ hi) ∧
      (matchesRange []
          { emptyFilters with range := ⟨numberKey lo, numberKey hi⟩ } = true ↔
        lo ≤ 0 ∧ 0 ≤ hi)) ∧
    parseInt (some "9007199254740993") = some 9007199254740992 ∧
    matchesRange [("Electric Range", "0")] { emptyFilters with range := ⟨"0", "0"⟩ } = true ∧
    matchesRange [("Electric Range", "0")] { emptyFilters with range := ⟨"1", ""⟩ } = false ∧
    matchesRange [("Electric Range", "5")] { emptyFilters with range := ⟨"0", "0"⟩ } = false := by
  have _ := hrange
  have _ := hmin
  have _ := hmax
  refine ⟨matchesRange_iff vehicle activeFilters, ?_, ?_, matchesRange_numerals, by decide,
    by decide, by decide, by decide⟩
  · intro h
    simp [parseIntOrZero, h]
  · intro r h
    simp [parseIntOrZero, h]

theorem matchesRange_spec_witness :
    finiteParse (Record.get [("Electric Range", "0")] "Electric Range") = true ∧
    finiteParse (some "0") = true ∧ finiteParse (some "1") = true ∧
    matchesRange [("Electric Range", "0")] { emptyFilters with range := ⟨"0", "1"⟩ } = true :=
  ⟨by decide, by decide, by decide,
    ((matchesRange_spec [("Electric Range", "0")] { emptyFilters with range := ⟨"0", "1"⟩ }
      (by decide) (by decide) (by decide)).1).2
      ⟨Or.inr ⟨0, by decide, by decide⟩, Or.inr ⟨1, by decide, by decide⟩⟩⟩

/-! ## Groups of records by a field -/

theorem sameGroup_eq (v w : Value) : sameGroup v w = (propertyKey v == propertyKey w) := by
  cases v with
  | none =>
    cases w with
    | none => rfl
    | some b =>
      show (b == "undefined") = ("undefined" == b)
      rw [Bool.eq_iff_iff, beq_iff_eq, beq_iff_eq]
      exact eq_comm
  | some a =>
    cases w with
    | none => rfl
    | some b => rfl

theorem sameGroup_iff (v w : Value) : sameGroup v w = true ↔ propertyKey v = propertyKey w := by
  rw [sameGroup_eq, beq_iff_eq]

theorem sameGroup_false_iff (v w : Value) :
    sameGroup v w = false ↔ propertyKey v ≠ propertyKey w := by
  rw [Ne, ← sameGroup_iff]
  simp

theorem recordsOf_county (v : Value) (evData : List Record) :
    recordsOf "County" v evData = countyRows (propertyKey v) evData := by
  unfold recordsOf countyRows
  congr 1
  funext r
  exact sameGroup_eq _ _

theorem recordsOf_make (v : Value) (evData : List Record) :
    recordsOf "Make" v evData = makeRows (propertyKey v) evData := by
  unfold recordsOf makeRows
  congr 1
  funext r
  exact sameGroup_eq _ _

theorem length_recordsOf_make (v : Value) (evData : List Record) :
    (recordsOf "Make" v evData).length = makeCount (propertyKey v) evData := by
  rw [recordsOf_make, makeCount_eq_length]
  rfl

theorem pwFilter_congr {α : Type} (R S : α → α → Prop) [DecidableRel R] [DecidableRel S]
    (h : ∀ a b, R a b ↔ S a b) (l : List α) : l.pwFilter R = l.pwFilter S := by
  induction l with
  | nil => rfl
  | cons a l ih =>
    by_cases hR : ∀ b ∈ l.pwFilter R, R a b
    · have hS : ∀ b ∈ l.pwFilter S, S a b := by
        rw [← ih]
        exact fun b hb => (h a b).1 (hR b hb)
      rw [List.pwFilter_cons_of_pos hR, List.pwFilter_cons_of_pos hS, ih]
    · have hS : ¬ ∀ b ∈ l.pwFilter S, S a b := by
        rw [← ih]
        exact fun hS => hR (fun b hb => (h a b).2 (hS b hb))
      rw [List.pwFilter_cons_of_neg hR, List.pwFilter_cons_of_neg hS, ih]

/-- The number of groups of a field is the number of distinct property keys. -/
theorem distinctValues_length (field : String) (evData : List Record) :
    (distinctValues field evData).length =
      (evData.map (fun r => propertyKey (r.get field))).dedup.length := by
  have hmap : evData.map (fun r => propertyKey (r.get field)) =
      (evData.map (fun r => r.get field)).map propertyKey := by
    rw [List.map_map]
    rfl
  rw [hmap, List.dedup, List.pwFilter_map, List.length_map]
  unfold distinctValues
  rw [pwFilter_congr _ (fun x y => propertyKey x ≠ propertyKey y) sameGroup_false_iff]

/-- C10: in a data set of fewer than 2^32 rows (the bound on the length of an
array) whose Makes are not names of inherited properties, every entry of the
manufacturer distribution has as value the number of records whose Make is its
name (the records without Make counting under the name "undefined"), and as
percentage the one-decimal numeral nearest to value / |D| * 100; a data set of
six "Tesla" and four "Nissan" records, in any order, gives exactly
[{Tesla, 6, "60.0"}, {Nissan, 4, "40.0"}]; and of three rows, one without Make,
one of Make "undefined" and one of Make "KIA", the first two are counted
together. -/
theorem getMakeDistribution_entries (evData : List Record) (hlen : evData.length < 2 ^ 32)
    (hkeys : ∀ r ∈ evData, inheritedName (r.get "Make") = false) :
    (∀ e ∈ getMakeDistribution evData,
      e.value = (recordsOf "Make" (some e.name) evData).length ∧
      e.percentage = percentageOf e.value evData.length ∧
      ∃ n : Nat, e.percentage = decimal1 n ∧
        |(n : ℚ) / 10 - (e.value : ℚ) / evData.length * 100| ≤ 1 / 20) ∧
    (evData.length = 10 → (recordsOf "Make" (some "Tesla") evData).length = 6 →
      (recordsOf "Make" (some "Nissan") evData).length = 4 →
      getMakeDistribution evData =
        [{ name := "Tesla", value := 6, percentage := "60.0" },
          { name := "Nissan", value := 4, percentage := "40.0" }]) ∧
    getMakeDistribution unnamedRows =
      [{ name := "undefined", value := 2, percentage := "66.7" },
        { name := "KIA", value := 1, percentage := "33.3" }] := by
  have _ := hkeys
  refine ⟨?_, ?_, by decide⟩
  · intro e he
    obtain ⟨hpos, hvalue, hpct⟩ := getMakeDistribution_mem evData e he
    rw [length_recordsOf_make]
    refine ⟨hvalue, hpct, toFixedDigits (numberMul (numberDiv e.value evData.length) 100), ?_, ?_⟩
    · rw [hpct]
      rfl
    · apply toFixedDigits_percentage e.value evData.length hpos _ hlen
      rw [hvalue]
      exact List.countP_le_length _
  · intro hten htesla hnissan
    rw [length_recordsOf_make] at htesla hnissan
    unfold getMakeDistribution
    rw [hten]
    rcases distribution_tesla_nissan evData hten htesla hnissan with h | h
    · rw [h]
      decide
    · rw [h]
      decide

theorem getMakeDistribution_entries_witness :
    teslaNissan.length < 2 ^ 32 ∧
    (∀ r ∈ teslaNissan, inheritedName (r.get "Make") = false) ∧
    (recordsOf "Make" (some "Tesla") teslaNissan).length = 6 ∧
    (recordsOf "Make" (some "Nissan") teslaNissan).length = 4 ∧
    getMakeDistribution teslaNissan =
      [{ name := "Tesla", value := 6, percentage := "60.0" },
        { name := "Nissan", value := 4, percentage := "40.0" }] :=
  ⟨by decide, by decide, by decide, by decide,
    (getMakeDistribution_entries teslaNissan (by decide) (by decide)).2.1 (by decide)
      (by decide) (by decide)⟩

/-- C11: in a data set whose Makes are not names of inherited properties, the
manufacturer distribution is the ten groups with the highest counts: it has ten
entries, or as many as the data set has Makes when these are fewer; the names
of the entries are pairwise distinct; every entry counts the records of its
name, at least one; the counts do not increase along the list; a Make of the
data set that is not listed has a count that is at most every listed count; and
when the data set has at most ten distinct Makes all of them are listed. Of
eleven Makes, one of two records and ten of one record, the ten listed are the
Make of two records and the first nine of the others; a row without Make and a
row of Make "undefined" are one group of two. -/
theorem getMakeDistribution_top10 (evData : List Record)
    (hkeys : ∀ r ∈ evData, inheritedName (r.get "Make") = false) :
    (getMakeDistribution evData).length = min 10 (distinctValues "Make" evData).length ∧
    (getMakeDistribution evData).length ≤ 10 ∧
    ((getMakeDistribution evData).map (fun e => e.name)).Nodup ∧
    (∀ e ∈ getMakeDistribution evData,
      0 < e.value ∧ e.value = (recordsOf "Make" (some e.name) evData).length) ∧
    (getMakeDistribution evData).Pairwise (fun a b => b.value ≤ a.value) ∧
    (∀ r ∈ evData,
      (∀ e ∈ getMakeDistribution evData, sameGroup (r.get "Make") (some e.name) = false) →
      ∀ e ∈ getMakeDistribution evData,
        (recordsOf "Make" (r.get "Make") evData).length ≤ e.value) ∧
    ((distinctValues "Make" evData).length ≤ 10 →
      ∀ r ∈ evData, ∃ e ∈ getMakeDistribution evData,
        sameGroup (r.get "Make") (some e.name) = true) ∧
    (getMakeDistribution elevenMakes).map (fun e => (e.name, e.value)) =
      [("K", 2), ("A", 1), ("B", 1), ("C", 1), ("D", 1), ("E", 1), ("F", 1), ("G", 1),
        ("H", 1), ("I", 1)] ∧
    (getMakeDistribution unnamedRows).map (fun e => (e.name, e.value)) =
      [("undefined", 2), ("KIA", 1)] := by
  have _ := hkeys
  obtain ⟨sorted, hdist, hnames, hsorted, hentries⟩ := makeEntries_sorted evData
  have hnodup : (sorted.map (fun e => e.name)).Nodup :=
    hnames.nodup_iff.2 (distribution_counts evData).1
  have hlisted : ∀ r ∈ evData, ∃ e ∈ sorted, e.name = propertyKey (r.get "Make") := by
    intro r hr
    have hk : propertyKey (r.get "Make") ∈ sorted.map (fun e => e.name) := by
      rw [hnames.mem_iff, distribution_mem_keys]
      exact List.mem_map.2 ⟨r, hr, rfl⟩
    obtain ⟨e, he, hname⟩ := List.mem_map.1 hk
    exact ⟨e, he, hname⟩
  have hlength : sorted.length = (distinctValues "Make" evData).length := by
    have h1 := (hnames.trans (distribution_keys_perm evData)).length_eq
    rw [List.length_map] at h1
    rw [distinctValues_length]
    exact h1
  rw [hdist]
  refine ⟨?_, ?_, ?_, ?_, ?_, ?_, ?_, ?_, by decide⟩
  · rw [List.length_take, hlength]
  · rw [List.length_take]
    exact Nat.min_le_left _ _
  · exact List.Nodup.sublist ((List.take_sublist _ _).map _) hnodup
  · intro e he
    have hes := (List.take_sublist 10 sorted).subset he
    have hvalue := (hentries e hes).1
    have hname : e.name ∈ (evData.foldl countMake []).map Prod.fst :=
      hnames.mem_iff.1 (List.mem_map_of_mem _ hes)
    have hpos := (makeCount_pos_iff e.name evData).2
      ((distribution_mem_keys evData e.name).1 hname)
    rw [length_recordsOf_make]
    exact ⟨by rw [hvalue]; exact Nat.pos_of_ne_zero hpos, hvalue⟩
  · exact hsorted.sublist (List.take_sublist _ _)
  · intro r hr hmissing e he
    obtain ⟨ek, hek, hname⟩ := hlisted r hr
    have hsplit := hsorted
    rw [← List.take_append_drop 10 sorted, List.pairwise_append] at hsplit
    have hek' : ek ∈ sorted.take 10 ++ sorted.drop 10 := by
      rw [List.take_append_drop]
      exact hek
    rw [length_recordsOf_make]
    rcases List.mem_append.1 hek' with h | h
    · have := hmissing ek h
      rw [sameGroup_false_iff] at this
      exact absurd hname.symm this
    · have := hsplit.2.2 e he ek h
      rw [(hentries ek hek).1, hname] at this
      exact this
  · intro hten r hr
    have hlen : sorted.length ≤ 10 := by omega
    rw [List.take_of_length_le hlen]
    obtain ⟨e, he, hname⟩ := hlisted r hr
    exact ⟨e, he, (sameGroup_iff _ _).2 hname.symm⟩
  · decide

theorem getMakeDistribution_top10_witness :
    (∀ r ∈ elevenMakes, inheritedName (r.get "Make") = false) ∧
    (getMakeDistribution elevenMakes).length =
      min 10 (distinctValues "Make" elevenMakes).length :=
  ⟨by decide, (getMakeDistribution_top10 elevenMakes (by decide)).1⟩

/-- C13: in a data set whose Counties are not names of inherited properties, the
county distribution has one entry per distinct County of the data set and no
more (the records without County forming one group with those of the County
"undefined"): it has as many entries as there are Counties, no two entries are
of one County, and every record is of the County of some entry. The value of an
entry is the number of records of its County, at least one, so that the values
add up to the number of records; its uniqueMakes is the number of distinct
Makes among those records; and the values do not increase along the list. -/
theorem getCountyDistribution_groups (evData : List Record)
    (hkeys : ∀ r ∈ evData, inheritedName (r.get "County") = false) :
    (getCountyDistribution evData).length = (distinctValues "County" evData).length ∧
    (getCountyDistribution evData).Pairwise (fun a b => sameGroup a.name b.name = false) ∧
    (∀ r ∈ evData, ∃ e ∈ getCountyDistribution evData,
      sameGroup (r.get "County") e.name = true) ∧
    (∀ e ∈ getCountyDistribution evData,
      recordsOf "County" e.name evData ≠ [] ∧
      e.value = (recordsOf "County" e.name evData).length ∧
      e.uniqueMakes =
        ((recordsOf "County" e.name evData).map (fun r => r.get "Make")).dedup.length) ∧
    ((getCountyDistribution evData).map (fun e => e.value)).sum = evData.length ∧
    (getCountyDistribution evData).Pairwise (fun a b => b.value ≤ a.value) ∧
    getCountyDistribution unnamedRows =
      [{ name := none, value := 2, avgRange := Num.int 15, totalRange := Num.int 30,
         uniqueMakes := 2, percentage := "66.7" },
        { name := some "King", value := 1, avgRange := Num.int 30, totalRange := Num.int 30,
          uniqueMakes := 1, percentage := "33.3" }] := by
  have _ := hkeys
  have hperm := getCountyDistribution_keys evData
  refine ⟨?_, ?_, ?_, ?_, getCountyDistribution_sum evData, ?_, by decide⟩
  · have := hperm.length_eq
    rw [List.length_map] at this
    rw [distinctValues_length]
    exact this
  · have hnodup : ((getCountyDistribution evData).map (fun e => propertyKey e.name)).Nodup :=
      hperm.nodup_iff.2 (List.nodup_dedup _)
    rw [List.Nodup, List.pairwise_map] at hnodup
    exact hnodup.imp (fun {a b} h => (sameGroup_false_iff _ _).2 h)
  · intro r hr
    have hk : propertyKey (r.get "County") ∈
        (getCountyDistribution evData).map (fun e => propertyKey e.name) := by
      rw [hperm.mem_iff, List.mem_dedup]
      exact List.mem_map.2 ⟨r, hr, rfl⟩
    obtain ⟨e, he, hname⟩ := List.mem_map.1 hk
    exact ⟨e, he, (sameGroup_iff _ _).2 hname.symm⟩
  · intro e he
    have := getCountyDistribution_mem evData e he
    rw [recordsOf_county]
    exact ⟨this.1, this.2.1, this.2.2.2.2.1⟩
  · have := arraySort_descending (fun e : CountyEntry => (e.value : Int))
      ((evData.foldl countyStep []).map (fun e =>
        CountyEntry.mk e.2.name e.2.value e.2.avgRange e.2.totalRange e.2.uniqueMakes.length
          (percentageOf e.2.value evData.length)))
    exact this.imp (fun {a b} h => by exact_mod_cast h)

theorem getCountyDistribution_groups_witness :
    (∀ r ∈ unnamedRows, inheritedName (r.get "County") = false) ∧
    (getCountyDistribution unnamedRows).length = (distinctValues "County" unnamedRows).length ∧
    ((getCountyDistribution unnamedRows).map (fun e => e.value)).sum = unnamedRows.length :=
  ⟨by decide, (getCountyDistribution_groups unnamedRows (by decide)).1,
    (getCountyDistribution_groups unnamedRows (by decide)).2.2.2.2.1⟩

/-- C12, as the code has it: every percentage is rounded to one decimal on its
own, so for a non-empty data set of fewer than 2^32 records whose Makes and
Counties are not names of inherited properties the percentages of the
manufacturer distribution add up to at most 100 plus 0.05 for each of its
entries (at most 100.5), and those of the county distribution differ from 100
by at most 0.05 for each county. Two groups of two records and of one record
have the percentages 66.7 and 33.3. -/
theorem percentages_sum (evData : List Record) (hne : evData ≠ [])
    (hsize : evData.length < 2 ^ 32)
    (hmakes : ∀ r ∈ evData, inheritedName (r.get "Make") = false)
    (hcounties : ∀ r ∈ evData, inheritedName (r.get "County") = false) :
    ((getMakeDistribution evData).map (fun e => percentageValue e.percentage)).sum ≤
        100 + ((getMakeDistribution evData).length : ℚ) / 20 ∧
    (getMakeDistribution evData).length ≤ 10 ∧
    |((getCountyDistribution evData).map (fun e => percentageValue e.percentage)).sum - 100| ≤
        ((getCountyDistribution evData).length : ℚ) / 20 ∧
    (getMakeDistribution unnamedRows).map (fun e => e.percentage) = ["66.7", "33.3"] ∧
    (getCountyDistribution unnamedRows).map (fun e => e.percentage) = ["66.7", "33.3"] := by
  have _ := hmakes
  have _ := hcounties
  refine ⟨makeDistribution_percentages evData hsize, ?_,
    countyDistribution_percentages evData hne hsize, by decide, by decide⟩
  obtain ⟨sorted, htake, _⟩ := makeEntries_sorted evData
  rw [htake, List.length_take]
  exact Nat.min_le_left _ _

theorem percentages_sum_witness :
    sixRows ≠ [] ∧ sixRows.length < 2 ^ 32 ∧
    (∀ r ∈ sixRows, inheritedName (r.get "Make") = false) ∧
    (∀ r ∈ sixRows, inheritedName (r.get "County") = false) ∧
    ((getMakeDistribution sixRows).map (fun e => percentageValue e.percentage)).sum ≤
        100 + ((getMakeDistribution sixRows).length : ℚ) / 20 ∧
    (getMakeDistribution sixRows).length ≤ 10 ∧
    |((getCountyDistribution sixRows).map (fun e => percentageValue e.percentage)).sum - 100| ≤
        ((getCountyDistribution sixRows).length : ℚ) / 20 :=
  ⟨by decide, by decide, by decide, by decide,
    (percentages_sum sixRows (by decide) (by decide) (by decide) (by decide)).1,
    (percentages_sum sixRows (by decide) (by decide) (by decide) (by decide)).2.1,
    (percentages_sum sixRows (by decide) (by decide) (by decide) (by decide)).2.2.1⟩

/-- C14, as the code has it: when every Electric Range parses, the ranges are of
moderate size and the Counties are not names of inherited properties, the
average range of a county is the quotient of the total range by the number of
its records rounded to the nearest integer, a half upwards; the total range is
the exact sum over the records of the county. A row without County of range 10
and a row of the County "undefined" of range 20 are one county of total 30 and
average 15. -/
theorem getCountyDistribution_average (evData : List Record)
    (hparse : ∀ r ∈ evData, parseInt (r.get "Electric Range") ≠ none)
    (hsmall : rangeMass evData < 2 ^ 52)
    (hkeys : ∀ r ∈ evData, inheritedName (r.get "County") = false) :
    (getCountyDistribution unnamedRows).map (fun e => (e.name, e.totalRange, e.avgRange)) =
      [(none, Num.int 30, Num.int 15), (some "King", Num.int 30, Num.int 30)] ∧
    ∀ e ∈ getCountyDistribution evData,
      e.value = (recordsOf "County" e.name evData).length ∧
      e.totalRange = Num.int (totalOfRanges (recordsOf "County" e.name evData)) ∧
      e.avgRange = Num.int (roundHalfUp (totalOfRanges (recordsOf "County" e.name evData))
        e.value) ∧
      ((roundHalfUp (totalOfRanges (recordsOf "County" e.name evData)) e.value : Int) : ℚ)
          - 1 / 2 ≤
        (totalOfRanges (recordsOf "County" e.name evData) : ℚ) / e.value ∧
      (totalOfRanges (recordsOf "County" e.name evData) : ℚ) / e.value <
        ((roundHalfUp (totalOfRanges (recordsOf "County" e.name evData)) e.value : Int) : ℚ)
          + 1 / 2 := by
  have _ := hkeys
  refine ⟨by decide, ?_⟩
  intro e he
  rw [recordsOf_county]
  obtain ⟨h1, h2, h3, h4, _, _⟩ := getCountyDistribution_mem evData e he
  have hrows : ∀ r ∈ countyRows (propertyKey e.name) evData,
      parseInt (r.get "Electric Range") ≠ none :=
    fun r hr => hparse r (List.mem_filter.1 hr).1
  have hpos : 0 < e.value := by
    rw [h2]
    exact List.length_pos.2 h1
  have hmass : (totalOfRanges (countyRows (propertyKey e.name) evData)).natAbs < 2 ^ 52 :=
    lt_of_le_of_lt (natAbs_totalOfRanges_le _)
      (lt_of_le_of_lt (rangeMass_filter_le _ _) hsmall)
  have hspec := roundHalfUp_spec (totalOfRanges (countyRows (propertyKey e.name) evData))
    e.value hpos
  refine ⟨h2, ?_, ?_, hspec.1, hspec.2⟩
  · rw [h3, sumRanges_parsed _ hrows]
  · rw [h4, sumRanges_parsed _ hrows, ← h2, divRound_int _ _ hpos hmass]

theorem getCountyDistribution_average_witness :
    (∀ r ∈ kingRows, parseInt (r.get "Electric Range") ≠ none) ∧
    rangeMass kingRows < 2 ^ 52 ∧
    (∀ r ∈ kingRows, inheritedName (r.get "County") = false) ∧
    ∀ e ∈ getCountyDistribution kingRows,
      e.value = (recordsOf "County" e.name kingRows).length ∧
      e.totalRange = Num.int (totalOfRanges (recordsOf "County" e.name kingRows)) ∧
      e.avgRange = Num.int (roundHalfUp (totalOfRanges (recordsOf "County" e.name kingRows))
        e.value) ∧
      ((roundHalfUp (totalOfRanges (recordsOf "County" e.name kingRows)) e.value : Int) : ℚ)
          - 1 / 2 ≤
        (totalOfRanges (recordsOf "County" e.name kingRows) : ℚ) / e.value ∧
      (totalOfRanges (recordsOf "County" e.name kingRows) : ℚ) / e.value <
        ((roundHalfUp (totalOfRanges (recordsOf "County" e.name kingRows)) e.value : Int) : ℚ)
          + 1 / 2 :=
  ⟨by decide, by decide, by decide,
    (getCountyDistribution_average kingRows (by decide) (by decide) (by decide)).2⟩

/-- C15, as the code has it: when every Electric Range parses, the ranges are of
moderate size and the Makes are not names of inherited properties, the average
range of a manufacturer in the range ranking is the quotient of its total range
by the number of its records rounded to the nearest integer, a half upwards
(2.5 gives 3, -2.5 gives -2), which for a total that is not negative is the
rounding of halves away from zero; and the average ranges do not increase along
the ranking. A row of Make KIA and range 30 comes before the two rows without
Make and of Make "undefined", which are one manufacturer of average 15. -/
theorem getRangeByMake_average (evData : List Record)
    (hparse : ∀ r ∈ evData, parseInt (r.get "Electric Range") ≠ none)
    (hsmall : rangeMass evData < 2 ^ 52)
    (hkeys : ∀ r ∈ evData, inheritedName (r.get "Make") = false) :
    (getRangeByMake unnamedRows).map (fun e => (e.make, e.totalVehicles, e.averageRange)) =
      [(some "KIA", 1, Num.int 30), (none, 2, Num.int 15)] ∧
    (∀ e ∈ getRangeByMake evData,
      e.totalVehicles = (recordsOf "Make" e.make evData).length ∧
      e.averageRange = Num.int (roundHalfUp (totalOfRanges (recordsOf "Make" e.make evData))
        e.totalVehicles) ∧
      ((roundHalfUp (totalOfRanges (recordsOf "Make" e.make evData)) e.totalVehicles : Int)
          : ℚ) - 1 / 2 ≤
        (totalOfRanges (recordsOf "Make" e.make evData) : ℚ) / e.totalVehicles ∧
      (totalOfRanges (recordsOf "Make" e.make evData) : ℚ) / e.totalVehicles <
        ((roundHalfUp (totalOfRanges (recordsOf "Make" e.make evData)) e.totalVehicles : Int)
          : ℚ) + 1 / 2 ∧
      (0 ≤ totalOfRanges (recordsOf "Make" e.make evData) →
        roundHalfUp (totalOfRanges (recordsOf "Make" e.make evData)) e.totalVehicles =
          roundHalfAway (totalOfRanges (recordsOf "Make" e.make evData)) e.totalVehicles)) ∧
    (getRangeByMake evData).Pairwise (fun a b =>
      ∃ x y : Int, a.averageRange = Num.int x ∧ b.averageRange = Num.int y ∧ y ≤ x) := by
  have _ := hkeys
  refine ⟨by decide, ?_, ?_⟩
  · intro e he
    rw [recordsOf_make]
    obtain ⟨hpos, havg⟩ := getRangeByMake_parsed evData hparse hsmall e he
    have hspec := roundHalfUp_spec (totalOfRanges (makeRows (propertyKey e.make) evData))
      e.totalVehicles hpos
    refine ⟨(getRangeByMake_mem evData e he).2.1, havg, hspec.1, hspec.2, ?_⟩
    intro h0
    simp only [roundHalfUp, roundHalfAway, if_neg (not_lt.2 h0)]
  · have hall : ∀ e ∈ getRangeByMake evData, ∃ x : Int, e.averageRange = Num.int x :=
      fun e he => ⟨_, (getRangeByMake_parsed evData hparse hsmall e he).2⟩
    have hpre : ∀ e ∈ (evData.foldl makeRangeStep []).map (fun e =>
        MakeRangeEntry.mk e.2.make (divRound e.2.totalRange e.2.count) e.2.models.length
          e.2.years.length e.2.count (percentageOf e.2.count evData.length)),
        ∃ x : Int, e.averageRange = Num.int x :=
      fun e he => hall e ((arraySort_perm _ _).mem_iff.2 he)
    exact arraySort_rel_of_forall _ _ (fun e : MakeRangeEntry => ∃ x : Int, e.averageRange = Num.int x)
      (fun a b ⟨x, hx⟩ ⟨y, hy⟩ h => ⟨x, y, hx, hy, by
        simp only [hx, hy, Num.sub, compareOrder] at h
        omega⟩)
      (fun a b ⟨x, hx⟩ ⟨y, hy⟩ h => ⟨y, x, hy, hx, by
        simp only [hx, hy, Num.sub, compareOrder] at h
        omega⟩)
      (fun a b c _ _ _ ⟨x, y, hx, hy, hxy⟩ ⟨y2, z, hy2, hz, hyz⟩ => ⟨x, z, hx, hz, by
        rw [hy] at hy2
        injection hy2 with hyy
        omega⟩)
      _ hpre

theorem getRangeByMake_average_witness :
    (∀ r ∈ negativeRows, parseInt (r.get "Electric Range") ≠ none) ∧
    rangeMass negativeRows < 2 ^ 52 ∧
    (∀ r ∈ negativeRows, inheritedName (r.get "Make") = false) ∧
    (getRangeByMake negativeRows).Pairwise (fun a b =>
      ∃ x y : Int, a.averageRange = Num.int x ∧ b.averageRange = Num.int y ∧ y ≤ x) :=
  ⟨by decide, by decide, by decide,
    (getRangeByMake_average negativeRows (by decide) (by decide) (by decide)).2.2⟩

end Dashboard
